import Mathlib

/-!
Verification development for the AZEN card-game engine (single-file Go
program `azen-termux.go`).

Shallow embedding conventions:
* A card is represented by its rank alone (a natural number, 3..16 with
  15 = the wildcard Two and 16 = the reset Joker).  The Go `Card` also
  carries a suit, but the source never lets a suit affect legality,
  state transition, move identity (`moveKey` prints ranks only), hand
  removal (`Hand.Remove` matches by rank), or any knowledge/engine
  computation modelled here, so the rank is a faithful representation.
* Go `int` values that can be negative are modelled as `Int`
  (`GameState.Winner`, knowledge hand counts, card-count differences);
  loop counters and sizes that stay non-negative are `Nat`.
* Go `float64` statistics are modelled as `Rat`: every modelled claim is
  about control flow, ordering by strict comparison, and exact division,
  none of which depend on floating-point rounding.
* Functions returning Go `error` are modelled as `Bool`/`Option`
  (the message text is irrelevant to every claim).
* The engine's random source and wall clock are environment inputs: a
  shuffle becomes an explicit permutation argument, repeated
  `rand`/rollout results become an oracle `ℕ → ...`, and each
  `time.Now().After(deadline)` reading becomes an oracle `ℕ → Bool`.
-/

namespace Azen

/-! ### Cards (`azen-termux.go`, CARDS section) -/

/-- Go `Card.IsWild`: only the Two (rank 15) is wild. -/
def isWild (r : ℕ) : Bool := r = 15

/-- Go `Card.IsReset`: the Joker (rank 16) resets the round. -/
def isReset (r : ℕ) : Bool := r = 16

/-- Go `Card.IsSpecial`. -/
def isSpecial (r : ℕ) : Bool := isWild r || isReset r

/-- Go `NormalRanks()`: the natural ranks 3..14. -/
def normalRanksList : List ℕ := [3, 4, 5, 6, 7, 8, 9, 10, 11, 12, 13, 14]

/-! ### Moves and game state (`azen-termux.go`, GAME section) -/

/-- Go `Move` (suit dropped, see header). -/
structure Move where
  playerID : ℕ
  cards : List ℕ
  isPass : Bool
deriving DecidableEq

/-- Go `PassMove`. -/
def passMove (pid : ℕ) : Move := ⟨pid, [], true⟩

/-- Go `Move.ContainsReset`. -/
def Move.containsReset (m : Move) : Bool := m.cards.any isReset

/-- Go `Move.EffectiveRank`: highest non-special rank, or the table rank
if the move holds only special cards. -/
def Move.effectiveRank (m : Move) (tableRank : ℕ) : ℕ :=
  let best := m.cards.foldl (fun b c => if ¬ isSpecial c ∧ b < c then c else b) 0
  if best = 0 then tableRank else best

/-- Go `RoundState`. -/
structure RoundState where
  count : ℕ
  tableRank : ℕ
  isOpen : Bool
  lastPlayerID : ℕ
  consecPasses : ℕ
deriving DecidableEq

/-- Go `GameState` (the `Winner` field is `-1` before anyone finishes). -/
structure GameState where
  numPlayers : ℕ
  hands : List (List ℕ)
  currentTurn : ℕ
  round : RoundState
  played : List ℕ
  history : List Move
  gameOver : Bool
  winner : ℤ
  ranking : List ℕ
  finished : List Bool
  deadCards : List ℕ
deriving DecidableEq

/-- Go `NewGameWithHands`: fresh position with the given hands, open round,
nobody finished. -/
def newGameWithHands (hands : List (List ℕ)) (dead : List ℕ)
    (startPlayer : ℕ) : GameState :=
  { numPlayers := hands.length
    hands := hands
    currentTurn := startPlayer
    round := { count := 0, tableRank := 0, isOpen := true, lastPlayerID := 0, consecPasses := 0 }
    played := []
    history := []
    gameOver := false
    winner := -1
    ranking := []
    finished := List.replicate hands.length false
    deadCards := dead }

/-- Go `GameState.activePlayerCount`: players not yet finished. -/
def GameState.activePlayerCount (gs : GameState) : ℕ :=
  (gs.finished.filter (fun f => !f)).length

/-- Go `GameState.nextActiveTurn`: first non-finished player after `fromPID`
in seat order (wrapping); `fromPID` itself if none is found. -/
def GameState.nextActiveTurn (gs : GameState) (fromPID : ℕ) : ℕ :=
  match (List.range' 1 gs.numPlayers).find?
      (fun i => ¬ gs.finished.getD ((fromPID + i) % gs.numPlayers) false) with
  | some i => (fromPID + i) % gs.numPlayers
  | none => fromPID

/-- Go `GameState.passThreshold`. -/
def GameState.passThreshold (gs : GameState) : ℕ :=
  let active := gs.activePlayerCount
  if gs.finished.getD gs.round.lastPlayerID false then active else active - 1

/-- Go `GameState.finishPlayer`: mark `pid` finished, append to the ranking,
and end the game (auto-finishing the one remaining player) when at most one
active player is left.  Returns the new state and whether the game ended. -/
def GameState.finishPlayer (gs : GameState) (pid : ℕ) : GameState × Bool :=
  let gs1 : GameState :=
    { gs with finished := gs.finished.set pid true
              ranking := gs.ranking ++ [pid]
              winner := if gs.winner = -1 then (pid : ℤ) else gs.winner }
  if gs1.activePlayerCount ≤ 1 then
    let gs2 : GameState :=
      match gs1.finished.findIdx? (fun f => f = false) with
      | some i => { gs1 with ranking := gs1.ranking ++ [i], finished := gs1.finished.set i true }
      | none => gs1
    ({ gs2 with gameOver := true }, true)
  else (gs1, false)

/-! ### Hand removal (`Hand.Remove`) -/

/-- Remove the first element equal to `r`; `none` if absent.
This is the first scan inside Go `Hand.Remove`. -/
def eraseFirst (l : List ℕ) (r : ℕ) : Option (List ℕ) :=
  match l with
  | [] => none
  | x :: xs => if x = r then some xs else (eraseFirst xs r).map (x :: ·)

/-- One iteration of Go `Hand.Remove`: take out a card of rank `c`, falling
back to a rank-0 card (dead code for real hands, kept faithful). -/
def removeOne (rem : List ℕ) (c : ℕ) : Option (List ℕ) :=
  match eraseFirst rem c with
  | some l => some l
  | none => eraseFirst rem 0

/-- Go `Hand.Remove`: remove each played card from the hand, failing if one
is missing (in which case the Go method leaves the hand unchanged). -/
def handRemove (hand : List ℕ) (cc : List ℕ) : Option (List ℕ) :=
  cc.foldlM removeOne hand

/-! ### Move validation (`ValidateMove` and helpers) -/

/-- Go `classifyCards` accumulator loop: `none` models the
"all normal cards must share one rank" error. -/
def classifyAux : List ℕ → Bool → Bool → ℕ → Option (Bool × Bool × ℕ)
  | [], hr, hn, nr => some (hr, hn, nr)
  | c :: rest, hr, hn, nr =>
    if isReset c then classifyAux rest true hn nr
    else if isWild c then classifyAux rest hr hn nr
    else if nr = 0 then classifyAux rest hr true c
    else if c ≠ nr then none
    else classifyAux rest hr true nr

/-- Go `classifyCards`: `(hasReset, hasNormal, normalRank)` or an error. -/
def classifyCards (cc : List ℕ) : Option (Bool × Bool × ℕ) :=
  classifyAux cc false false 0

/-- Go `GameState.validateOpenPlay`. -/
def GameState.validateOpenPlay (_gs : GameState) (m : Move) : Bool :=
  match classifyCards m.cards with
  | none => false
  | some (hasReset, hasNormal, _) => ¬ (hasReset ∧ hasNormal)

/-- Go `GameState.validateResponsePlay`. -/
def GameState.validateResponsePlay (gs : GameState) (m : Move) : Bool :=
  match classifyCards m.cards with
  | none => false
  | some (hasReset, hasNormal, normalRank) =>
    if hasReset ∧ hasNormal then false
    else if m.cards.length ≠ gs.round.count then false
    else if normalRank ≠ 0 ∧ normalRank ≤ gs.round.tableRank then false
    else true

/-- Go `GameState.ValidateMove` (`true` models a `nil` error). -/
def GameState.validateMove (gs : GameState) (m : Move) : Bool :=
  if gs.gameOver then false
  else if m.playerID ≠ gs.currentTurn then false
  else if m.isPass then true
  else if m.cards = [] then false
  else match handRemove (gs.hands.getD m.playerID []) m.cards with
    | none => false
    | some _ =>
      if gs.round.isOpen then gs.validateOpenPlay m else gs.validateResponsePlay m

/-! ### State transition (`ApplyMove`) -/

/-- Go `GameState.ApplyMove`.  The caller is expected to have validated the
move; like the source, an un-removable card list leaves the hand unchanged. -/
def GameState.applyMove (gs0 : GameState) (m : Move) : GameState :=
  let gs : GameState := { gs0 with history := gs0.history ++ [m] }
  let pid := m.playerID
  if m.isPass then
    let cp := gs.round.consecPasses + 1
    if gs.passThreshold ≤ cp then
      let lastPID := gs.round.lastPlayerID
      let gs1 : GameState :=
        { gs with round := { count := 0, tableRank := 0, isOpen := true,
                             lastPlayerID := lastPID, consecPasses := 0 } }
      if gs1.finished.getD lastPID false then
        { gs1 with currentTurn := gs1.nextActiveTurn lastPID }
      else
        { gs1 with currentTurn := lastPID }
    else
      { gs with round := { gs.round with consecPasses := cp },
                currentTurn := gs.nextActiveTurn pid }
  else
    let newHand := (handRemove (gs.hands.getD pid []) m.cards).getD (gs.hands.getD pid [])
    let gs1 : GameState :=
      { gs with hands := gs.hands.set pid newHand, played := gs.played ++ m.cards }
    if (gs1.hands.getD pid []).isEmpty then
      let fin := gs1.finishPlayer pid
      if fin.2 then fin.1
      else if m.containsReset then
        { fin.1 with
            round := { count := 0, tableRank := 0, isOpen := true,
                       lastPlayerID := pid, consecPasses := 0 },
            currentTurn := fin.1.nextActiveTurn pid }
      else
        { fin.1 with
            round := { count := m.cards.length,
                       tableRank := m.effectiveRank gs1.round.tableRank,
                       isOpen := false, lastPlayerID := pid, consecPasses := 0 },
            currentTurn := fin.1.nextActiveTurn pid }
    else if m.containsReset then
      { gs1 with
          round := { count := 0, tableRank := 0, isOpen := true,
                     lastPlayerID := pid, consecPasses := 0 },
          currentTurn := pid }
    else
      let er := m.effectiveRank gs1.round.tableRank
      if gs1.round.isOpen then
        { gs1 with
            round := { count := m.cards.length, tableRank := er, isOpen := false,
                       lastPlayerID := pid, consecPasses := 0 },
            currentTurn := gs1.nextActiveTurn pid }
      else
        { gs1 with
            round := { gs1.round with tableRank := er, lastPlayerID := pid, consecPasses := 0 },
            currentTurn := gs1.nextActiveTurn pid }

/-! ### Legal move generation (`GetLegalMoves` and generator helpers) -/

/-- Go `combos`: all size-`k` index-increasing selections from `arr`.
`List.sublistsLen` enumerates exactly the length-`k` sublists, the same
collection (order of enumeration is irrelevant to move-set identity). -/
def combos (arr : List ℕ) (k : ℕ) : List (List ℕ) :=
  List.sublistsLen k arr

/-- Go `moveKey`/`mkey` identify a move by its sorted rank string
("PASS" for passes): over rank-cards this is exactly the pass flag plus the
multiset of ranks. -/
def mkey (m : Move) : Option (Multiset ℕ) :=
  if m.isPass then none else some (Multiset.ofList m.cards)

/-- Go `MovesEqual`. -/
def movesEqual (a b : Move) : Bool :=
  if a.isPass ∧ b.isPass then true
  else if a.isPass ≠ b.isPass then false
  else if a.cards.length ≠ b.cards.length then false
  else mkey a = mkey b

/-- Go `dedup`, threading the `seen` key set. -/
def dedupAux : List Move → List (Option (Multiset ℕ)) → List Move
  | [], _ => []
  | m :: rest, seen =>
    if mkey m ∈ seen then dedupAux rest seen
    else m :: dedupAux rest (mkey m :: seen)

/-- Go `dedup`: keep the first move of each card-multiset key. -/
def dedup (moves : List Move) : List Move := dedupAux moves []

/-- Go `gatherWilds`. -/
def gatherWilds (hand : List ℕ) : List ℕ := hand.filter isWild

/-- Go `gatherResets`. -/
def gatherResets (hand : List ℕ) : List ℕ := hand.filter isReset

/-- Go loop `for lo <= i <= hi` as a list of indices. -/
def loopRange (lo hi : ℕ) : List ℕ := List.range' lo (hi + 1 - lo)

/-- Go `genResetMoves`: one or more Jokers padded with wildcards, total
capped at 6 (the `6-numReset` bound is an `int`, negative for more than 6
resets, so no wild loop runs there). -/
def genResetMoves (pid : ℕ) (resets wilds : List ℕ) : List Move :=
  (loopRange 1 resets.length).flatMap fun numReset =>
    let maxW : ℤ := min (wilds.length : ℤ) (6 - (numReset : ℤ))
    let rCombos := combos resets numReset
    (if maxW < 0 then [] else loopRange 0 maxW.toNat).flatMap fun numWild =>
      if numWild = 0 then
        rCombos.map fun rc => Move.mk pid rc false
      else
        rCombos.flatMap fun rc =>
          (combos wilds numWild).map fun wc => Move.mk pid (rc ++ wc) false

/-- Go `genResetResponseMoves`: Jokers plus wildcards sized exactly to the
round's required count. -/
def genResetResponseMoves (pid : ℕ) (resets wilds : List ℕ) (need : ℕ) : List Move :=
  (loopRange 1 (min resets.length need)).flatMap fun numReset =>
    let numWild := need - numReset
    if wilds.length < numWild then []
    else
      let rCombos := combos resets numReset
      if numWild = 0 then
        rCombos.map fun rc => Move.mk pid rc false
      else
        rCombos.flatMap fun rc =>
          (combos wilds numWild).map fun wc => Move.mk pid (rc ++ wc) false

/-- Go `genOpenMoves`: every same-rank combination padded with wildcards up
to 6 cards total, every pure-wildcard combination up to 6 cards, and the
reset combinations; de-duplicated by card multiset. -/
def genOpenMoves (pid : ℕ) (hand : List ℕ) : List Move :=
  let wilds := gatherWilds hand
  let resets := gatherResets hand
  let rankMoves := normalRanksList.flatMap fun rank =>
    let normals := hand.filter (· = rank)
    if normals.length = 0 then []
    else
      let maxTotal := min (normals.length + wilds.length) 6
      (loopRange 1 maxTotal).flatMap fun total =>
        (loopRange (max 1 (total - wilds.length)) (min normals.length total)).flatMap
          fun numNorm =>
            let numWild := total - numNorm
            if wilds.length < numWild then []
            else
              (combos normals numNorm).flatMap fun nc =>
                if numWild = 0 then [Move.mk pid nc false]
                else (combos wilds numWild).map fun wc => Move.mk pid (nc ++ wc) false
  let wildMoves := (loopRange 1 (min wilds.length 6)).flatMap fun total =>
    (combos wilds total).map fun wc => Move.mk pid wc false
  dedup (rankMoves ++ wildMoves ++ genResetMoves pid resets wilds)

/-- Go `genResponseMoves`: combinations of exactly the required count whose
natural rank beats the table rank, pure-wildcard combinations of that count,
and sized reset combinations; de-duplicated by card multiset. -/
def genResponseMoves (pid : ℕ) (hand : List ℕ) (round : RoundState) : List Move :=
  let need := round.count
  let tableRank := round.tableRank
  let wilds := gatherWilds hand
  let resets := gatherResets hand
  let rankMoves := normalRanksList.flatMap fun rank =>
    if rank ≤ tableRank then []
    else
      let normals := hand.filter (· = rank)
      if normals.length = 0 then []
      else
        (loopRange (max 1 (need - wilds.length)) (min normals.length need)).flatMap
          fun numNorm =>
            let numWild := need - numNorm
            if wilds.length < numWild then []
            else
              (combos normals numNorm).flatMap fun nc =>
                if numWild = 0 then [Move.mk pid nc false]
                else (combos wilds numWild).map fun wc => Move.mk pid (nc ++ wc) false
  let wildMoves :=
    if need ≤ wilds.length then (combos wilds need).map fun wc => Move.mk pid wc false
    else []
  dedup (rankMoves ++ wildMoves ++ genResetResponseMoves pid resets wilds need)

/-- Go `GameState.GetLegalMoves`: a pass plus the generated combinations
for the current player. -/
def GameState.getLegalMoves (gs : GameState) : List Move :=
  if gs.gameOver then []
  else
    let pid := gs.currentTurn
    let hand := gs.hands.getD pid []
    passMove pid ::
      (if gs.round.isOpen then genOpenMoves pid hand
       else genResponseMoves pid hand gs.round)

/-! ### Forced-win search (`findImmediateWin`, `forcedWinSearch`) -/

/-- Go `forcedWinSearch`'s "our turn" loop: try each move in order, returning
on the first forced win; threads the shared node counter. -/
def fwsAny (f : GameState → ℕ → Bool × ℕ) (gs : GameState) :
    List Move → ℕ → Bool × ℕ
  | [], nodes => (false, nodes)
  | m :: rest, nodes =>
    let r := f (gs.applyMove m) nodes
    if r.1 then (true, r.2) else fwsAny f gs rest r.2

/-- Go `forcedWinSearch`'s opponent loop: every reply must stay winning;
returns `false` at the first refutation. -/
def fwsAll (f : GameState → ℕ → Bool × ℕ) (gs : GameState) :
    List Move → ℕ → Bool × ℕ
  | [], nodes => (true, nodes)
  | m :: rest, nodes =>
    let r := f (gs.applyMove m) nodes
    if r.1 then fwsAll f gs rest r.2 else (false, r.2)

/-- Go `forcedWinSearch`: bounded minimax for a guaranteed win of `myID`,
with a depth bound and a node-expansion budget (both exhaust to `false`).
On the searcher's turn non-pass moves are tried first and a pass only in
response rounds; on any other turn every legal reply must stay winning. -/
def forcedWinSearch (myID maxNodes : ℕ) : ℕ → GameState → ℕ → Bool × ℕ
  | depth, gs, nodes0 =>
    let nodes := nodes0 + 1
    if maxNodes < nodes then (false, nodes)
    else if gs.gameOver then (decide (gs.winner = (myID : ℤ)), nodes)
    else match depth with
      | 0 => (false, nodes)
      | d + 1 =>
        let moves := gs.getLegalMoves
        if gs.currentTurn = myID then
          let r1 := fwsAny (forcedWinSearch myID maxNodes d) gs
            (moves.filter (fun m => !m.isPass)) nodes
          if r1.1 then (true, r1.2)
          else if gs.round.isOpen then (false, r1.2)
          else fwsAny (forcedWinSearch myID maxNodes d) gs
            (moves.filter (fun m => m.isPass)) r1.2
        else fwsAll (forcedWinSearch myID maxNodes d) gs moves nodes

/-- Go `findImmediateWin`'s second loop: try each non-pass move, returning it
if it wins outright or starts a forced win; threads the node counter across
candidates like the Go `&nodes` pointer. -/
def findForcedAux (gs : GameState) (pid maxDepth maxNodes : ℕ) :
    List Move → ℕ → Option Move
  | [], _ => none
  | m :: rest, nodes =>
    let sim := gs.applyMove m
    if sim.gameOver ∧ sim.winner = (pid : ℤ) then some m
    else
      let r := forcedWinSearch pid maxNodes (maxDepth - 1) sim nodes
      if r.1 then some m else findForcedAux gs pid maxDepth maxNodes rest r.2

/-- Go `findImmediateWin`: a hand-emptying move if one exists; otherwise,
only when at most 10 cards remain in total, the first move opening a forced
win under `forcedWinSearch` with depth `4 * totalCards` and budget 500000. -/
def findImmediateWin (gs : GameState) : Option Move :=
  let pid := gs.currentTurn
  let handCount := (gs.hands.getD pid []).length
  let moves := gs.getLegalMoves
  match moves.find? (fun m => !m.isPass && m.cards.length = handCount) with
  | some m => some m
  | none =>
    let totalCards := (gs.hands.map List.length).sum
    if 10 < totalCards then none
    else
      findForcedAux gs pid (totalCards * 4) 500000
        (moves.filter (fun m => !m.isPass)) 0

/-- Specification of a forced win: the game is over with `myID` the winner,
or it is `myID`'s turn and some legal move keeps the win forced, or it is an
opponent's turn and every legal reply keeps the win forced. -/
inductive ForcedWin (myID : ℕ) : GameState → Prop
  | terminal (gs : GameState) : gs.gameOver = true → gs.winner = (myID : ℤ) →
      ForcedWin myID gs
  | myTurn (gs : GameState) (m : Move) : gs.gameOver = false →
      gs.currentTurn = myID → m ∈ gs.getLegalMoves →
      ForcedWin myID (gs.applyMove m) → ForcedWin myID gs
  | oppTurn (gs : GameState) : gs.gameOver = false → gs.currentTurn ≠ myID →
      (∀ m ∈ gs.getLegalMoves, ForcedWin myID (gs.applyMove m)) →
      ForcedWin myID gs

/-! ### Knowledge tracker (`KnowledgeTracker`) -/

/-- Go `PassRecord`. -/
structure PassRecord where
  count : ℕ
  tableRank : ℕ
deriving DecidableEq

/-- Go `KnowledgeTracker`.  The Go maps `Suspicions` and `Exclusions` are
modelled as total functions (`[]`/`0` is the map's zero value);
`HandCounts` entries are `Int` since `RecordMove` may drive them negative. -/
structure KnowledgeTracker where
  numPlayers : ℕ
  myPlayerID : ℕ
  myHand : List ℕ
  cardsPlayed : List ℕ
  deadCards : List ℕ
  handCounts : List ℤ
  passRecords : List (List PassRecord)
  suspicions : ℕ → List ℕ
  exclusions : ℕ → ℕ → ℕ

/-- Go `NewKnowledgeTracker`: everyone starts at 18 recorded cards, and
every opponent is seeded with one suspected wildcard Two (rank 15). -/
def newKnowledgeTracker (numPlayers myID : ℕ) (myHand deadCards : List ℕ) :
    KnowledgeTracker :=
  { numPlayers := numPlayers
    myPlayerID := myID
    myHand := myHand
    cardsPlayed := []
    deadCards := deadCards
    handCounts := List.replicate numPlayers 18
    passRecords := List.replicate numPlayers []
    suspicions := fun p => if p < numPlayers ∧ p ≠ myID then [15] else []
    exclusions := fun _ _ => 0 }

/-- Go `KnowledgeTracker.RecordPass`: store a pass record only for an
opponent, in a response round requiring exactly one card, while their
recorded hand count is below 9. -/
def KnowledgeTracker.recordPass (kt : KnowledgeTracker) (passerID : ℕ)
    (round : RoundState) : KnowledgeTracker :=
  if passerID = kt.myPlayerID then kt
  else if round.isOpen then kt
  else if (9 : ℤ) ≤ kt.handCounts.getD passerID 0 then kt
  else if round.count ≠ 1 then kt
  else
    { kt with passRecords :=
        (kt.passRecords.set passerID
          (kt.passRecords.getD passerID [] ++ [⟨round.count, round.tableRank⟩])) }

/-- Go `KnowledgeTracker.ExcludedRanks` as the membership predicate of the
returned `map[ℕ]bool`: each pass record excludes the Joker, the Two and
every natural rank above its table rank; manual exclusions with a positive
count are added. -/
def KnowledgeTracker.excludedRanks (kt : KnowledgeTracker) (playerID : ℕ)
    (r : ℕ) : Bool :=
  (kt.passRecords.getD playerID []).any
      (fun pr => r = 16 || r = 15 || (decide (r ∈ normalRanksList) && pr.tableRank < r))
    || 0 < kt.exclusions playerID r

/-- Go `KnowledgeTracker.PossibleOpponentCards`: full deck multiplicities
(doubled for 4 players) minus the observer's hand, globally played cards and
dead cards (clamped at zero per rank). -/
def KnowledgeTracker.possibleOpponentCards (kt : KnowledgeTracker) : List ℕ :=
  let knownCount : ℕ → ℕ := fun r =>
    kt.myHand.count r + kt.cardsPlayed.count r + kt.deadCards.count r
  let numDecks := if kt.numPlayers = 4 then 2 else 1
  let totalCount : ℕ → ℕ := fun r => if r = 16 then 2 * numDecks else 4 * numDecks
  (normalRanksList ++ [15, 16]).flatMap fun r =>
    List.replicate (totalCount r - knownCount r) r

/-! ### Determinizer (`Engine.determinize`)

The Go code shuffles `PossibleOpponentCards` and then deterministically
assigns hands from the shuffled slice, tracking `used` flags.  The shuffle
is the only random step, so `determinize` is modelled over an explicit
post-shuffle pool (any permutation of the possible-card list), with the
`used` flags realised by threading the still-unused, index-tagged slice in
pool order. -/

/-- The tier partition of the unused pool for one opponent, in pool order:
tier 1 takes a card while its rank's remaining suspicion count is positive,
tier 3 takes excluded ranks, tier 2 the rest (Go's `tier1/tier2/tier3`
index lists with the `assignedSusp` counter). -/
def tiersOf (susp : ℕ → ℕ) (excluded : ℕ → Bool) :
    List (ℕ × ℕ) → List (ℕ × ℕ) × List (ℕ × ℕ) × List (ℕ × ℕ)
  | [] => ([], [], [])
  | c :: rest =>
    if 0 < susp c.2 then
      let t := tiersOf (fun r => if r = c.2 then susp r - 1 else susp r) excluded rest
      (c :: t.1, t.2.1, t.2.2)
    else if excluded c.2 then
      let t := tiersOf susp excluded rest
      (t.1, t.2.1, c :: t.2.2)
    else
      let t := tiersOf susp excluded rest
      (t.1, c :: t.2.1, t.2.2)

/-- One opponent's assignment inside Go `Engine.determinize`: partition the
unused pool into tiers, front-load Aces and Twos within tier 2 (the
strong-card bias, active only when cards are needed), take exactly the
recorded hand count (clamped at zero), and fail if the pool is short.
Returns the assigned hand and the remaining unused pool in pool order. -/
def assignOne (kt : KnowledgeTracker) (p : ℕ) (unused : List (ℕ × ℕ)) :
    Option (List ℕ × List (ℕ × ℕ)) :=
  let need : ℕ := (max (kt.handCounts.getD p 0) 0).toNat
  let excluded := fun r => kt.excludedRanks p r
  let suspCount : ℕ → ℕ := fun r => (kt.suspicions p).count r
  let t := tiersOf suspCount excluded unused
  let tier1 := t.1
  let tier3 := t.2.2
  let tier2 :=
    if 0 < need then
      t.2.1.filter (fun x => x.2 = 14 ∨ x.2 = 15)
        ++ t.2.1.filter (fun x => ¬ (x.2 = 14 ∨ x.2 = 15))
    else t.2.1
  let ordered := tier1 ++ tier2 ++ tier3
  if ordered.length < need then none
  else
    let taken := ordered.take need
    let takenIdx := taken.map Prod.fst
    some (taken.map Prod.snd, unused.filter (fun x => ¬ x.1 ∈ takenIdx))

/-- The per-player loop of Go `Engine.determinize`: skip the observer,
assign each opponent in seat order, fail when any assignment fails. -/
def detLoop (kt : KnowledgeTracker) :
    List ℕ → List (ℕ × ℕ) → List (List ℕ) → Option (List (List ℕ))
  | [], _, hands => some hands
  | p :: rest, unused, hands =>
    if p = kt.myPlayerID then detLoop kt rest unused hands
    else match assignOne kt p unused with
      | none => none
      | some hu => detLoop kt rest hu.2 (hands.set p hu.1)

/-- Go `Engine.determinize`, parameterised by the post-shuffle pool
`shuffled` (the one random step).  In omniscient mode the position is
returned unchanged (a clone); otherwise opponents' hands are replaced by
the sampled assignment, or `none` on a pool shortfall. -/
def determinize (omniscientMode : Bool) (gs : GameState) (kt : KnowledgeTracker)
    (shuffled : List ℕ) : Option GameState :=
  if omniscientMode then some gs
  else match detLoop kt (List.range gs.numPlayers) shuffled.enum gs.hands with
    | none => none
    | some hands1 => some { gs with hands := hands1 }

/-! ### Dominance filter (`filterDominatedMoves`) and root filtering -/

/-- The three card-class flags Go recomputes per move inside
`filterDominatedMoves`. -/
def hasWildCard (m : Move) : Bool := m.cards.any isWild

/-- Reset-card flag of a move's cards. -/
def hasResetCard (m : Move) : Bool := m.cards.any isReset

/-- Normal-card flag of a move's cards. -/
def hasNormalCard (m : Move) : Bool := m.cards.any (fun c => !isSpecial c)

/-- The highest effective rank over the pure-natural moves of the list
(Go's `maxNaturalRank` loop in `filterDominatedMoves`). -/
def maxNaturalRank (moves : List Move) (tableRank : ℕ) : ℕ :=
  moves.foldl
    (fun acc m =>
      if ¬ m.isPass ∧ ¬ hasWildCard m ∧ ¬ hasResetCard m ∧ hasNormalCard m
          ∧ acc < m.effectiveRank tableRank
      then m.effectiveRank tableRank else acc)
    0

/-- The per-move keep decision of Go `filterDominatedMoves` once a natural
maximum exists: passes stay; oversized special combinations go when a
natural move already beats the table; wildcard-free moves stay; pure-wild
moves go; wildcard moves with a normal or reset stay only when their
effective rank clears the (rank-dependent) threshold. -/
def keepMove (round : RoundState) (maxNatural : ℕ) (m : Move) : Bool :=
  if m.isPass then true
  else if round.count < m.cards.length ∧ (hasWildCard m ∨ hasResetCard m)
      ∧ round.tableRank < maxNatural then false
  else if ¬ hasWildCard m then true
  else if ¬ hasNormalCard m ∧ ¬ hasResetCard m then false
  else
    let threshold := if 10 ≤ maxNatural then maxNatural + 1 else maxNatural
    decide (threshold < m.effectiveRank round.tableRank)

/-- Go `filterDominatedMoves`: identity in open rounds and when no
pure-natural move exists; otherwise the per-move keep scan. -/
def filterDominatedMoves (moves : List Move) (round : RoundState) : List Move :=
  if round.isOpen then moves
  else
    let maxNatural := maxNaturalRank moves round.tableRank
    if maxNatural = 0 then moves
    else moves.filter (keepMove round maxNatural)

/-- The move-set choice at one node of Go `Engine.selectExpand`: the
pre-filtered root set only at the root (`node.parent == nil` and a filtered
set supplied), the full legal-move set everywhere else. -/
def selectExpandMoves (parentIsNil : Bool) (rootFiltered : Option (List Move))
    (gs : GameState) : List Move :=
  if parentIsNil ∧ rootFiltered.isSome then rootFiltered.getD []
  else gs.getLegalMoves

/-! ### Root statistics and move selection (`pickBest`, pass override)

One root child's accumulated statistics (`mctsNode.visits`/`wins` for a
root child, or one merged `workerResult` entry).  Win totals are `Rat`,
see the header. -/

/-- Statistics of one root-level move. -/
structure ChildStat where
  move : Move
  visits : ℕ
  wins : ℚ
deriving DecidableEq

/-- Go `MoveDetail`. -/
structure MoveDetail where
  move : Move
  winRate : ℚ
  visits : ℕ
deriving DecidableEq

/-- Go `MoveEval`. -/
structure MoveEval where
  score : ℚ
  visits : ℕ
  details : List MoveDetail
deriving DecidableEq

/-- Win rate of a child (0 when unvisited), as Go computes
`ch.wins / float64(ch.visits)` guarded by `visits > 0`. -/
def childWinRate (ch : ChildStat) : ℚ :=
  if 0 < ch.visits then ch.wins / ch.visits else 0

/-- Go `pickBest`'s omniscient-mode pass: best win rate among children with
at least 5% of the root's visits, scanned with strict improvement. -/
def pickOmniscient (children : List ChildStat) : Option ChildStat :=
  let totalV := (children.map (·.visits)).sum
  let minV := totalV / 20
  (children.foldl
    (fun (acc : Option ChildStat × ℚ) ch =>
      if minV ≤ ch.visits ∧ acc.2 < ch.wins / ch.visits then
        (some ch, ch.wins / ch.visits)
      else acc)
    (none, -1)).1

/-- Go `pickBest`'s fallback pass: most-visited child, scanned with strict
improvement (so the first child always replaces the `-1` start). -/
def pickByVisits (children : List ChildStat) : Option ChildStat :=
  (children.foldl
    (fun (acc : Option ChildStat × ℤ) ch =>
      if acc.2 < (ch.visits : ℤ) then (some ch, (ch.visits : ℤ)) else acc)
    (none, -1)).1

/-- Go `Engine.pickBest`: a pass with empty statistics when the root has no
children, otherwise the omniscient or visit-count selection plus the
per-child details.  The source's final bubble pass only reorders `Details`
by descending visits for display; the details list is kept in child order
here and every theorem about it is stated order-insensitively. -/
def pickBest (children : List ChildStat) (myID : ℕ) (omniscientMode : Bool) :
    Move × MoveEval :=
  match children with
  | [] => (passMove myID, ⟨0, 0, []⟩)
  | c0 :: _ =>
    let bestNode :=
      match (if omniscientMode then pickOmniscient children else none) with
      | some b => b
      | none => (pickByVisits children).getD c0
    let wr := childWinRate bestNode
    let details := children.map (fun ch => MoveDetail.mk ch.move (childWinRate ch) ch.visits)
    (bestNode.move, ⟨wr, bestNode.visits, details⟩)

/-- Go `minOppHandCount`: smallest active opposing hand (0 if none, via the
999 sentinel). -/
def minOppHandCount (gs : GameState) (myID : ℕ) : ℕ :=
  let m := (List.range gs.hands.length).foldl
    (fun acc i =>
      if i ≠ myID ∧ gs.finished.getD i false = false
          ∧ (gs.hands.getD i []).length < acc
      then (gs.hands.getD i []).length else acc)
    999
  if m = 999 then 0 else m

/-- Go `activePlayerCount` (the engine-level helper, line 2561): players
neither finished nor out of cards. -/
def engineActivePlayerCount (gs : GameState) : ℕ :=
  (List.range gs.hands.length).foldl
    (fun acc i =>
      if gs.finished.getD i false = false ∧ 0 < (gs.hands.getD i []).length
      then acc + 1 else acc)
    0

/-- Go `bestNonPassFromDetails`: visited non-pass detail with the highest
win rate, scanned with strict improvement. -/
def bestNonPassFromDetails (details : List MoveDetail) : Option Move :=
  (details.foldl
    (fun (acc : Option Move × ℚ) d =>
      if ¬ d.move.isPass ∧ 0 < d.visits ∧ acc.2 < d.winRate then
        (some d.move, d.winRate)
      else acc)
    (none, -1)).1

/-- One step of the `bestNonPassFromDetails` scan, named for the proofs. -/
def bnpStep (acc : Option Move × ℚ) (d : MoveDetail) : Option Move × ℚ :=
  if ¬ d.move.isPass ∧ 0 < d.visits ∧ acc.2 < d.winRate then
    (some d.move, d.winRate)
  else acc

/-- The pass-override condition shared by `Engine.BestMove` and
`Engine.bestMoveSingle`: the chosen move is a pass while the searcher is 4+
cards behind, or a two-active-player endgame has the opponent under 9 cards
or the searcher not strictly ahead. -/
def passOverrideCond (gs : GameState) (myCards oppCards : ℕ) : Prop :=
  (4 : ℤ) ≤ (myCards : ℤ) - (oppCards : ℤ)
    ∨ (engineActivePlayerCount gs ≤ 2 ∧ (oppCards < 9 ∨ oppCards ≤ myCards))

instance (gs : GameState) (a b : ℕ) : Decidable (passOverrideCond gs a b) := by
  unfold passOverrideCond; infer_instance

/-- The selection-and-override tail of Go `Engine.bestMoveSingle`
(lines 1929-1944), as a function of the root statistics the preceding
search loop accumulated. -/
def bestMoveSingleSelect (gs : GameState) (children : List ChildStat)
    (omniscientMode : Bool) : Move × MoveEval :=
  let r := pickBest children gs.currentTurn omniscientMode
  let myCards2 := (gs.hands.getD gs.currentTurn []).length
  let oppCards2 := minOppHandCount gs gs.currentTurn
  if r.1.isPass ∧ passOverrideCond gs myCards2 oppCards2 then
    match bestNonPassFromDetails r.2.details with
    | some m =>
      match r.2.details.find? (fun d => movesEqual d.move m) with
      | some d => (m, ⟨d.winRate, d.visits, r.2.details⟩)
      | none => r
    | none => r
  else r

/-! ### Search loop skeleton, seeds, and `AnalyzeMove`

The per-iteration body of the ISMCTS loop (determinize, select/expand,
rollout, backpropagate) draws on the worker's random stream and float
arithmetic; for the loop-level claims it is abstracted as an arbitrary
state-transition function, while the loop control (iteration budget,
per-iteration deadline reading, skip of failed determinizations) is
embedded from the source. -/

/-- The `for iter := 0; iter < iters; iter++` loop of `Engine.bestMoveSingle`
and `Engine.runWorker`: `deadlinePassed i` models the `time.Now()` reading
at iteration `i`; a passed deadline breaks out of the loop. -/
def searchLoopFrom {σ : Type} (hasDeadline : Bool) (deadlinePassed : ℕ → Bool)
    (step : ℕ → σ → σ) : ℕ → ℕ → σ → σ
  | 0, _, s => s
  | r + 1, iter, s =>
    if hasDeadline ∧ deadlinePassed iter then s
    else searchLoopFrom hasDeadline deadlinePassed step r (iter + 1) (step iter s)

/-- The full iteration loop, from iteration 0. -/
def searchLoop {σ : Type} (hasDeadline : Bool) (deadlinePassed : ℕ → Bool)
    (iters : ℕ) (step : ℕ → σ → σ) (s : σ) : σ :=
  searchLoopFrom hasDeadline deadlinePassed step iters 0 s

/-- One search iteration's outer structure (`bestMoveSingle` lines
1921-1927): a failed determinization (`none`) skips the body and leaves the
accumulated state unchanged; a successful one runs the body. -/
def iterStep {W σ : Type} (determinizeAt : ℕ → Option W) (body : ℕ → W → σ → σ)
    (i : ℕ) (s : σ) : σ :=
  match determinizeAt i with
  | none => s
  | some w => body i w s

/-- The seed loop of `Engine.BestMove` (lines 1792-1795): `master i` is the
i-th sequential draw from the master random source, all taken before any
worker starts. -/
def drawSeeds (master : ℕ → ℤ) (numWorkers : ℕ) : List ℤ :=
  (List.range numWorkers).map master

/-- Go `Engine.AnalyzeMove`'s fixed sample count. -/
def analyzeMoveSims : ℕ := 1000

/-- The accumulation loop of Go `Engine.AnalyzeMove`: `outcomes i` is the
i-th iteration's rollout result, or `none` when its determinization failed
(in which case Go `continue`s and adds nothing). -/
def analyzeMoveWins (outcomes : ℕ → Option ℚ) : ℚ :=
  (List.range analyzeMoveSims).foldl
    (fun w i => match outcomes i with | none => w | some r => w + r) 0

/-- Go `Engine.AnalyzeMove`'s returned detail: the accumulated wins divided
by the fixed `sims` count (not by the number of successful samples), with
`Visits` reported as `sims`. -/
def analyzeMoveDetail (m : Move) (outcomes : ℕ → Option ℚ) : MoveDetail :=
  ⟨m, analyzeMoveWins outcomes / (analyzeMoveSims : ℚ), analyzeMoveSims⟩

/-- The spec's claimed aggregation for `AnalyzeMove` (claim C9): the average
of rollout outcomes over only the determinizations that succeeded.
Modelled from the spec for comparison with `analyzeMoveDetail`. -/
def specAvgOverSuccesses (outcomes : ℕ → Option ℚ) : ℚ :=
  let succ := (List.range analyzeMoveSims).filterMap outcomes
  succ.sum / (succ.length : ℚ)

/-! ### Specification-side helper definitions used by the theorems -/

/-- The non-special (natural) cards of a list. -/
def normalsOf (l : List ℕ) : List ℕ := l.filter (fun c => !isSpecial c)

/-- Order-free description of `classifyCards` (proved equal to it for lists
of positive ranks): error iff two distinct natural ranks occur. -/
def classifySpec (l : List ℕ) : Option (Bool × Bool × ℕ) :=
  match normalsOf l with
  | [] => some (l.any isReset, false, 0)
  | c :: ns => if ns.all (· = c) then some (l.any isReset, true, c) else none

/-- Every card of the hand is a real rank (3..16). -/
def handValid (hand : List ℕ) : Prop := ∀ c ∈ hand, 3 ≤ c ∧ c ≤ 16

instance (hand : List ℕ) : Decidable (handValid hand) := by
  unfold handValid
  infer_instance

/-- Total number of cards in a position: hands plus played pile plus dead
pile (the conserved quantity of claim C2). -/
def totalCards (gs : GameState) : ℕ :=
  (gs.hands.map List.length).sum + gs.played.length + gs.deadCards.length

/-- Reachability invariant of `GameState` (claim C2): established by the
game constructors and preserved by `applyMove` on validated moves. -/
def Inv (gs : GameState) : Prop :=
  gs.hands.length = gs.numPlayers
  ∧ gs.finished.length = gs.numPlayers
  ∧ gs.currentTurn < gs.numPlayers
  ∧ gs.round.lastPlayerID < gs.numPlayers
  ∧ gs.ranking.Nodup
  ∧ (∀ p ∈ gs.ranking, p < gs.numPlayers)
  ∧ (∀ p < gs.numPlayers, (gs.finished.getD p false = true ↔ p ∈ gs.ranking))
  ∧ (gs.gameOver = true → ∀ p < gs.numPlayers, gs.finished.getD p false = true)
  ∧ (gs.gameOver = false → 2 ≤ gs.activePlayerCount)
  ∧ (gs.gameOver = false → gs.finished.getD gs.currentTurn false = false)
  ∧ (gs.gameOver = false →
      ∀ p < gs.numPlayers, gs.finished.getD p false = true → gs.hands.getD p [] = [])
  ∧ (∀ p < gs.numPlayers, handValid (gs.hands.getD p []))
  ∧ (gs.round.isOpen = false → 1 ≤ gs.round.count)

instance (gs : GameState) : Decidable (Inv gs) := by
  unfold Inv handValid
  infer_instance

/-- The cards a successful determinization hands to the opponents of the
observer (claim C4). -/
def opponentsCards (hands : List (List ℕ)) (numPlayers myID : ℕ) : Multiset ℕ :=
  ((List.range numPlayers).filter (fun p => p ≠ myID)).foldr
    (fun p acc => (hands.getD p [] : Multiset ℕ) + acc) 0

/-- Total cards the determinizer must supply (clamped hand counts of all
opponents). -/
def neededCards (kt : KnowledgeTracker) (numPlayers : ℕ) : ℕ :=
  (((List.range numPlayers).filter (fun p => p ≠ kt.myPlayerID)).map
    (fun p => (max (kt.handCounts.getD p 0) 0).toNat)).sum

/-! ## Claim C7: pass-based inference -/

/-- C7: `RecordPass` stores an inference record exactly when the passer is
an opponent of the observer, the round is a response round requiring one
card, and the passer's recorded hand count is below 9; after such a record
`ExcludedRanks` contains every natural rank above the recorded table rank
plus the Two (15) and the Joker (16); in every other case the tracker (and
hence its exclusion set) is unchanged. -/
theorem c7_recordPass_inference (kt : KnowledgeTracker) (p : ℕ) (round : RoundState)
    (hp : p < kt.passRecords.length) :
    ((p ≠ kt.myPlayerID ∧ round.isOpen = false ∧ round.count = 1
        ∧ kt.handCounts.getD p 0 < 9) →
      ∀ r : ℕ, ((r ∈ normalRanksList ∧ round.tableRank < r) ∨ r = 15 ∨ r = 16) →
        (kt.recordPass p round).excludedRanks p r = true)
    ∧ ((p = kt.myPlayerID ∨ round.isOpen = true ∨ round.count ≠ 1
        ∨ (9 : ℤ) ≤ kt.handCounts.getD p 0) →
      kt.recordPass p round = kt) := by
  constructor
  · rintro ⟨hme, hopen, hcount, hhand⟩ r hr
    have hrec : kt.recordPass p round =
        { kt with passRecords :=
            (kt.passRecords.set p
              (kt.passRecords.getD p [] ++ [⟨round.count, round.tableRank⟩])) } := by
      unfold KnowledgeTracker.recordPass
      split_ifs with h1 h2 h3 h4
      · exact absurd h1 hme
      · simp [h2] at hopen
      · exact absurd h3 (not_le.mpr hhand)
      · exact absurd hcount h4
      · rfl
    rw [hrec]
    have hget : (kt.passRecords.set p
          (kt.passRecords.getD p [] ++ [⟨round.count, round.tableRank⟩])).getD p []
        = kt.passRecords.getD p [] ++ [⟨round.count, round.tableRank⟩] := by
      simp [List.getD, List.getElem?_set_self', hp]
    simp only [KnowledgeTracker.excludedRanks, hget, List.any_append, List.any_cons,
      List.any_nil, Bool.or_eq_true, Bool.or_false]
    refine Or.inl (Or.inr ?_)
    rcases hr with ⟨hmem, hlt⟩ | rfl | rfl
    · simp [hmem, hlt]
    · simp
    · simp
  · intro h
    unfold KnowledgeTracker.recordPass
    split_ifs with h1 h2 h3 h4
    · rfl
    · rfl
    · rfl
    · rfl
    · exfalso
      rcases h with h | h | h | h
      · exact h1 h
      · simp [h] at h2
      · exact h4 h
      · exact h3 h

/-- Witness for C7, following the spec's scenario: a single-card pass at
table rank 9 by opponent 1 holding 7 recorded cards excludes ranks 10..14
and both special ranks for that opponent; an open-round pass changes
nothing. -/
theorem c7_witness :
    (∀ r ∈ [10, 11, 12, 13, 14, 15, 16],
      ((KnowledgeTracker.mk 2 0 [] [] [] [18, 7] [[], []]
          (fun _ => []) (fun _ _ => 0)).recordPass 1
            ⟨1, 9, false, 0, 0⟩).excludedRanks 1 r = true)
    ∧ ((KnowledgeTracker.mk 2 0 [] [] [] [18, 7] [[], []]
          (fun _ => []) (fun _ _ => 0)).recordPass 1 ⟨1, 9, true, 0, 0⟩
        = KnowledgeTracker.mk 2 0 [] [] [] [18, 7] [[], []]
            (fun _ => []) (fun _ _ => 0)) := by
  constructor
  · intro r hr
    refine (c7_recordPass_inference _ 1 ⟨1, 9, false, 0, 0⟩ (by decide)).1
      ⟨by decide, rfl, rfl, by decide⟩ r ?_
    fin_cases hr <;> simp [normalRanksList]
  · exact (c7_recordPass_inference _ 1 ⟨1, 9, true, 0, 0⟩ (by decide)).2
      (Or.inr (Or.inl rfl))

/-! ## Claim C8: determinism for a fixed seed -/

/-- Helper for C8: without a deadline the loop ignores the clock oracle. -/
theorem searchLoopFrom_no_deadline {σ : Type} (o1 o2 : ℕ → Bool)
    (step : ℕ → σ → σ) :
    ∀ (r iter : ℕ) (s : σ),
      searchLoopFrom false o1 step r iter s = searchLoopFrom false o2 step r iter s := by
  intro r
  induction r with
  | zero => intro iter s; rfl
  | succ n ih =>
    intro iter s
    simp only [searchLoopFrom, false_and, if_false]
    exact ih (iter + 1) (step iter s)

/-- C8 (amended): with no wall-clock deadline configured (Go `MaxTime <= 0`,
so `hasDeadline` is false) the search loop's result is a pure function of
its inputs — it does not depend on the per-iteration clock readings — so two
runs with the same master seed, configuration and inputs produce identical
statistics and hence an identical chosen move; and the worker seeds are
exactly the sequential draws from the master source taken before any worker
starts. -/
theorem c8_fixed_seed_determinism {σ : Type} (o1 o2 : ℕ → Bool) (iters : ℕ)
    (step : ℕ → σ → σ) (s : σ) (master : ℕ → ℤ) (numWorkers : ℕ) :
    searchLoop false o1 iters step s = searchLoop false o2 iters step s
    ∧ drawSeeds master numWorkers = (List.range numWorkers).map master := by
  exact ⟨searchLoopFrom_no_deadline o1 o2 step iters 0 s, rfl⟩

/-- Counterexample for C8 as stated: with a deadline configured
(`hasDeadline` true, Go `MaxTime > 0`), two runs differing only in the
environment's clock readings produce different results, so determinism for a
fixed seed does not hold unconditionally. -/
theorem c8_counterexample :
    searchLoop true (fun _ => false) 1 (fun _ n => n + 1) (0 : ℕ) = 1
    ∧ searchLoop true (fun _ => true) 1 (fun _ n => n + 1) (0 : ℕ) = 0
    ∧ (1 : ℕ) ≠ 0 := by
  refine ⟨rfl, rfl, by decide⟩

/-! ## Claim C9: determinization shortfall handling in `AnalyzeMove` -/

/-- Helper for C9: the accumulation loop of `AnalyzeMove` adds exactly the
successful outcomes. -/
theorem foldl_outcomes_eq_filterMap_sum (f : ℕ → Option ℚ) :
    ∀ (l : List ℕ) (w : ℚ),
      l.foldl (fun w i => match f i with | none => w | some r => w + r) w
        = w + (l.filterMap f).sum := by
  intro l
  induction l with
  | nil => intro w; simp
  | cons a t ih =>
    intro w
    simp only [List.foldl_cons, List.filterMap_cons]
    cases h : f a with
    | none => simpa using ih w
    | some r => simp [ih, add_assoc]

/-- C9 (amended): a failed determinization is a skipped iteration — the
iteration leaves the accumulated search state unchanged rather than
aborting — and `AnalyzeMove` reports the sum of the successful rollout
outcomes divided by the fixed sample count 1000 (failures count as zero),
with `Visits` reported as 1000; it does not average over only the
successful determinizations. -/
theorem c9_analyzeMove_shortfall (m : Move) (outcomes : ℕ → Option ℚ)
    {W σ : Type} (determinizeAt : ℕ → Option W) (body : ℕ → W → σ → σ)
    (i : ℕ) (s : σ) (hfail : determinizeAt i = none) :
    iterStep determinizeAt body i s = s
    ∧ analyzeMoveDetail m outcomes
        = ⟨m, ((List.range analyzeMoveSims).filterMap outcomes).sum
                / (analyzeMoveSims : ℚ), analyzeMoveSims⟩ := by
  constructor
  · simp [iterStep, hfail]
  · have h := foldl_outcomes_eq_filterMap_sum outcomes (List.range analyzeMoveSims) 0
    simp only [zero_add] at h
    simp [analyzeMoveDetail, analyzeMoveWins, h]

/-- Witness for C9. -/
theorem c9_witness :
    iterStep (fun _ => (none : Option ℕ)) (fun _ w s => s + w) 0 (5 : ℕ) = 5
    ∧ analyzeMoveDetail (passMove 0) (fun _ => (none : Option ℚ))
        = ⟨passMove 0, ((List.range analyzeMoveSims).filterMap
            (fun _ => (none : Option ℚ))).sum / (analyzeMoveSims : ℚ),
            analyzeMoveSims⟩ :=
  c9_analyzeMove_shortfall (passMove 0) (fun _ => none)
    (fun _ => (none : Option ℕ)) (fun _ w s => s + w) 0 (5 : ℕ) rfl

/-- Counterexample for C9 as stated: with exactly one successful
determinization whose rollout scores 1, `AnalyzeMove` reports 1/1000, while
the average over only the successful determinizations would be 1. -/
theorem c9_counterexample :
    (analyzeMoveDetail (passMove 0)
        (fun i => if i = 0 then some 1 else none)).winRate = 1 / 1000
    ∧ specAvgOverSuccesses (fun i => if i = 0 then some 1 else none) = 1
    ∧ (1 : ℚ) / 1000 ≠ 1 := by
  have hnone : ∀ l : List ℕ, l.filterMap (fun _ => (none : Option ℚ)) = [] := by
    intro l
    induction l with
    | nil => rfl
    | cons a t ih => simp [List.filterMap_cons, ih]
  have hfm : (List.range analyzeMoveSims).filterMap
      (fun i => if i = 0 then some (1 : ℚ) else none) = [1] := by
    rw [show analyzeMoveSims = 999 + 1 from rfl, List.range_succ_eq_map,
      List.filterMap_cons]
    simp only [if_pos rfl, List.filterMap_map]
    have hc : ((fun i => if i = 0 then some (1 : ℚ) else none) ∘ Nat.succ)
        = fun _ => (none : Option ℚ) := by
      funext i
      simp
    rw [hc, hnone]
    simp
  have hw := foldl_outcomes_eq_filterMap_sum
    (fun i => if i = 0 then some (1 : ℚ) else none) (List.range analyzeMoveSims) 0
  refine ⟨?_, ?_, by norm_num⟩
  · show analyzeMoveWins _ / _ = 1 / 1000
    rw [analyzeMoveWins, hw, hfm]
    norm_num [analyzeMoveSims]
  · simp [specAvgOverSuccesses, hfm]

/-! ## Lemma layer for the rules engine (claims C1, C2, C3, C6) -/

theorem isSpecial_iff {c : ℕ} : isSpecial c = true ↔ c = 15 ∨ c = 16 := by
  simp [isSpecial, isWild, isReset]

theorem not_isSpecial_iff {c : ℕ} : isSpecial c = false ↔ c ≠ 15 ∧ c ≠ 16 := by
  simp [isSpecial, isWild, isReset]

theorem normalsOf_cons_special {c : ℕ} (t : List ℕ) (h : isSpecial c = true) :
    normalsOf (c :: t) = normalsOf t := by
  simp [normalsOf, h]

theorem normalsOf_cons_normal {c : ℕ} (t : List ℕ) (h : isSpecial c = false) :
    normalsOf (c :: t) = c :: normalsOf t := by
  simp [normalsOf, h]

theorem classifyAux_after (l : List ℕ) (hr : Bool) (r : ℕ) (hrpos : 0 < r)
    (h0 : ∀ c ∈ l, 0 < c) :
    classifyAux l hr true r
      = if (normalsOf l).all (· = r) then some (hr || l.any isReset, true, r)
        else none := by
  induction l generalizing hr with
  | nil => simp [classifyAux, normalsOf]
  | cons c t ih =>
    have h0t : ∀ x ∈ t, 0 < x := fun x hx => h0 x (List.mem_cons_of_mem _ hx)
    have h0c : 0 < c := h0 c (List.mem_cons_self _ _)
    by_cases hcr : isReset c
    · have hcs : isSpecial c = true := by simp [isSpecial, hcr]
      have hstep : classifyAux (c :: t) hr true r = classifyAux t true true r := by
        simp [classifyAux, hcr]
      rw [hstep, ih true h0t, normalsOf_cons_special t hcs]
      have hany : (c :: t).any isReset = true := by simp [List.any_cons, hcr]
      rw [hany]
      rcases hall : (normalsOf t).all (· = r) with _ | _ <;> simp [hall]
    · by_cases hcw : isWild c
      · have hcs : isSpecial c = true := by simp [isSpecial, hcw]
        have hstep : classifyAux (c :: t) hr true r = classifyAux t hr true r := by
          simp [classifyAux, hcr, hcw]
        rw [hstep, ih hr h0t, normalsOf_cons_special t hcs]
        have hany : (c :: t).any isReset = t.any isReset := by
          simp [List.any_cons, hcr]
        rw [hany]
      · have hcs : isSpecial c = false := by simp [isSpecial, hcr, hcw]
        have hr0 : r ≠ 0 := Nat.pos_iff_ne_zero.mp hrpos
        by_cases hceq : c = r
        · subst hceq
          have hstep : classifyAux (c :: t) hr true c = classifyAux t hr true c := by
            simp [classifyAux, hcr, hcw, hr0]
          rw [hstep, ih hr h0t, normalsOf_cons_normal t hcs]
          have hany : (c :: t).any isReset = t.any isReset := by
            simp [List.any_cons, hcr]
          have hallc : (c :: normalsOf t).all (· = c)
              = (normalsOf t).all (· = c) := by
            simp [List.all_cons]
          rw [hany, hallc]
        · have hstep : classifyAux (c :: t) hr true r = none := by
            simp [classifyAux, hcr, hcw, hr0, hceq]
          rw [hstep, normalsOf_cons_normal t hcs]
          have hallc : (c :: normalsOf t).all (· = r) = false := by
            simp [List.all_cons, hceq]
          rw [hallc]
          simp

theorem classifyAux_fresh (l : List ℕ) (hr : Bool) (h0 : ∀ c ∈ l, 0 < c) :
    classifyAux l hr false 0
      = match normalsOf l with
        | [] => some (hr || l.any isReset, false, 0)
        | c :: ns =>
          if ns.all (· = c) then some (hr || l.any isReset, true, c) else none := by
  induction l generalizing hr with
  | nil => simp [classifyAux, normalsOf]
  | cons c t ih =>
    have h0t : ∀ x ∈ t, 0 < x := fun x hx => h0 x (List.mem_cons_of_mem _ hx)
    have h0c : 0 < c := h0 c (List.mem_cons_self _ _)
    by_cases hcr : isReset c
    · have hcs : isSpecial c = true := by simp [isSpecial, hcr]
      have hstep : classifyAux (c :: t) hr false 0 = classifyAux t true false 0 := by
        simp [classifyAux, hcr]
      have hany : (c :: t).any isReset = true := by simp [List.any_cons, hcr]
      rw [hstep, ih true h0t, normalsOf_cons_special t hcs, hany]
      cases hn : normalsOf t with
      | nil => simp
      | cons x xs => simp
    · by_cases hcw : isWild c
      · have hcs : isSpecial c = true := by simp [isSpecial, hcw]
        have hstep : classifyAux (c :: t) hr false 0 = classifyAux t hr false 0 := by
          simp [classifyAux, hcr, hcw]
        have hany : (c :: t).any isReset = t.any isReset := by
          simp [List.any_cons, hcr]
        rw [hstep, ih hr h0t, normalsOf_cons_special t hcs, hany]
      · have hcs : isSpecial c = false := by simp [isSpecial, hcr, hcw]
        have hstep : classifyAux (c :: t) hr false 0 = classifyAux t hr true c := by
          simp [classifyAux, hcr, hcw]
        have hany : (c :: t).any isReset = t.any isReset := by
          simp [List.any_cons, hcr]
        rw [hstep, classifyAux_after t hr c h0c h0t, normalsOf_cons_normal t hcs]
        rw [hany]

theorem classifyCards_eq_spec (l : List ℕ) (h0 : ∀ c ∈ l, 0 < c) :
    classifyCards l = classifySpec l := by
  rw [classifyCards, classifyAux_fresh l false h0, classifySpec]
  cases hn : normalsOf l with
  | nil => simp
  | cons c ns => simp

/-- For a nonempty list, the generator's "all equal to the head" test is the
pairwise-equality of all members. -/
theorem all_eq_head_iff_pairwise (c : ℕ) (ns : List ℕ) :
    ns.all (· = c) = true ↔ ∀ x ∈ c :: ns, ∀ y ∈ c :: ns, x = y := by
  simp only [List.all_eq_true, decide_eq_true_eq]
  constructor
  · intro h x hx y hy
    have hx' : x = c := by
      rcases List.mem_cons.mp hx with rfl | hx'
      · rfl
      · exact h x hx'
    have hy' : y = c := by
      rcases List.mem_cons.mp hy with rfl | hy'
      · rfl
      · exact h y hy'
    rw [hx', hy']
  · intro h x hx
    exact h x (List.mem_cons_of_mem _ hx) c (List.mem_cons_self _ _)

/-- `classifySpec` depends only on the multiset of cards. -/
theorem classifySpec_perm {l₁ l₂ : List ℕ} (h : l₁.Perm l₂) :
    classifySpec l₁ = classifySpec l₂ := by
  have hn : (normalsOf l₁).Perm (normalsOf l₂) := h.filter _
  have hany : l₁.any isReset = l₂.any isReset := by
    rcases hb : l₂.any isReset with _ | _
    · simp only [List.any_eq_false] at hb ⊢
      exact fun x hx => hb x (h.mem_iff.mp hx)
    · simp only [List.any_eq_true] at hb ⊢
      obtain ⟨x, hx, hxr⟩ := hb
      exact ⟨x, h.mem_iff.mpr hx, hxr⟩
  unfold classifySpec
  cases h1 : normalsOf l₁ with
  | nil =>
    have h2 : normalsOf l₂ = [] := (h1 ▸ hn).symm.eq_nil
    rw [h2, hany]
  | cons c ns =>
    cases h2 : normalsOf l₂ with
    | nil =>
      exfalso
      have hpn : (c :: ns).Perm ([] : List ℕ) := by rw [← h1, ← h2]; exact hn
      exact absurd hpn.length_eq (by simp)
    | cons d ms =>
      have hp : (c :: ns).Perm (d :: ms) := by rw [← h1, ← h2]; exact hn
      have hpair : (∀ x ∈ c :: ns, ∀ y ∈ c :: ns, x = y)
          ↔ (∀ x ∈ d :: ms, ∀ y ∈ d :: ms, x = y) := by
        constructor
        · intro hq x hx y hy
          exact hq x (hp.mem_iff.mpr hx) y (hp.mem_iff.mpr hy)
        · intro hq x hx y hy
          exact hq x (hp.mem_iff.mp hx) y (hp.mem_iff.mp hy)
      by_cases hall : ∀ x ∈ c :: ns, ∀ y ∈ c :: ns, x = y
      · have e1 : ns.all (· = c) = true := (all_eq_head_iff_pairwise c ns).mpr hall
        have e2 : ms.all (· = d) = true :=
          (all_eq_head_iff_pairwise d ms).mpr (hpair.mp hall)
        have hd : d = c :=
          hall d (hp.mem_iff.mpr (List.mem_cons_self _ _)) c (List.mem_cons_self _ _)
        rw [hd] at e2
        simp [e1, e2, hany, hd]
      · have e1 : ns.all (· = c) = false := by
          rcases hb : ns.all (· = c) with _ | _
          · rfl
          · exact absurd ((all_eq_head_iff_pairwise c ns).mp hb) hall
        have e2 : ms.all (· = d) = false := by
          rcases hb : ms.all (· = d) with _ | _
          · rfl
          · exact absurd (hpair.mpr ((all_eq_head_iff_pairwise d ms).mp hb)) hall
        simp [e1, e2]

theorem eraseFirst_of_mem {l : List ℕ} {r : ℕ} (h : r ∈ l) :
    eraseFirst l r = some (l.erase r) := by
  induction l with
  | nil => cases h
  | cons x xs ih =>
    by_cases hx : x = r
    · subst hx
      simp [eraseFirst, List.erase_cons_head]
    · have hr : r ∈ xs := by
        rcases List.mem_cons.mp h with h' | h'
        · exact absurd h'.symm hx
        · exact h'
      simp [eraseFirst, hx, ih hr, List.erase_cons_tail, hx]

theorem eraseFirst_of_not_mem {l : List ℕ} {r : ℕ} (h : r ∉ l) :
    eraseFirst l r = none := by
  induction l with
  | nil => rfl
  | cons x xs ih =>
    have hx : x ≠ r := fun he => h (he ▸ List.mem_cons_self _ _)
    have hr : r ∉ xs := fun hr => h (List.mem_cons_of_mem _ hr)
    simp [eraseFirst, hx, ih hr]

theorem removeOne_no_zero {l : List ℕ} (c : ℕ) (h0 : (0 : ℕ) ∉ l) :
    removeOne l c = if c ∈ l then some (l.erase c) else none := by
  by_cases hc : c ∈ l
  · simp [removeOne, eraseFirst_of_mem hc, hc]
  · simp [removeOne, eraseFirst_of_not_mem hc, eraseFirst_of_not_mem h0, hc]

theorem eraseFirst_cons (x : ℕ) (xs : List ℕ) (r : ℕ) :
    eraseFirst (x :: xs) r
      = if x = r then some xs else (eraseFirst xs r).map (x :: ·) := rfl

/-- Whatever `eraseFirst` returns is the input less one element. -/
theorem eraseFirst_some {r : ℕ} :
    ∀ {l l' : List ℕ}, eraseFirst l r = some l' →
      l'.Sublist l ∧ l'.length + 1 = l.length := by
  intro l
  induction l with
  | nil => intro l' h; cases h
  | cons x xs ih =>
    intro l' h
    rw [eraseFirst_cons] at h
    by_cases hx : x = r
    · rw [if_pos hx] at h
      injection h with h
      subst h
      exact ⟨List.sublist_cons_self x _, by simp⟩
    · rw [if_neg hx] at h
      cases he : eraseFirst xs r with
      | none => rw [he] at h; cases h
      | some a =>
        rw [he] at h
        injection h with h
        subst h
        obtain ⟨hs, hl⟩ := ih he
        exact ⟨List.Sublist.cons₂ x hs, by simp [hl]⟩

/-- Each successful removal step shrinks the hand by exactly one card
(whichever scan found the card) and returns a sublist. -/
theorem removeOne_some {l l' : List ℕ} {c : ℕ}
    (h : removeOne l c = some l') : l'.Sublist l ∧ l'.length + 1 = l.length := by
  unfold removeOne at h
  cases he : eraseFirst l c with
  | some a =>
    rw [he] at h
    injection h with h
    subst h
    exact eraseFirst_some he
  | none =>
    rw [he] at h
    exact eraseFirst_some h

theorem handRemove_nil (hand : List ℕ) : handRemove hand [] = some hand := rfl

theorem handRemove_cons (hand : List ℕ) (c : ℕ) (cc : List ℕ) :
    handRemove hand (c :: cc)
      = (removeOne hand c).bind (fun h1 => handRemove h1 cc) := by
  show List.foldlM removeOne hand (c :: cc) = _
  rw [List.foldlM_cons]
  cases removeOne hand c <;> rfl

/-- A successful `Hand.Remove` removes exactly the played cards:
the result is a sublist of the hand with the played count taken off. -/
theorem handRemove_some_spec {cc : List ℕ} :
    ∀ {hand h' : List ℕ}, handRemove hand cc = some h' →
      h'.Sublist hand ∧ h'.length + cc.length = hand.length := by
  induction cc with
  | nil =>
    intro hand h' h
    rw [handRemove_nil] at h
    cases h
    simp
  | cons c t ih =>
    intro hand h' h
    rw [handRemove_cons] at h
    cases h1 : removeOne hand c with
    | none => rw [h1] at h; cases h
    | some m =>
      rw [h1] at h
      simp only [Option.some_bind] at h
      obtain ⟨hs, hl⟩ := ih h
      obtain ⟨hs1, hl1⟩ := removeOne_some h1
      refine ⟨hs.trans hs1, ?_⟩
      simp only [List.length_cons]
      omega

/-- On hands without the impossible rank 0, `Hand.Remove` succeeds exactly
when the played cards form a sub-multiset of the hand. -/
theorem handRemove_isSome_iff {cc : List ℕ} :
    ∀ {hand : List ℕ}, (0 : ℕ) ∉ hand →
      ((handRemove hand cc).isSome ↔ (cc : Multiset ℕ) ≤ (hand : Multiset ℕ)) := by
  induction cc with
  | nil =>
    intro hand _
    rw [handRemove_nil]
    simp
  | cons c t ih =>
    intro hand h0
    rw [handRemove_cons, removeOne_no_zero c h0]
    by_cases hc : c ∈ hand
    · have h0' : (0 : ℕ) ∉ hand.erase c :=
        fun h => h0 ((hand.erase_sublist c).mem h)
      simp only [if_pos hc, Option.some_bind]
      rw [ih h0']
      constructor
      · intro hle
        calc ((c :: t : List ℕ) : Multiset ℕ)
            = c ::ₘ (t : Multiset ℕ) := by simp
          _ ≤ c ::ₘ ((hand.erase c : List ℕ) : Multiset ℕ) :=
              Multiset.cons_le_cons c hle
          _ = (hand : Multiset ℕ) := by
              rw [← Multiset.coe_erase, Multiset.cons_erase (by simpa using hc)]
      · intro hle
        have hle' : c ::ₘ (t : Multiset ℕ) ≤ (hand : Multiset ℕ) := by
          simpa using hle
        have h3 : (t : Multiset ℕ) ≤ ((hand : Multiset ℕ)).erase c := by
          have h2 := Multiset.erase_le_erase c hle'
          rwa [Multiset.erase_cons_head] at h2
        rwa [Multiset.coe_erase] at h3
    · simp only [if_neg hc, Option.none_bind]
      constructor
      · intro h; cases h
      · intro hle
        exfalso
        have : c ∈ (hand : Multiset ℕ) :=
          Multiset.mem_of_le hle (by simp)
        exact hc (by simpa using this)

/-! ### Dedup and small generator lemmas -/

theorem mem_of_mem_dedupAux {m : Move} :
    ∀ {l : List Move} {seen : List (Option (Multiset ℕ))},
      m ∈ dedupAux l seen → m ∈ l := by
  intro l
  induction l with
  | nil => intro seen h; cases h
  | cons x xs ih =>
    intro seen h
    rw [dedupAux] at h
    by_cases hx : mkey x ∈ seen
    · rw [if_pos hx] at h
      exact List.mem_cons_of_mem _ (ih h)
    · rw [if_neg hx] at h
      rcases List.mem_cons.mp h with rfl | h'
      · exact List.mem_cons_self _ _
      · exact List.mem_cons_of_mem _ (ih h')

theorem mem_of_mem_dedup {m : Move} {l : List Move} (h : m ∈ dedup l) : m ∈ l :=
  mem_of_mem_dedupAux h

theorem dedupAux_key_complete {K : Option (Multiset ℕ)} :
    ∀ {l : List Move} {seen : List (Option (Multiset ℕ))},
      (∃ x ∈ l, mkey x = K) → K ∉ seen →
      ∃ y ∈ dedupAux l seen, mkey y = K := by
  intro l
  induction l with
  | nil =>
    rintro seen ⟨x, hx, _⟩ _
    cases hx
  | cons x xs ih =>
    rintro seen ⟨w, hw, hwK⟩ hKs
    rw [dedupAux]
    by_cases hx : mkey x ∈ seen
    · rw [if_pos hx]
      rcases List.mem_cons.mp hw with rfl | hw'
      · exact absurd (hwK ▸ hx) hKs
      · exact ih ⟨w, hw', hwK⟩ hKs
    · rw [if_neg hx]
      by_cases hxK : mkey x = K
      · exact ⟨x, List.mem_cons_self _ _, hxK⟩
      · rcases List.mem_cons.mp hw with rfl | hw'
        · exact absurd hwK hxK
        · obtain ⟨y, hy, hyK⟩ := ih ⟨w, hw', hwK⟩
            (by
              intro hmem
              rcases List.mem_cons.mp hmem with he | he
              · exact hxK he.symm
              · exact hKs he)
          exact ⟨y, List.mem_cons_of_mem _ hy, hyK⟩

theorem dedup_key_complete {K : Option (Multiset ℕ)} {l : List Move}
    (h : ∃ x ∈ l, mkey x = K) : ∃ y ∈ dedup l, mkey y = K :=
  dedupAux_key_complete h (by simp)

theorem mem_loopRange_iff {lo hi x : ℕ} : x ∈ loopRange lo hi ↔ lo ≤ x ∧ x ≤ hi := by
  unfold loopRange
  rw [List.mem_range'_1]
  omega

theorem mem_combos_iff {arr : List ℕ} {k : ℕ} {l : List ℕ} :
    l ∈ combos arr k ↔ l.Sublist arr ∧ l.length = k := List.mem_sublistsLen

theorem take_mem_combos {arr : List ℕ} {k : ℕ} (h : k ≤ arr.length) :
    arr.take k ∈ combos arr k :=
  mem_combos_iff.mpr ⟨List.take_sublist k arr, by simp [List.length_take]; omega⟩

theorem gatherWilds_eq (hand : List ℕ) :
    gatherWilds hand = List.replicate (hand.count 15) 15 := by
  have : gatherWilds hand = hand.filter (fun x => decide (x = 15)) := rfl
  rw [this, List.filter_eq]

theorem gatherResets_eq (hand : List ℕ) :
    gatherResets hand = List.replicate (hand.count 16) 16 := by
  have : gatherResets hand = hand.filter (fun x => decide (x = 16)) := rfl
  rw [this, List.filter_eq]

theorem filter_rank_eq (hand : List ℕ) (r : ℕ) :
    hand.filter (· = r) = List.replicate (hand.count r) r := List.filter_eq hand r

theorem mem_normalRanksList_iff {r : ℕ} : r ∈ normalRanksList ↔ 3 ≤ r ∧ r ≤ 14 := by
  simp only [normalRanksList, List.mem_cons, List.not_mem_nil, or_false]
  constructor
  · rintro (rfl | rfl | rfl | rfl | rfl | rfl | rfl | rfl | rfl | rfl | rfl | rfl) <;>
      exact ⟨by norm_num, by norm_num⟩
  · rintro ⟨h1, h2⟩
    interval_cases r <;> simp

/-- A list whose members take at most two values is, as a multiset, the sum
of the two corresponding replications. -/
theorem multiset_eq_two_values {l : List ℕ} {a b : ℕ} (hab : a ≠ b)
    (h : ∀ x ∈ l, x = a ∨ x = b) :
    (l : Multiset ℕ)
      = ↑(List.replicate (l.count a) a ++ List.replicate (l.count b) b) := by
  rw [Multiset.ext]
  intro x
  rw [Multiset.coe_count, Multiset.coe_count, List.count_append,
    List.count_replicate, List.count_replicate]
  by_cases hxa : x = a
  · subst hxa
    simp [Ne.symm hab]
  · by_cases hxb : x = b
    · subst hxb
      simp [hab]
    · have hcx : l.count x = 0 := by
        rw [List.count_eq_zero]
        intro hmem
        rcases h x hmem with rfl | rfl
        · exact hxa rfl
        · exact hxb rfl
      simp only [hcx, beq_iff_eq]
      rw [if_neg (fun hh => hxa hh.symm), if_neg (fun hh => hxb hh.symm)]

/-! ### Card-shape descriptions of the generated combinations -/

/-- Shape of every non-pass combination `genOpenMoves` can emit: a
sub-multiset of the hand of size 1..6 that is either same-rank naturals plus
wildcards, pure wildcards, or resets plus wildcards. -/
def OpenShape (hand cs : List ℕ) : Prop :=
  (cs : Multiset ℕ) ≤ (hand : Multiset ℕ) ∧ cs ≠ [] ∧ cs.length ≤ 6
  ∧ ((∃ r ∈ normalRanksList, (∀ x ∈ cs, x = r ∨ x = 15) ∧ (∃ x ∈ cs, x = r))
     ∨ (∀ x ∈ cs, x = 15)
     ∨ ((∀ x ∈ cs, x = 16 ∨ x = 15) ∧ (∃ x ∈ cs, x = 16)))

/-- Shape of every non-pass combination `genResponseMoves` can emit for a
given round: size exactly `round.count`, rank beating the table when natural
cards are used. -/
def ResponseShape (hand cs : List ℕ) (round : RoundState) : Prop :=
  (cs : Multiset ℕ) ≤ (hand : Multiset ℕ) ∧ cs.length = round.count
  ∧ ((∃ r ∈ normalRanksList, round.tableRank < r
        ∧ (∀ x ∈ cs, x = r ∨ x = 15) ∧ (∃ x ∈ cs, x = r))
     ∨ (∀ x ∈ cs, x = 15)
     ∨ ((∀ x ∈ cs, x = 16 ∨ x = 15) ∧ (∃ x ∈ cs, x = 16)))

theorem classifySpec_all_special {cs : List ℕ}
    (h : ∀ x ∈ cs, isSpecial x = true) :
    classifySpec cs = some (cs.any isReset, false, 0) := by
  have hn : normalsOf cs = [] := by
    rw [normalsOf, List.filter_eq_nil_iff]
    intro a ha
    simp [h a ha]
  rw [classifySpec, hn]

theorem classifySpec_with_normal {cs : List ℕ} {r : ℕ}
    (hr : isSpecial r = false)
    (hall : ∀ x ∈ cs, x = r ∨ isSpecial x = true) (hex : ∃ x ∈ cs, x = r) :
    classifySpec cs = some (cs.any isReset, true, r) := by
  have hmemn : ∀ x ∈ normalsOf cs, x = r := by
    intro x hx
    rw [normalsOf, List.mem_filter] at hx
    rcases hall x hx.1 with rfl | hs
    · rfl
    · rw [hs] at hx
      simp at hx
  have hne : normalsOf cs ≠ [] := by
    obtain ⟨x, hx, rfl⟩ := hex
    intro hnil
    have : x ∈ normalsOf cs := by
      rw [normalsOf, List.mem_filter]
      exact ⟨hx, by simp [hr]⟩
    rw [hnil] at this
    cases this
  rw [classifySpec]
  cases hn : normalsOf cs with
  | nil => exact absurd hn hne
  | cons c ns =>
    have hc : c = r := hmemn c (hn ▸ List.mem_cons_self _ _)
    have hns : ns.all (· = c) = true := by
      simp only [List.all_eq_true, decide_eq_true_eq]
      intro x hx
      rw [hc]
      exact hmemn x (hn ▸ List.mem_cons_of_mem _ hx)
    rw [hc] at hns
    simp [hns, hc]

theorem mem_hand_of_le {cs hand : List ℕ}
    (h : (cs : Multiset ℕ) ≤ (hand : Multiset ℕ)) :
    ∀ x ∈ cs, x ∈ hand := by
  intro x hx
  have : x ∈ (hand : Multiset ℕ) := Multiset.mem_of_le h (by simpa using hx)
  simpa using this

theorem any_isReset_eq_false {cs : List ℕ} (h : ∀ x ∈ cs, x ≠ 16) :
    cs.any isReset = false := by
  rw [List.any_eq_false]
  intro x hx
  simpa [isReset] using h x hx

/-- A combination of the open-round shape passes `ValidateMove` (the 6-card
bound is not needed for validation, only for generation). -/
theorem validate_of_openShape {gs : GameState} {cs : List ℕ}
    (hover : gs.gameOver = false) (hopen : gs.round.isOpen = true)
    (h0 : (0 : ℕ) ∉ gs.hands.getD gs.currentTurn [])
    (hle : (cs : Multiset ℕ) ≤ (gs.hands.getD gs.currentTurn [] : Multiset ℕ))
    (hne : cs ≠ [])
    (hsh : (∃ r ∈ normalRanksList, (∀ x ∈ cs, x = r ∨ x = 15) ∧ (∃ x ∈ cs, x = r))
      ∨ (∀ x ∈ cs, x = 15)
      ∨ ((∀ x ∈ cs, x = 16 ∨ x = 15) ∧ (∃ x ∈ cs, x = 16))) :
    gs.validateMove (Move.mk gs.currentTurn cs false) = true := by
  have h0cs : ∀ x ∈ cs, 0 < x := by
    intro x hx
    have := mem_hand_of_le hle x hx
    rcases Nat.eq_zero_or_pos x with rfl | hpos
    · exact absurd this h0
    · exact hpos
  have hsome : (handRemove (gs.hands.getD gs.currentTurn []) cs).isSome :=
    (handRemove_isSome_iff h0).mpr hle
  rw [GameState.validateMove]
  rw [if_neg (by rw [hover]; exact Bool.false_ne_true), if_neg (by simp),
    if_neg (by simp), if_neg hne]
  cases hrem : handRemove (gs.hands.getD gs.currentTurn []) cs with
  | none => rw [hrem] at hsome; cases hsome
  | some h' =>
    rw [if_pos hopen, GameState.validateOpenPlay,
      classifyCards_eq_spec cs h0cs]
    rcases hsh with ⟨r, hrmem, hall, hex⟩ | hall | ⟨hall, hex⟩
    · have hr14 : r ≤ 14 := (mem_normalRanksList_iff.mp hrmem).2
      have hrs : isSpecial r = false := by
        rw [not_isSpecial_iff]
        omega
      rw [classifySpec_with_normal hrs
        (fun x hx => (hall x hx).imp id (fun h15 => by simp [isSpecial, isWild, h15])) hex]
      have : cs.any isReset = false := any_isReset_eq_false (fun x hx => by
        rcases hall x hx with rfl | rfl <;> omega)
      rw [this]
      simp
    · rw [classifySpec_all_special (fun x hx => by simp [isSpecial, isWild, hall x hx])]
      have : cs.any isReset = false := any_isReset_eq_false (fun x hx => by
        rw [hall x hx]; omega)
      rw [this]
      simp
    · rw [classifySpec_all_special (fun x hx => by
        rcases hall x hx with rfl | rfl <;> simp [isSpecial, isWild, isReset])]
      simp

/-- A combination of the response shape passes `ValidateMove`. -/
theorem validate_of_responseShape {gs : GameState} {cs : List ℕ}
    (hover : gs.gameOver = false) (hopen : gs.round.isOpen = false)
    (hcount : 1 ≤ gs.round.count)
    (h0 : (0 : ℕ) ∉ gs.hands.getD gs.currentTurn [])
    (hsh : ResponseShape (gs.hands.getD gs.currentTurn []) cs gs.round) :
    gs.validateMove (Move.mk gs.currentTurn cs false) = true := by
  obtain ⟨hle, hlen, hsh⟩ := hsh
  have hne : cs ≠ [] := by
    intro h
    rw [h] at hlen
    simp at hlen
    omega
  have h0cs : ∀ x ∈ cs, 0 < x := by
    intro x hx
    have := mem_hand_of_le hle x hx
    rcases Nat.eq_zero_or_pos x with rfl | hpos
    · exact absurd this h0
    · exact hpos
  have hsome : (handRemove (gs.hands.getD gs.currentTurn []) cs).isSome :=
    (handRemove_isSome_iff h0).mpr hle
  rw [GameState.validateMove]
  rw [if_neg (by rw [hover]; exact Bool.false_ne_true), if_neg (by simp),
    if_neg (by simp), if_neg hne]
  cases hrem : handRemove (gs.hands.getD gs.currentTurn []) cs with
  | none => rw [hrem] at hsome; cases hsome
  | some h' =>
    rw [if_neg (by rw [hopen]; exact Bool.false_ne_true),
      GameState.validateResponsePlay, classifyCards_eq_spec cs h0cs]
    rcases hsh with ⟨r, hrmem, hrt, hall, hex⟩ | hall | ⟨hall, hex⟩
    · have hr14 : r ≤ 14 := (mem_normalRanksList_iff.mp hrmem).2
      have hrs : isSpecial r = false := by
        rw [not_isSpecial_iff]
        omega
      rw [classifySpec_with_normal hrs
        (fun x hx => (hall x hx).imp id (fun h15 => by simp [isSpecial, isWild, h15])) hex]
      have hany : cs.any isReset = false := any_isReset_eq_false (fun x hx => by
        rcases hall x hx with rfl | rfl <;> omega)
      rw [hany]
      simp only [Bool.false_eq_true, false_and, if_false]
      rw [if_neg (by simp [hlen]), if_neg (by rintro ⟨_, hle2⟩; omega)]
    · rw [classifySpec_all_special (fun x hx => by simp [isSpecial, isWild, hall x hx])]
      have hany : cs.any isReset = false := any_isReset_eq_false (fun x hx => by
        rw [hall x hx]; omega)
      rw [hany]
      simp [hlen]
    · rw [classifySpec_all_special (fun x hx => by
        rcases hall x hx with rfl | rfl <;> simp [isSpecial, isWild, isReset])]
      simp [hlen]

/-- Sublists of two disjoint filters of the hand combine into a
sub-multiset of the hand. -/
theorem append_filter_le {hand l1 l2 : List ℕ} {p q : ℕ → Bool}
    (hdisj : ∀ x, ¬(p x = true ∧ q x = true))
    (h1 : l1.Sublist (hand.filter p)) (h2 : l2.Sublist (hand.filter q)) :
    ((l1 ++ l2 : List ℕ) : Multiset ℕ) ≤ (hand : Multiset ℕ) := by
  rw [Multiset.le_iff_count]
  intro x
  rw [Multiset.coe_count, Multiset.coe_count, List.count_append]
  have hzero : ∀ (pr : ℕ → Bool) (l : List ℕ), l.Sublist (hand.filter pr) →
      pr x = false → l.count x = 0 := by
    intro pr l hs hpx
    rw [List.count_eq_zero]
    intro hmem
    have hm := List.mem_filter.mp (hs.mem hmem)
    rw [hpx] at hm
    exact Bool.false_ne_true hm.2
  have b1 : l1.count x ≤ hand.count x := (h1.trans (List.filter_sublist hand)).count_le x
  have b2 : l2.count x ≤ hand.count x := (h2.trans (List.filter_sublist hand)).count_le x
  by_cases hp : p x = true
  · have hq : q x = false := by
      rcases hb : q x with _ | _
      · rfl
      · exact absurd ⟨hp, hb⟩ (hdisj x)
    have := hzero q l2 h2 hq
    omega
  · have hp' : p x = false := by
      rcases hb : p x with _ | _
      · rfl
      · exact absurd hb hp
    have := hzero p l1 h1 hp'
    omega

theorem sublist_filter_le {hand l : List ℕ} {p : ℕ → Bool}
    (h : l.Sublist (hand.filter p)) :
    ((l : List ℕ) : Multiset ℕ) ≤ (hand : Multiset ℕ) :=
  Multiset.coe_le.mpr (h.trans (List.filter_sublist hand)).subperm

theorem mem_gatherWilds {hand : List ℕ} {x : ℕ} (h : x ∈ gatherWilds hand) :
    x = 15 := by
  rw [gatherWilds_eq] at h
  exact List.eq_of_mem_replicate h

theorem mem_gatherResets {hand : List ℕ} {x : ℕ} (h : x ∈ gatherResets hand) :
    x = 16 := by
  rw [gatherResets_eq] at h
  exact List.eq_of_mem_replicate h

theorem gatherWilds_sub (hand : List ℕ) :
    gatherWilds hand = hand.filter isWild := rfl

theorem gatherResets_sub (hand : List ℕ) :
    gatherResets hand = hand.filter isReset := rfl

theorem wild_reset_disjoint : ∀ x : ℕ, ¬(isReset x = true ∧ isWild x = true) := by
  intro x
  rintro ⟨h1, h2⟩
  simp [isReset, isWild] at h1 h2
  omega

theorem rank_wild_disjoint {r : ℕ} (hr : r ≠ 15) :
    ∀ x : ℕ, ¬((decide (x = r) : Bool) = true ∧ isWild x = true) := by
  intro x
  rintro ⟨h1, h2⟩
  simp at h1
  simp [isWild] at h2
  exact hr (h1 ▸ h2)

/-- Every move generated by `genResetResponseMoves` has the reset-and-wild
response shape. -/
theorem genResetResponseMoves_elim {pid : ℕ} {hand : List ℕ} {need : ℕ} {m : Move}
    (h : m ∈ genResetResponseMoves pid (gatherResets hand) (gatherWilds hand) need) :
    m.playerID = pid ∧ m.isPass = false
    ∧ ((m.cards : Multiset ℕ) ≤ (hand : Multiset ℕ) ∧ m.cards.length = need
        ∧ (∀ x ∈ m.cards, x = 16 ∨ x = 15) ∧ (∃ x ∈ m.cards, x = 16)) := by
  unfold genResetResponseMoves at h
  rw [List.mem_flatMap] at h
  obtain ⟨numReset, hnr, h⟩ := h
  rw [mem_loopRange_iff] at hnr
  by_cases hguard : (gatherWilds hand).length < need - numReset
  · rw [if_pos hguard] at h
    cases h
  · rw [if_neg hguard] at h
    have hmain : ∃ rc wc : List ℕ, rc.Sublist (gatherResets hand)
        ∧ rc.length = numReset ∧ wc.Sublist (gatherWilds hand)
        ∧ wc.length = need - numReset ∧ m = Move.mk pid (rc ++ wc) false := by
      by_cases hw0 : need - numReset = 0
      · rw [hw0, if_pos rfl, List.mem_map] at h
        obtain ⟨rc, hrc, rfl⟩ := h
        rw [mem_combos_iff] at hrc
        exact ⟨rc, [], hrc.1, hrc.2, List.nil_sublist _, by simp [hw0], by simp⟩
      · rw [if_neg hw0, List.mem_flatMap] at h
        obtain ⟨rc, hrc, h⟩ := h
        rw [List.mem_map] at h
        obtain ⟨wc, hwc, rfl⟩ := h
        rw [mem_combos_iff] at hrc hwc
        exact ⟨rc, wc, hrc.1, hrc.2, hwc.1, hwc.2, rfl⟩
    obtain ⟨rc, wc, hrcs, hrcl, hwcs, hwcl, rfl⟩ := hmain
    refine ⟨rfl, rfl, ?_, ?_, ?_, ?_⟩
    · exact append_filter_le wild_reset_disjoint
        (gatherResets_sub hand ▸ hrcs) (gatherWilds_sub hand ▸ hwcs)
    · simp only [List.length_append, hrcl, hwcl]
      omega
    · intro x hx
      rcases List.mem_append.mp hx with hx' | hx'
      · exact Or.inl (mem_gatherResets (hrcs.mem hx'))
      · exact Or.inr (mem_gatherWilds (hwcs.mem hx'))
    · have : rc ≠ [] := by
        intro hnil
        rw [hnil] at hrcl
        simp at hrcl
        omega
      obtain ⟨x, hx⟩ := List.exists_mem_of_ne_nil rc this
      exact ⟨x, List.mem_append.mpr (Or.inl hx), mem_gatherResets (hrcs.mem hx)⟩

/-- Every move generated by `genResetMoves` has the reset-and-wild open
shape with at most 6 cards. -/
theorem genResetMoves_elim {pid : ℕ} {hand : List ℕ} {m : Move}
    (h : m ∈ genResetMoves pid (gatherResets hand) (gatherWilds hand)) :
    m.playerID = pid ∧ m.isPass = false
    ∧ ((m.cards : Multiset ℕ) ≤ (hand : Multiset ℕ) ∧ m.cards ≠ []
        ∧ m.cards.length ≤ 6
        ∧ (∀ x ∈ m.cards, x = 16 ∨ x = 15) ∧ (∃ x ∈ m.cards, x = 16)) := by
  unfold genResetMoves at h
  rw [List.mem_flatMap] at h
  obtain ⟨numReset, hnr, h⟩ := h
  rw [mem_loopRange_iff] at hnr
  simp only [] at h
  set maxW : ℤ := min ((gatherWilds hand).length : ℤ) (6 - (numReset : ℤ)) with hmaxW
  by_cases hneg : maxW < 0
  · rw [if_pos hneg] at h
    simp at h
  · rw [if_neg hneg] at h
    rw [List.mem_flatMap] at h
    obtain ⟨numWild, hnw, h⟩ := h
    rw [mem_loopRange_iff] at hnw
    have hw6 : numReset ≤ 6 ∧ numWild ≤ 6 - numReset
        ∧ numWild ≤ (gatherWilds hand).length := by
      have h1 : (0 : ℤ) ≤ maxW := not_lt.mp hneg
      have h2 : maxW ≤ ((gatherWilds hand).length : ℤ) := min_le_left _ _
      have h3 : maxW ≤ 6 - (numReset : ℤ) := min_le_right _ _
      have h4 : (numWild : ℤ) ≤ maxW := by
        have := hnw.2
        omega
      constructor
      · omega
      constructor
      · omega
      · omega
    have hmain : ∃ rc wc : List ℕ, rc.Sublist (gatherResets hand)
        ∧ rc.length = numReset ∧ wc.Sublist (gatherWilds hand)
        ∧ wc.length = numWild ∧ m = Move.mk pid (rc ++ wc) false := by
      by_cases hw0 : numWild = 0
      · subst hw0
        rw [if_pos rfl, List.mem_map] at h
        obtain ⟨rc, hrc, rfl⟩ := h
        rw [mem_combos_iff] at hrc
        exact ⟨rc, [], hrc.1, hrc.2, List.nil_sublist _, by simp, by simp⟩
      · rw [if_neg hw0, List.mem_flatMap] at h
        obtain ⟨rc, hrc, h⟩ := h
        rw [List.mem_map] at h
        obtain ⟨wc, hwc, rfl⟩ := h
        rw [mem_combos_iff] at hrc hwc
        exact ⟨rc, wc, hrc.1, hrc.2, hwc.1, hwc.2, rfl⟩
    obtain ⟨rc, wc, hrcs, hrcl, hwcs, hwcl, rfl⟩ := hmain
    refine ⟨rfl, rfl, ?_, ?_, ?_, ?_, ?_⟩
    · exact append_filter_le wild_reset_disjoint
        (gatherResets_sub hand ▸ hrcs) (gatherWilds_sub hand ▸ hwcs)
    · intro hnil
      have : rc = [] := by
        cases rc with
        | nil => rfl
        | cons a t => simp at hnil
      rw [this] at hrcl
      simp at hrcl
      omega
    · simp only [List.length_append, hrcl, hwcl]
      omega
    · intro x hx
      rcases List.mem_append.mp hx with hx' | hx'
      · exact Or.inl (mem_gatherResets (hrcs.mem hx'))
      · exact Or.inr (mem_gatherWilds (hwcs.mem hx'))
    · have hne : rc ≠ [] := by
        intro hnil
        rw [hnil] at hrcl
        simp at hrcl
        omega
      obtain ⟨x, hx⟩ := List.exists_mem_of_ne_nil rc hne
      exact ⟨x, List.mem_append.mpr (Or.inl hx), mem_gatherResets (hrcs.mem hx)⟩

theorem mem_filter_rank {hand : List ℕ} {r x : ℕ} (h : x ∈ hand.filter (· = r)) :
    x = r := by
  rw [filter_rank_eq] at h
  exact List.eq_of_mem_replicate h

/-- Decomposition of the same-rank-plus-wildcards inner generator common to
`genOpenMoves` and `genResponseMoves`: the generated cards are `numNorm`
cards of the rank plus `total - numNorm` wildcards from the hand. -/
theorem rank_combo_elim {pid : ℕ} {hand : List ℕ} {rank total numNorm : ℕ} {m : Move}
    (h : m ∈ (if (gatherWilds hand).length < total - numNorm then []
      else (combos (hand.filter (· = rank)) numNorm).flatMap fun nc =>
        if total - numNorm = 0 then [Move.mk pid nc false]
        else (combos (gatherWilds hand) (total - numNorm)).map
          fun wc => Move.mk pid (nc ++ wc) false)) :
    m.playerID = pid ∧ m.isPass = false
    ∧ ∃ nc wc : List ℕ, nc.Sublist (hand.filter (· = rank)) ∧ nc.length = numNorm
      ∧ wc.Sublist (gatherWilds hand) ∧ wc.length = total - numNorm
      ∧ m.cards = nc ++ wc := by
  by_cases hguard : (gatherWilds hand).length < total - numNorm
  · rw [if_pos hguard] at h
    cases h
  · rw [if_neg hguard, List.mem_flatMap] at h
    obtain ⟨nc, hnc, h⟩ := h
    rw [mem_combos_iff] at hnc
    by_cases hw0 : total - numNorm = 0
    · rw [if_pos hw0, List.mem_singleton] at h
      subst h
      exact ⟨rfl, rfl, nc, [], hnc.1, hnc.2, List.nil_sublist _, by simp [hw0], by simp⟩
    · rw [if_neg hw0, List.mem_map] at h
      obtain ⟨wc, hwc, rfl⟩ := h
      rw [mem_combos_iff] at hwc
      exact ⟨rfl, rfl, nc, wc, hnc.1, hnc.2, hwc.1, hwc.2, rfl⟩

/-- The rank-combination part of the shapes, derived from the
decomposition. -/
theorem rank_combo_shape {hand : List ℕ} {rank : ℕ} {nc wc : List ℕ}
    (hrank : rank ∈ normalRanksList)
    (hnc : nc.Sublist (hand.filter (· = rank))) (hwc : wc.Sublist (gatherWilds hand))
    (hne : nc ≠ []) :
    ((nc ++ wc : List ℕ) : Multiset ℕ) ≤ (hand : Multiset ℕ)
    ∧ (∀ x ∈ nc ++ wc, x = rank ∨ x = 15) ∧ (∃ x ∈ nc ++ wc, x = rank) := by
  have hr15 : rank ≠ 15 := by
    have := (mem_normalRanksList_iff.mp hrank).2
    omega
  refine ⟨?_, ?_, ?_⟩
  · exact append_filter_le (rank_wild_disjoint hr15)
      (by simpa using hnc) (gatherWilds_sub hand ▸ hwc)
  · intro x hx
    rcases List.mem_append.mp hx with hx' | hx'
    · exact Or.inl (mem_filter_rank (hnc.mem hx'))
    · exact Or.inr (mem_gatherWilds (hwc.mem hx'))
  · obtain ⟨x, hx⟩ := List.exists_mem_of_ne_nil nc hne
    exact ⟨x, List.mem_append.mpr (Or.inl hx), mem_filter_rank (hnc.mem hx)⟩

/-- Every member of `genOpenMoves` is a non-pass combination of the open
shape for the current hand. -/
theorem genOpenMoves_elim {pid : ℕ} {hand : List ℕ} {m : Move}
    (h : m ∈ genOpenMoves pid hand) :
    m.playerID = pid ∧ m.isPass = false ∧ OpenShape hand m.cards := by
  unfold genOpenMoves at h
  simp only [] at h
  have h' := mem_of_mem_dedup h
  rcases List.mem_append.mp h' with h1 | h1
  swap
  · -- reset moves
    obtain ⟨hp, hpass, hle, hne, h6, hall, hex⟩ := genResetMoves_elim h1
    exact ⟨hp, hpass, hle, hne, h6, Or.inr (Or.inr ⟨hall, hex⟩)⟩
  rcases List.mem_append.mp h1 with h2 | h2
  · -- same-rank plus wildcards
    rw [List.mem_flatMap] at h2
    obtain ⟨rank, hrank, h2⟩ := h2
    by_cases hz : (hand.filter (· = rank)).length = 0
    · rw [if_pos hz] at h2
      cases h2
    · rw [if_neg hz, List.mem_flatMap] at h2
      obtain ⟨total, htot, h2⟩ := h2
      rw [mem_loopRange_iff] at htot
      rw [List.mem_flatMap] at h2
      obtain ⟨numNorm, hnn, h2⟩ := h2
      rw [mem_loopRange_iff] at hnn
      obtain ⟨hp, hpass, nc, wc, hnc, hncl, hwc, hwcl, hcards⟩ := rank_combo_elim h2
      have hnne : nc ≠ [] := by
        intro hnil
        rw [hnil] at hncl
        simp at hncl
        omega
      obtain ⟨hle, hall, hex⟩ := rank_combo_shape hrank hnc hwc hnne
      refine ⟨hp, hpass, ?_⟩
      rw [hcards]
      refine ⟨hle, ?_, ?_, Or.inl ⟨rank, hrank, hall, hex⟩⟩
      · intro hnil
        rw [List.append_eq_nil] at hnil
        exact hnne hnil.1
      · rw [List.length_append, hncl, hwcl]
        omega
  · -- pure wildcards
    rw [List.mem_flatMap] at h2
    obtain ⟨total, htot, h2⟩ := h2
    rw [mem_loopRange_iff] at htot
    rw [List.mem_map] at h2
    obtain ⟨wc, hwc, rfl⟩ := h2
    rw [mem_combos_iff] at hwc
    refine ⟨rfl, rfl, ?_, ?_, ?_, Or.inr (Or.inl ?_)⟩
    · exact @sublist_filter_le _ _ isWild (gatherWilds_sub hand ▸ hwc.1)
    · show wc ≠ []
      intro hnil
      rw [hnil] at hwc
      simp at hwc
      omega
    · show wc.length ≤ 6
      rw [hwc.2]
      omega
    · intro x hx
      exact mem_gatherWilds (hwc.1.mem hx)

/-- Every member of `genResponseMoves` is a non-pass combination of the
response shape for the current hand and round. -/
theorem genResponseMoves_elim {pid : ℕ} {hand : List ℕ} {round : RoundState} {m : Move}
    (h : m ∈ genResponseMoves pid hand round) :
    m.playerID = pid ∧ m.isPass = false ∧ ResponseShape hand m.cards round := by
  unfold genResponseMoves at h
  simp only [] at h
  have h' := mem_of_mem_dedup h
  rcases List.mem_append.mp h' with h1 | h1
  swap
  · -- reset moves
    obtain ⟨hp, hpass, hle, hlen, hall, hex⟩ := genResetResponseMoves_elim h1
    exact ⟨hp, hpass, hle, hlen, Or.inr (Or.inr ⟨hall, hex⟩)⟩
  rcases List.mem_append.mp h1 with h2 | h2
  · -- same-rank plus wildcards
    rw [List.mem_flatMap] at h2
    obtain ⟨rank, hrank, h2⟩ := h2
    by_cases hrt : rank ≤ round.tableRank
    · rw [if_pos hrt] at h2
      cases h2
    · rw [if_neg hrt] at h2
      by_cases hz : (hand.filter (· = rank)).length = 0
      · rw [if_pos hz] at h2
        cases h2
      · rw [if_neg hz, List.mem_flatMap] at h2
        obtain ⟨numNorm, hnn, h2⟩ := h2
        rw [mem_loopRange_iff] at hnn
        obtain ⟨hp, hpass, nc, wc, hnc, hncl, hwc, hwcl, hcards⟩ := rank_combo_elim h2
        have hnne : nc ≠ [] := by
          intro hnil
          rw [hnil] at hncl
          simp at hncl
          omega
        obtain ⟨hle, hall, hex⟩ := rank_combo_shape hrank hnc hwc hnne
        refine ⟨hp, hpass, ?_⟩
        rw [hcards]
        refine ⟨hle, ?_, Or.inl ⟨rank, hrank, not_le.mp hrt, hall, hex⟩⟩
        rw [List.length_append, hncl, hwcl]
        omega
  · -- pure wildcards
    by_cases hwn : round.count ≤ (gatherWilds hand).length
    · rw [if_pos hwn, List.mem_map] at h2
      obtain ⟨wc, hwc, rfl⟩ := h2
      rw [mem_combos_iff] at hwc
      refine ⟨rfl, rfl, ?_, hwc.2, Or.inr (Or.inl ?_)⟩
      · exact @sublist_filter_le _ _ isWild (gatherWilds_sub hand ▸ hwc.1)
      · intro x hx
        exact mem_gatherWilds (hwc.1.mem hx)
    · rw [if_neg hwn] at h2
      cases h2

theorem count_le_of_mle {cs hand : List ℕ} {x : ℕ}
    (hle : (cs : Multiset ℕ) ≤ (hand : Multiset ℕ)) : cs.count x ≤ hand.count x := by
  have := Multiset.le_iff_count.mp hle x
  simpa using this

theorem gatherWilds_length (hand : List ℕ) :
    (gatherWilds hand).length = hand.count 15 := by
  rw [gatherWilds_eq, List.length_replicate]

theorem gatherResets_length (hand : List ℕ) :
    (gatherResets hand).length = hand.count 16 := by
  rw [gatherResets_eq, List.length_replicate]

theorem replicate_mem_combos_rank {hand : List ℕ} {r n : ℕ}
    (h : n ≤ hand.count r) :
    List.replicate n r ∈ combos (hand.filter (· = r)) n :=
  mem_combos_iff.mpr ⟨by
    rw [filter_rank_eq]
    exact (List.replicate_sublist_replicate r).mpr h, List.length_replicate n r⟩

theorem replicate_mem_combos_wilds {hand : List ℕ} {n : ℕ}
    (h : n ≤ hand.count 15) :
    List.replicate n 15 ∈ combos (gatherWilds hand) n :=
  mem_combos_iff.mpr ⟨by
    rw [gatherWilds_eq]
    exact (List.replicate_sublist_replicate 15).mpr h, List.length_replicate n 15⟩

theorem replicate_mem_combos_resets {hand : List ℕ} {n : ℕ}
    (h : n ≤ hand.count 16) :
    List.replicate n 16 ∈ combos (gatherResets hand) n :=
  mem_combos_iff.mpr ⟨by
    rw [gatherResets_eq]
    exact (List.replicate_sublist_replicate 16).mpr h, List.length_replicate n 16⟩

/-- Membership in the shared same-rank-plus-wildcards inner generator for
the replication witness. -/
theorem rank_combo_intro {pid : ℕ} (hand : List ℕ) (rank total numNorm : ℕ)
    (hn : numNorm ≤ hand.count rank) (hw : total - numNorm ≤ hand.count 15) :
    Move.mk pid (List.replicate numNorm rank
        ++ List.replicate (total - numNorm) 15) false
      ∈ (if (gatherWilds hand).length < total - numNorm then []
        else (combos (hand.filter (· = rank)) numNorm).flatMap fun nc =>
          if total - numNorm = 0 then [Move.mk pid nc false]
          else (combos (gatherWilds hand) (total - numNorm)).map
            fun wc => Move.mk pid (nc ++ wc) false) := by
  rw [if_neg (by rw [gatherWilds_length]; omega)]
  rw [List.mem_flatMap]
  refine ⟨List.replicate numNorm rank, replicate_mem_combos_rank hn, ?_⟩
  by_cases hw0 : total - numNorm = 0
  · rw [if_pos hw0, hw0]
    simp
  · rw [if_neg hw0, List.mem_map]
    exact ⟨List.replicate (total - numNorm) 15, replicate_mem_combos_wilds hw, rfl⟩

/-- Every combination of the open shape is represented, by card multiset,
in `genOpenMoves`. -/
theorem genOpenMoves_complete {pid : ℕ} {hand cs : List ℕ}
    (hle : (cs : Multiset ℕ) ≤ (hand : Multiset ℕ)) (hne : cs ≠ [])
    (h6 : cs.length ≤ 6)
    (hsh : (∃ r ∈ normalRanksList, (∀ x ∈ cs, x = r ∨ x = 15) ∧ ∃ x ∈ cs, x = r)
        ∨ (∀ x ∈ cs, x = 15)
        ∨ ((∀ x ∈ cs, x = 16 ∨ x = 15) ∧ ∃ x ∈ cs, x = 16)) :
    ∃ m' ∈ genOpenMoves pid hand, mkey m' = some (cs : Multiset ℕ) := by
  unfold genOpenMoves
  simp only []
  apply dedup_key_complete
  rcases hsh with ⟨r, hr, hall, hex⟩ | hall | ⟨hall, hex⟩
  · -- same rank plus wildcards
    have hr15 : r ≠ 15 := by
      have := (mem_normalRanksList_iff.mp hr).2
      omega
    have hmeq : (cs : Multiset ℕ)
        = ((List.replicate (cs.count r) r ++ List.replicate (cs.count 15) 15
            : List ℕ) : Multiset ℕ) :=
      multiset_eq_two_values hr15 hall
    have hlen : cs.length = cs.count r + cs.count 15 := by
      have := congrArg Multiset.card hmeq
      simpa [Multiset.coe_card] using this
    have hn1 : 1 ≤ cs.count r := by
      obtain ⟨x, hx, rfl⟩ := hex
      exact List.count_pos_iff.mpr hx
    have hnc : cs.count r ≤ hand.count r := count_le_of_mle hle
    have hwc : cs.count 15 ≤ hand.count 15 := count_le_of_mle hle
    have hfl : (hand.filter (· = r)).length = hand.count r := by
      rw [filter_rank_eq, List.length_replicate]
    refine ⟨Move.mk pid (List.replicate (cs.count r) r
        ++ List.replicate (cs.count 15) 15) false, ?_, by rw [mkey]; simp [hmeq]⟩
    apply List.mem_append_left
    apply List.mem_append_left
    rw [List.mem_flatMap]
    refine ⟨r, hr, ?_⟩
    rw [if_neg (by rw [hfl]; omega)]
    rw [List.mem_flatMap]
    refine ⟨cs.count r + cs.count 15, ?_, ?_⟩
    · rw [mem_loopRange_iff, hfl, gatherWilds_length]
      omega
    rw [List.mem_flatMap]
    refine ⟨cs.count r, ?_, ?_⟩
    · rw [mem_loopRange_iff, hfl, gatherWilds_length]
      omega
    have hsub : cs.count r + cs.count 15 - cs.count r = cs.count 15 := by omega
    have hintro := @rank_combo_intro pid hand r
      (cs.count r + cs.count 15) (cs.count r) hnc (by omega)
    rw [hsub] at hintro
    rw [hsub]
    exact hintro
  · -- pure wildcards
    have hcs : cs = List.replicate cs.length 15 := List.eq_replicate_of_mem hall
    have hwl : cs.length ≤ hand.count 15 := by
      have h1 : cs.count 15 ≤ hand.count 15 := count_le_of_mle hle
      have h2 : cs.count 15 = cs.length := by
        rw [hcs, List.count_replicate]
        simp
      omega
    refine ⟨Move.mk pid (List.replicate cs.length 15) false, ?_, by
      rw [mkey]; simp [← hcs]⟩
    apply List.mem_append_left
    apply List.mem_append_right
    rw [List.mem_flatMap]
    refine ⟨cs.length, ?_, ?_⟩
    · rw [mem_loopRange_iff, gatherWilds_length]
      have : cs.length ≥ 1 := by
        cases cs with
        | nil => exact absurd rfl hne
        | cons a t => simp
      omega
    · rw [List.mem_map]
      exact ⟨List.replicate cs.length 15, replicate_mem_combos_wilds hwl, rfl⟩
  · -- resets plus wildcards
    have hmeq : (cs : Multiset ℕ)
        = ((List.replicate (cs.count 16) 16 ++ List.replicate (cs.count 15) 15
            : List ℕ) : Multiset ℕ) :=
      multiset_eq_two_values (by omega) hall
    have hlen : cs.length = cs.count 16 + cs.count 15 := by
      have := congrArg Multiset.card hmeq
      simpa [Multiset.coe_card] using this
    have hr1 : 1 ≤ cs.count 16 := by
      obtain ⟨x, hx, rfl⟩ := hex
      exact List.count_pos_iff.mpr hx
    have hrc : cs.count 16 ≤ hand.count 16 := count_le_of_mle hle
    have hwc : cs.count 15 ≤ hand.count 15 := count_le_of_mle hle
    refine ⟨Move.mk pid (List.replicate (cs.count 16) 16
        ++ List.replicate (cs.count 15) 15) false, ?_, by rw [mkey]; simp [hmeq]⟩
    apply List.mem_append_right
    unfold genResetMoves
    rw [List.mem_flatMap]
    refine ⟨cs.count 16, ?_, ?_⟩
    · rw [mem_loopRange_iff, gatherResets_length]
      omega
    simp only []
    have hmaxw : ¬ (min ((gatherWilds hand).length : ℤ) (6 - (cs.count 16 : ℤ)) < 0) := by
      rw [not_lt]
      apply le_min
      · exact Int.natCast_nonneg _
      · omega
    rw [if_neg hmaxw]
    rw [List.mem_flatMap]
    refine ⟨cs.count 15, ?_, ?_⟩
    · rw [mem_loopRange_iff]
      refine ⟨Nat.zero_le _, ?_⟩
      rw [Int.le_toNat (not_lt.mp hmaxw)]
      apply le_min
      · rw [gatherWilds_length]
        omega
      · omega
    by_cases hw0 : cs.count 15 = 0
    · rw [if_pos hw0, List.mem_map]
      refine ⟨List.replicate (cs.count 16) 16, replicate_mem_combos_resets hrc, ?_⟩
      rw [hw0]
      simp
    · rw [if_neg hw0, List.mem_flatMap]
      refine ⟨List.replicate (cs.count 16) 16, replicate_mem_combos_resets hrc, ?_⟩
      rw [List.mem_map]
      exact ⟨List.replicate (cs.count 15) 15, replicate_mem_combos_wilds hwc, rfl⟩

/-- Every combination of the response shape is represented, by card
multiset, in `genResponseMoves`. -/
theorem genResponseMoves_complete {pid : ℕ} {hand cs : List ℕ} {round : RoundState}
    (hsh : ResponseShape hand cs round) :
    ∃ m' ∈ genResponseMoves pid hand round, mkey m' = some (cs : Multiset ℕ) := by
  obtain ⟨hle, hlen, hsh⟩ := hsh
  unfold genResponseMoves
  simp only []
  apply dedup_key_complete
  rcases hsh with ⟨r, hr, hrt, hall, hex⟩ | hall | ⟨hall, hex⟩
  · -- same rank plus wildcards
    have hr15 : r ≠ 15 := by
      have := (mem_normalRanksList_iff.mp hr).2
      omega
    have hmeq : (cs : Multiset ℕ)
        = ((List.replicate (cs.count r) r ++ List.replicate (cs.count 15) 15
            : List ℕ) : Multiset ℕ) :=
      multiset_eq_two_values hr15 hall
    have hlen2 : cs.length = cs.count r + cs.count 15 := by
      have := congrArg Multiset.card hmeq
      simpa [Multiset.coe_card] using this
    have hn1 : 1 ≤ cs.count r := by
      obtain ⟨x, hx, rfl⟩ := hex
      exact List.count_pos_iff.mpr hx
    have hnc : cs.count r ≤ hand.count r := count_le_of_mle hle
    have hwc : cs.count 15 ≤ hand.count 15 := count_le_of_mle hle
    have hfl : (hand.filter (· = r)).length = hand.count r := by
      rw [filter_rank_eq, List.length_replicate]
    refine ⟨Move.mk pid (List.replicate (cs.count r) r
        ++ List.replicate (cs.count 15) 15) false, ?_, by rw [mkey]; simp [hmeq]⟩
    apply List.mem_append_left
    apply List.mem_append_left
    rw [List.mem_flatMap]
    refine ⟨r, hr, ?_⟩
    rw [if_neg (not_le.mpr hrt)]
    rw [if_neg (by rw [hfl]; omega)]
    rw [List.mem_flatMap]
    refine ⟨cs.count r, ?_, ?_⟩
    · rw [mem_loopRange_iff, hfl, gatherWilds_length]
      omega
    have hsub : round.count - cs.count r = cs.count 15 := by omega
    have hintro := @rank_combo_intro pid hand r
      round.count (cs.count r) hnc (by omega)
    rw [hsub] at hintro
    rw [hsub]
    exact hintro
  · -- pure wildcards
    have hcs : cs = List.replicate cs.length 15 := List.eq_replicate_of_mem hall
    have hwl : cs.length ≤ hand.count 15 := by
      have h1 : cs.count 15 ≤ hand.count 15 := count_le_of_mle hle
      have h2 : cs.count 15 = cs.length := by
        rw [hcs, List.count_replicate]
        simp
      omega
    refine ⟨Move.mk pid (List.replicate cs.length 15) false, ?_, by
      rw [mkey]; simp [← hcs]⟩
    apply List.mem_append_left
    apply List.mem_append_right
    rw [if_pos (by rw [gatherWilds_length]; omega)]
    rw [List.mem_map]
    refine ⟨List.replicate cs.length 15, ?_, ?_⟩
    · rw [← hlen]
      exact replicate_mem_combos_wilds hwl
    · rw [hlen]
  · -- resets plus wildcards
    have hmeq : (cs : Multiset ℕ)
        = ((List.replicate (cs.count 16) 16 ++ List.replicate (cs.count 15) 15
            : List ℕ) : Multiset ℕ) :=
      multiset_eq_two_values (by omega) hall
    have hlen2 : cs.length = cs.count 16 + cs.count 15 := by
      have := congrArg Multiset.card hmeq
      simpa [Multiset.coe_card] using this
    have hr1 : 1 ≤ cs.count 16 := by
      obtain ⟨x, hx, rfl⟩ := hex
      exact List.count_pos_iff.mpr hx
    have hrc : cs.count 16 ≤ hand.count 16 := count_le_of_mle hle
    have hwc : cs.count 15 ≤ hand.count 15 := count_le_of_mle hle
    refine ⟨Move.mk pid (List.replicate (cs.count 16) 16
        ++ List.replicate (cs.count 15) 15) false, ?_, by rw [mkey]; simp [hmeq]⟩
    apply List.mem_append_right
    unfold genResetResponseMoves
    rw [List.mem_flatMap]
    refine ⟨cs.count 16, ?_, ?_⟩
    · rw [mem_loopRange_iff, gatherResets_length]
      omega
    simp only []
    rw [if_neg (by rw [gatherWilds_length]; omega)]
    have hsub : round.count - cs.count 16 = cs.count 15 := by omega
    rw [hsub]
    by_cases hw0 : cs.count 15 = 0
    · rw [if_pos hw0, List.mem_map]
      refine ⟨List.replicate (cs.count 16) 16, replicate_mem_combos_resets hrc, ?_⟩
      rw [hw0]
      simp
    · rw [if_neg hw0, List.mem_flatMap]
      refine ⟨List.replicate (cs.count 16) 16, replicate_mem_combos_resets hrc, ?_⟩
      rw [List.mem_map]
      exact ⟨List.replicate (cs.count 15) 15, replicate_mem_combos_wilds hwc, rfl⟩

/-- Deconstruction of a successful `ValidateMove` on a non-pass move. -/
theorem validateMove_true_elim {gs : GameState} {m : Move}
    (h : gs.validateMove m = true) (hpass : m.isPass = false) :
    gs.gameOver = false ∧ m.playerID = gs.currentTurn ∧ m.cards ≠ []
    ∧ (handRemove (gs.hands.getD m.playerID []) m.cards).isSome
    ∧ (gs.round.isOpen = true → gs.validateOpenPlay m = true)
    ∧ (gs.round.isOpen = false → gs.validateResponsePlay m = true) := by
  rw [GameState.validateMove] at h
  cases hov : gs.gameOver with
  | true => rw [hov] at h; simp at h
  | false =>
  rw [hov] at h
  rw [if_neg (by simp)] at h
  by_cases hpid : m.playerID ≠ gs.currentTurn
  · rw [if_pos hpid] at h
    cases h
  rw [if_neg hpid] at h
  rw [hpass] at h
  rw [if_neg (by simp)] at h
  by_cases hnil : m.cards = []
  · rw [if_pos hnil] at h
    cases h
  rw [if_neg hnil] at h
  push_neg at hpid
  cases hrem : handRemove (gs.hands.getD m.playerID []) m.cards with
  | none => rw [hrem] at h; cases h
  | some h' =>
    rw [hrem] at h
    refine ⟨rfl, hpid, hnil, by simp [hrem], ?_, ?_⟩
    · intro hopen
      rw [hopen] at h
      simpa using h
    · intro hopen
      rw [hopen] at h
      simpa using h

/-- Shape extraction from a successful open-round validation. -/
theorem openPlay_shape {gs : GameState} {m : Move}
    (hcs : ∀ x ∈ m.cards, 3 ≤ x ∧ x ≤ 16)
    (h : gs.validateOpenPlay m = true) :
    (∃ r ∈ normalRanksList, (∀ x ∈ m.cards, x = r ∨ x = 15) ∧ ∃ x ∈ m.cards, x = r)
    ∨ (∀ x ∈ m.cards, x = 15)
    ∨ ((∀ x ∈ m.cards, x = 16 ∨ x = 15) ∧ ∃ x ∈ m.cards, x = 16) := by
  have h0cs : ∀ x ∈ m.cards, 0 < x := fun x hx => by
    have := (hcs x hx).1
    omega
  rw [GameState.validateOpenPlay, classifyCards_eq_spec _ h0cs] at h
  cases hn : normalsOf m.cards with
  | nil =>
    have hspec : ∀ x ∈ m.cards, x = 15 ∨ x = 16 := by
      intro x hx
      refine isSpecial_iff.mp ?_
      rcases hb : isSpecial x with _ | _
      · exfalso
        have hmem : x ∈ normalsOf m.cards := by
          rw [normalsOf, List.mem_filter]
          exact ⟨hx, by rw [hb]; rfl⟩
        rw [hn] at hmem
        cases hmem
      · rfl
    cases hany : m.cards.any isReset with
    | false =>
      refine Or.inr (Or.inl ?_)
      intro x hx
      rcases hspec x hx with rfl | rfl
      · rfl
      · exfalso
        rw [List.any_eq_false] at hany
        exact hany 16 hx (by simp [isReset])
    | true =>
      refine Or.inr (Or.inr ⟨?_, ?_⟩)
      · intro x hx
        rcases hspec x hx with rfl | rfl
        · exact Or.inr rfl
        · exact Or.inl rfl
      · rw [List.any_eq_true] at hany
        obtain ⟨x, hx, hxr⟩ := hany
        exact ⟨x, hx, by simpa [isReset] using hxr⟩
  | cons c ns =>
    by_cases hall : ns.all (· = c) = true
    · have heq : classifySpec m.cards = some (m.cards.any isReset, true, c) := by
        rw [classifySpec, hn]
        simp [hall]
      rw [heq] at h
      have hnoreset : m.cards.any isReset = false := by
        rcases hb : m.cards.any isReset with _ | _
        · rfl
        · rw [hb] at h
          simp at h
      have hcmem : c ∈ m.cards := by
        have hmem : c ∈ normalsOf m.cards := hn ▸ List.mem_cons_self _ _
        exact (List.mem_filter.mp hmem).1
      have hcns : isSpecial c = false := by
        have hmem : c ∈ normalsOf m.cards := hn ▸ List.mem_cons_self _ _
        have h2 := (List.mem_filter.mp hmem).2
        rcases hb : isSpecial c with _ | _
        · rfl
        · rw [hb] at h2; cases h2
      have hcn : c ∈ normalRanksList := by
        rw [mem_normalRanksList_iff]
        have h1 := hcs c hcmem
        have h2 := not_isSpecial_iff.mp hcns
        omega
      refine Or.inl ⟨c, hcn, ?_, c, hcmem, rfl⟩
      intro x hx
      rcases hb : isSpecial x with _ | _
      · left
        have hmem : x ∈ normalsOf m.cards := by
          rw [normalsOf, List.mem_filter]
          exact ⟨hx, by rw [hb]; rfl⟩
        rw [hn] at hmem
        rcases List.mem_cons.mp hmem with rfl | hx'
        · rfl
        · simpa using List.all_eq_true.mp hall x hx'
      · right
        rcases isSpecial_iff.mp hb with rfl | rfl
        · rfl
        · exfalso
          rw [List.any_eq_false] at hnoreset
          exact hnoreset 16 hx (by simp [isReset])
    · exfalso
      have hallf : ns.all (· = c) = false := by
        rcases hb : ns.all (· = c) with _ | _
        · rfl
        · exact absurd hb hall
      have heq : classifySpec m.cards = none := by
        rw [classifySpec, hn]
        simp [hallf]
      rw [heq] at h
      simp at h

/-- Shape extraction from a successful response-round validation. -/
theorem responsePlay_shape {gs : GameState} {m : Move}
    (hcs : ∀ x ∈ m.cards, 3 ≤ x ∧ x ≤ 16)
    (h : gs.validateResponsePlay m = true) :
    m.cards.length = gs.round.count
    ∧ ((∃ r ∈ normalRanksList, gs.round.tableRank < r
          ∧ (∀ x ∈ m.cards, x = r ∨ x = 15) ∧ ∃ x ∈ m.cards, x = r)
       ∨ (∀ x ∈ m.cards, x = 15)
       ∨ ((∀ x ∈ m.cards, x = 16 ∨ x = 15) ∧ ∃ x ∈ m.cards, x = 16)) := by
  have h0cs : ∀ x ∈ m.cards, 0 < x := fun x hx => by
    have := (hcs x hx).1
    omega
  rw [GameState.validateResponsePlay, classifyCards_eq_spec _ h0cs] at h
  cases hn : normalsOf m.cards with
  | nil =>
    have heq : classifySpec m.cards = some (m.cards.any isReset, false, 0) := by
      rw [classifySpec, hn]
    rw [heq] at h
    have h2 : (if (m.cards.any isReset) = true ∧ false = true then false
        else if m.cards.length ≠ gs.round.count then false
        else if ((0 : ℕ) ≠ 0 ∧ (0 : ℕ) ≤ gs.round.tableRank) then false
        else true) = true := h
    rw [if_neg (by simp)] at h2
    have hlen : m.cards.length = gs.round.count := by
      by_cases hl : m.cards.length = gs.round.count
      · exact hl
      · exfalso
        rw [if_pos hl] at h2
        cases h2
    refine ⟨hlen, ?_⟩
    have hspec : ∀ x ∈ m.cards, x = 15 ∨ x = 16 := by
      intro x hx
      refine isSpecial_iff.mp ?_
      rcases hb : isSpecial x with _ | _
      · exfalso
        have hmem : x ∈ normalsOf m.cards := by
          rw [normalsOf, List.mem_filter]
          exact ⟨hx, by rw [hb]; rfl⟩
        rw [hn] at hmem
        cases hmem
      · rfl
    cases hany : m.cards.any isReset with
    | false =>
      refine Or.inr (Or.inl ?_)
      intro x hx
      rcases hspec x hx with rfl | rfl
      · rfl
      · exfalso
        rw [List.any_eq_false] at hany
        exact hany 16 hx (by simp [isReset])
    | true =>
      refine Or.inr (Or.inr ⟨?_, ?_⟩)
      · intro x hx
        rcases hspec x hx with rfl | rfl
        · exact Or.inr rfl
        · exact Or.inl rfl
      · rw [List.any_eq_true] at hany
        obtain ⟨x, hx, hxr⟩ := hany
        exact ⟨x, hx, by simpa [isReset] using hxr⟩
  | cons c ns =>
    by_cases hall : ns.all (· = c) = true
    · have heq : classifySpec m.cards = some (m.cards.any isReset, true, c) := by
        rw [classifySpec, hn]
        simp [hall]
      rw [heq] at h
      have hcmem : c ∈ m.cards := by
        have hmem : c ∈ normalsOf m.cards := hn ▸ List.mem_cons_self _ _
        exact (List.mem_filter.mp hmem).1
      have hcns : isSpecial c = false := by
        have hmem : c ∈ normalsOf m.cards := hn ▸ List.mem_cons_self _ _
        have hf := (List.mem_filter.mp hmem).2
        rcases hb : isSpecial c with _ | _
        · rfl
        · rw [hb] at hf; cases hf
      have hcn3 : 3 ≤ c ∧ c ≤ 14 := by
        have h1 := hcs c hcmem
        have h2 := not_isSpecial_iff.mp hcns
        omega
      have hnoreset : m.cards.any isReset = false := by
        rcases hb : m.cards.any isReset with _ | _
        · rfl
        · rw [hb] at h
          have h3 : (if true = true ∧ true = true then false
              else if m.cards.length ≠ gs.round.count then false
              else if (c ≠ 0 ∧ c ≤ gs.round.tableRank) then false
              else true) = true := h
          rw [if_pos ⟨rfl, rfl⟩] at h3
          cases h3
      rw [hnoreset] at h
      have h2 : (if false = true ∧ true = true then false
          else if m.cards.length ≠ gs.round.count then false
          else if (c ≠ 0 ∧ c ≤ gs.round.tableRank) then false
          else true) = true := h
      rw [if_neg (by simp)] at h2
      have hlen : m.cards.length = gs.round.count := by
        by_cases hl : m.cards.length = gs.round.count
        · exact hl
        · exfalso
          rw [if_pos hl] at h2
          cases h2
      rw [if_neg (by simp [hlen])] at h2
      have hrt : gs.round.tableRank < c := by
        by_cases hc : c ≠ 0 ∧ c ≤ gs.round.tableRank
        · rw [if_pos hc] at h2
          cases h2
        · push_neg at hc
          by_cases hc0 : c = 0
          · omega
          · have := hc hc0
            omega
      refine ⟨hlen, Or.inl ⟨c, mem_normalRanksList_iff.mpr hcn3, hrt, ?_, c, hcmem, rfl⟩⟩
      intro x hx
      rcases hb : isSpecial x with _ | _
      · left
        have hmem : x ∈ normalsOf m.cards := by
          rw [normalsOf, List.mem_filter]
          exact ⟨hx, by rw [hb]; rfl⟩
        rw [hn] at hmem
        rcases List.mem_cons.mp hmem with rfl | hx'
        · rfl
        · simpa using List.all_eq_true.mp hall x hx'
      · right
        rcases isSpecial_iff.mp hb with rfl | rfl
        · rfl
        · exfalso
          rw [List.any_eq_false] at hnoreset
          exact hnoreset 16 hx (by simp [isReset])
    · exfalso
      have hallf : ns.all (· = c) = false := by
        rcases hb : ns.all (· = c) with _ | _
        · rfl
        · exact absurd hb hall
      have heq : classifySpec m.cards = none := by
        rw [classifySpec, hn]
        simp [hallf]
      rw [heq] at h
      simp at h

/-- Basic facts from any successful validation. -/
theorem validateMove_true_basics {gs : GameState} {m : Move}
    (h : gs.validateMove m = true) :
    gs.gameOver = false ∧ m.playerID = gs.currentTurn := by
  rw [GameState.validateMove] at h
  cases hov : gs.gameOver with
  | true => rw [hov] at h; simp at h
  | false =>
    rw [hov, if_neg (by simp)] at h
    by_cases hpid : m.playerID ≠ gs.currentTurn
    · rw [if_pos hpid] at h
      cases h
    · exact ⟨rfl, not_not.mp hpid⟩

/-- One direction of key-congruence: a validated move stays valid when its
cards are permuted (passes ignore their cards) and the player is unchanged. -/
theorem validateMove_true_congr (gs : GameState) {m m' : Move}
    (hpid : m.playerID = m'.playerID) (hpass : m.isPass = m'.isPass)
    (hperm : m.isPass = false → m.cards.Perm m'.cards)
    (h0 : (0 : ℕ) ∉ gs.hands.getD gs.currentTurn [])
    (hhand : handValid (gs.hands.getD gs.currentTurn []))
    (hv : gs.validateMove m = true) :
    gs.validateMove m' = true := by
  obtain ⟨hover, hpid1⟩ := validateMove_true_basics hv
  have hpid1' : m'.playerID = gs.currentTurn := by rw [← hpid]; exact hpid1
  cases hmp : m.isPass with
  | true =>
    rw [GameState.validateMove, if_neg (by rw [hover]; exact Bool.false_ne_true),
      if_neg (by rw [hpid1']; simp), ← hpass, hmp, if_pos rfl]
  | false =>
    have hperm := hperm hmp
    obtain ⟨_, _, hnil, hrem, hopen1, hresp1⟩ := validateMove_true_elim hv hmp
    rw [hpid1] at hrem
    have hle : (m.cards : Multiset ℕ) ≤ ↑(gs.hands.getD gs.currentTurn []) :=
      (handRemove_isSome_iff h0).mp hrem
    have hle' : (m'.cards : Multiset ℕ) ≤ ↑(gs.hands.getD gs.currentTurn []) := by
      rw [← Multiset.coe_eq_coe.mpr hperm]
      exact hle
    have hcs : ∀ x ∈ m.cards, 3 ≤ x ∧ x ≤ 16 := fun x hx =>
      hhand x (mem_hand_of_le hle x hx)
    have hnil' : m'.cards ≠ [] := by
      intro hh
      rw [hh] at hperm
      exact hnil hperm.eq_nil
    have hres : gs.validateMove (Move.mk gs.currentTurn m'.cards false) = true := by
      cases hopen : gs.round.isOpen with
      | true =>
        have hshape := openPlay_shape hcs (hopen1 hopen)
        refine validate_of_openShape hover hopen h0 hle' hnil' ?_
        rcases hshape with ⟨r, hr, hall, x, hx, hxr⟩ | hall | ⟨hall, x, hx, hxr⟩
        · exact Or.inl ⟨r, hr, fun y hy => hall y (hperm.mem_iff.mpr hy),
            x, hperm.mem_iff.mp hx, hxr⟩
        · exact Or.inr (Or.inl (fun y hy => hall y (hperm.mem_iff.mpr hy)))
        · exact Or.inr (Or.inr ⟨fun y hy => hall y (hperm.mem_iff.mpr hy),
            x, hperm.mem_iff.mp hx, hxr⟩)
      | false =>
        obtain ⟨hlen, hshape⟩ := responsePlay_shape hcs (hresp1 hopen)
        refine validate_of_responseShape hover hopen ?_ h0
          ⟨hle', by rw [← hperm.length_eq]; exact hlen, ?_⟩
        · cases hc : m.cards with
          | nil => exact absurd hc hnil
          | cons a t =>
            rw [hc] at hlen
            simp at hlen
            omega
        · rcases hshape with ⟨r, hr, hrt, hall, x, hx, hxr⟩ | hall | ⟨hall, x, hx, hxr⟩
          · exact Or.inl ⟨r, hr, hrt, fun y hy => hall y (hperm.mem_iff.mpr hy),
              x, hperm.mem_iff.mp hx, hxr⟩
          · exact Or.inr (Or.inl (fun y hy => hall y (hperm.mem_iff.mpr hy)))
          · exact Or.inr (Or.inr ⟨fun y hy => hall y (hperm.mem_iff.mpr hy),
              x, hperm.mem_iff.mp hx, hxr⟩)
    have hm'eq : m' = Move.mk gs.currentTurn m'.cards false := by
      have hmp' : m'.isPass = false := hpass ▸ hmp
      cases m'
      simp at hpid1' hmp'
      simp [hpid1', hmp']
    rw [hm'eq]
    exact hres

/-- `ValidateMove` sees only the player, the pass flag and the card
multiset of a move (on hands without the impossible rank 0). -/
theorem validateMove_congr_key (gs : GameState) {m m' : Move}
    (hpid : m.playerID = m'.playerID) (hkey : mkey m = mkey m')
    (h0 : (0 : ℕ) ∉ gs.hands.getD gs.currentTurn [])
    (hhand : handValid (gs.hands.getD gs.currentTurn [])) :
    gs.validateMove m = gs.validateMove m' := by
  have hpass : m.isPass = m'.isPass := by
    rcases hb : m.isPass with _ | _ <;> rcases hb' : m'.isPass with _ | _
    · rfl
    · rw [mkey, mkey, hb, hb'] at hkey
      simp at hkey
    · rw [mkey, mkey, hb, hb'] at hkey
      simp at hkey
    · rfl
  have hpc : m.isPass = false → m.cards.Perm m'.cards := by
    intro hb
    have hb' : m'.isPass = false := hpass ▸ hb
    rw [mkey, mkey, hb, hb'] at hkey
    simp only [Bool.false_eq_true, if_false, Option.some.injEq] at hkey
    exact Multiset.coe_eq_coe.mp hkey
  have hpc' : m'.isPass = false → m'.cards.Perm m.cards := fun hb =>
    (hpc (hpass.trans hb)).symm
  rcases b1 : gs.validateMove m with _ | _ <;>
    rcases b2 : gs.validateMove m' with _ | _
  · rfl
  · exact absurd (validateMove_true_congr gs hpid.symm hpass.symm hpc' h0 hhand b2)
      (by rw [b1]; simp)
  · exact absurd (validateMove_true_congr gs hpid hpass hpc h0 hhand b1)
      (by rw [b2]; simp)
  · rfl

/-- C1 (amended): for a live position with a well-formed hand, a move by the
player to act is accepted by `ValidateMove` exactly when a move with the
same card multiset appears in `GetLegalMoves` — provided, in an open round,
the move has at most 6 cards (the generator's cap).  In response rounds the
equivalence is unconditional. -/
theorem c1_validateMove_iff_getLegalMoves (gs : GameState) (m : Move)
    (hover : gs.gameOver = false)
    (hpid : m.playerID = gs.currentTurn)
    (hhand : handValid (gs.hands.getD gs.currentTurn []))
    (hcount : gs.round.isOpen = false → 1 ≤ gs.round.count)
    (hsize : gs.round.isOpen = true → m.cards.length ≤ 6) :
    gs.validateMove m = true ↔ ∃ m' ∈ gs.getLegalMoves, mkey m' = mkey m := by
  have h0 : (0 : ℕ) ∉ gs.hands.getD gs.currentTurn [] := by
    intro hmem
    have := (hhand 0 hmem).1
    omega
  have hlegal : gs.getLegalMoves = passMove gs.currentTurn ::
      (if gs.round.isOpen then genOpenMoves gs.currentTurn (gs.hands.getD gs.currentTurn [])
       else genResponseMoves gs.currentTurn (gs.hands.getD gs.currentTurn []) gs.round) := by
    rw [GameState.getLegalMoves, if_neg (by rw [hover]; exact Bool.false_ne_true)]
  constructor
  · intro hv
    cases hmp : m.isPass with
    | true =>
      refine ⟨passMove gs.currentTurn, ?_, ?_⟩
      · rw [hlegal]
        exact List.mem_cons_self _ _
      · rw [mkey, mkey, hmp]
        simp [passMove]
    | false =>
      obtain ⟨_, _, hnil, hrem, hopen1, hresp1⟩ := validateMove_true_elim hv hmp
      rw [hpid] at hrem
      have hle : (m.cards : Multiset ℕ) ≤ ↑(gs.hands.getD gs.currentTurn []) :=
        (handRemove_isSome_iff h0).mp hrem
      have hcs : ∀ x ∈ m.cards, 3 ≤ x ∧ x ≤ 16 := fun x hx =>
        hhand x (mem_hand_of_le hle x hx)
      cases hopen : gs.round.isOpen with
      | true =>
        have hshape := openPlay_shape hcs (hopen1 hopen)
        obtain ⟨m', hm', hkeyeq⟩ := @genOpenMoves_complete gs.currentTurn _ _
          hle hnil (hsize hopen) hshape
        refine ⟨m', ?_, ?_⟩
        · rw [hlegal, if_pos hopen]
          exact List.mem_cons_of_mem _ hm'
        · rw [hkeyeq, mkey, hmp]
          simp
      | false =>
        obtain ⟨hlen, hshape⟩ := responsePlay_shape hcs (hresp1 hopen)
        obtain ⟨m', hm', hkeyeq⟩ := @genResponseMoves_complete gs.currentTurn _ _ _
          ⟨hle, hlen, hshape⟩
        refine ⟨m', ?_, ?_⟩
        · rw [hlegal, if_neg (by rw [hopen]; exact Bool.false_ne_true)]
          exact List.mem_cons_of_mem _ hm'
        · rw [hkeyeq, mkey, hmp]
          simp
  · rintro ⟨m', hm', hkey⟩
    rw [hlegal] at hm'
    rcases List.mem_cons.mp hm' with rfl | hgen
    · -- the pass move: `m` must itself be a pass, which always validates
      have hmp : m.isPass = true := by
        rcases hb : m.isPass with _ | _
        · rw [mkey, mkey, hb] at hkey
          simp [passMove] at hkey
        · rfl
      rw [GameState.validateMove, if_neg (by rw [hover]; exact Bool.false_ne_true),
        if_neg (by rw [hpid]; simp), hmp]
      rw [if_pos rfl]
    · have hm'v : gs.validateMove m' = true := by
        cases hopen : gs.round.isOpen with
        | true =>
          rw [if_pos hopen] at hgen
          obtain ⟨hp', hpass', hsh⟩ := genOpenMoves_elim hgen
          obtain ⟨hle', hne', _, hsh'⟩ := hsh
          have := validate_of_openShape hover hopen h0 hle' hne' hsh'
          have hm'eq : m' = Move.mk gs.currentTurn m'.cards false := by
            cases m'
            simp at hp' hpass'
            simp [hp', hpass']
          rw [hm'eq]
          exact this
        | false =>
          rw [if_neg (by rw [hopen]; exact Bool.false_ne_true)] at hgen
          obtain ⟨hp', hpass', hsh⟩ := genResponseMoves_elim hgen
          have := validate_of_responseShape hover hopen (hcount hopen) h0 hsh
          have hm'eq : m' = Move.mk gs.currentTurn m'.cards false := by
            cases m'
            simp at hp' hpass'
            simp [hp', hpass']
          rw [hm'eq]
          exact this
      have hpid2 : m.playerID = m'.playerID := by
        cases hopen : gs.round.isOpen with
        | true =>
          rw [if_pos hopen] at hgen
          rw [(genOpenMoves_elim hgen).1, hpid]
        | false =>
          rw [if_neg (by rw [hopen]; exact Bool.false_ne_true)] at hgen
          rw [(genResponseMoves_elim hgen).1, hpid]
      rw [validateMove_congr_key gs hpid2 hkey.symm h0 hhand]
      exact hm'v

/-- Witness for C1: in a fresh open-round position the accepted pair of
sevens is represented in the legal-move list (via the theorem's forward
direction at a concrete input). -/
theorem c1_witness :
    ∃ m' ∈ (newGameWithHands [[7, 7, 15, 16], [4, 4]] [] 0).getLegalMoves,
      mkey m' = mkey ⟨0, [7, 7], false⟩ :=
  (c1_validateMove_iff_getLegalMoves (newGameWithHands [[7, 7, 15, 16], [4, 4]] [] 0)
    ⟨0, [7, 7], false⟩ (by decide) (by decide) (by decide) (by decide)
    (by decide)).mp (by decide)

/-- Counterexample for C1 as stated: in a reachable open-round position
(four players, two decks) a hand of seven Threes validates as a single
7-card play, but `GetLegalMoves` caps combinations at 6 cards and contains
no move with that card multiset. -/
theorem c1_counterexample :
    (newGameWithHands [[3, 3, 3, 3, 3, 3, 3], [4], [4], [4]] [] 0).validateMove
      ⟨0, [3, 3, 3, 3, 3, 3, 3], false⟩ = true
    ∧ ¬ ∃ m' ∈ (newGameWithHands [[3, 3, 3, 3, 3, 3, 3], [4], [4], [4]] [] 0).getLegalMoves,
        mkey m' = mkey ⟨0, [3, 3, 3, 3, 3, 3, 3], false⟩ := by
  constructor
  · decide
  · decide

/-! ## Claim C6: dominance filter scope and threshold -/

/-- Every legal move in a response round is a pass or has exactly the
round's required card count. -/
theorem legal_response_length {gs : GameState} {m : Move}
    (hover : gs.gameOver = false) (hopen : gs.round.isOpen = false)
    (hm : m ∈ gs.getLegalMoves) :
    m.isPass = true ∨ m.cards.length = gs.round.count := by
  have hlegal : gs.getLegalMoves = passMove gs.currentTurn ::
      genResponseMoves gs.currentTurn (gs.hands.getD gs.currentTurn []) gs.round := by
    rw [GameState.getLegalMoves, if_neg (by rw [hover]; exact Bool.false_ne_true)]
    simp only []
    rw [if_neg (by rw [hopen]; exact Bool.false_ne_true)]
  rw [hlegal] at hm
  rcases List.mem_cons.mp hm with rfl | hgen
  · exact Or.inl rfl
  · exact Or.inr (genResponseMoves_elim hgen).2.2.2.1

/-- C6: the dominance filter is the identity on open rounds; on the legal
moves of a response round it never removes the pass nor any wildcard-free
move, and a wildcard move that also holds a normal or reset card is
retained exactly when its effective rank exceeds the natural maximum
(by 2 or more once that maximum is at least rank ten, i.e. exceeds
`maxNatural + 1`); and at every non-root search node `selectExpand` uses
the unfiltered legal-move set. -/
theorem c6_dominance_filter (gs : GameState)
    (hover : gs.gameOver = false) (hopen : gs.round.isOpen = false) :
    (∀ (mvs : List Move) (rnd : RoundState), rnd.isOpen = true →
        filterDominatedMoves mvs rnd = mvs)
    ∧ (∀ m ∈ gs.getLegalMoves, m.isPass = true ∨ hasWildCard m = false →
        m ∈ filterDominatedMoves gs.getLegalMoves gs.round)
    ∧ (∀ m ∈ gs.getLegalMoves,
        maxNaturalRank gs.getLegalMoves gs.round.tableRank ≠ 0 →
        hasWildCard m = true → (hasNormalCard m = true ∨ hasResetCard m = true) →
          (m ∈ filterDominatedMoves gs.getLegalMoves gs.round ↔
            (if 10 ≤ maxNaturalRank gs.getLegalMoves gs.round.tableRank
             then maxNaturalRank gs.getLegalMoves gs.round.tableRank + 1
             else maxNaturalRank gs.getLegalMoves gs.round.tableRank)
            < m.effectiveRank gs.round.tableRank))
    ∧ (∀ (rf : Option (List Move)) (gs2 : GameState),
        selectExpandMoves false rf gs2 = gs2.getLegalMoves) := by
  have hlegal : gs.getLegalMoves = passMove gs.currentTurn ::
      genResponseMoves gs.currentTurn (gs.hands.getD gs.currentTurn []) gs.round := by
    rw [GameState.getLegalMoves, if_neg (by rw [hover]; exact Bool.false_ne_true)]
    simp only []
    rw [if_neg (by rw [hopen]; exact Bool.false_ne_true)]
  refine ⟨?_, ?_, ?_, ?_⟩
  · intro mvs rnd hrnd
    rw [filterDominatedMoves, if_pos hrnd]
  · intro m hm hcond
    rw [filterDominatedMoves, if_neg (by rw [hopen]; exact Bool.false_ne_true)]
    by_cases hmax : maxNaturalRank gs.getLegalMoves gs.round.tableRank = 0
    · rw [if_pos hmax]
      exact hm
    · rw [if_neg hmax, List.mem_filter]
      refine ⟨hm, ?_⟩
      rcases hcond with hpass | hwild
      · rw [keepMove, if_pos hpass]
      · rw [keepMove]
        by_cases hpass : m.isPass = true
        · rw [if_pos hpass]
        · rw [if_neg hpass]
          have hlen : m.cards.length = gs.round.count := by
            rcases legal_response_length hover hopen hm with hp | hl
            · exact absurd hp hpass
            · exact hl
          rw [if_neg (by rintro ⟨hlt, _, _⟩; omega)]
          rw [if_pos (by rw [hwild]; simp)]
  · intro m hm hmax hwild hnr
    have hpass : m.isPass = false := by
      rcases hb : m.isPass with _ | _
      · rfl
      · exfalso
        rw [hlegal] at hm
        rcases List.mem_cons.mp hm with rfl | hgen
        · rw [hasWildCard] at hwild
          simp [passMove] at hwild
        · rw [(genResponseMoves_elim hgen).2.1] at hb
          cases hb
    have hlen : m.cards.length = gs.round.count := by
      rcases legal_response_length hover hopen hm with hp | hl
      · rw [hp] at hpass; cases hpass
      · exact hl
    rw [filterDominatedMoves, if_neg (by rw [hopen]; exact Bool.false_ne_true),
      if_neg hmax, List.mem_filter]
    rw [keepMove, if_neg (by rw [hpass]; simp),
      if_neg (by rintro ⟨hlt, _, _⟩; omega),
      if_neg (by rw [hwild]; simp),
      if_neg (by rintro ⟨hn, hr⟩; rcases hnr with h | h
                 · rw [h] at hn; exact hn rfl
                 · rw [h] at hr; exact hr rfl)]
    simp only [decide_eq_true_eq]
    constructor
    · rintro ⟨_, hlt⟩
      exact hlt
    · intro hlt
      exact ⟨hm, hlt⟩
  · intro rf gs2
    rw [selectExpandMoves, if_neg (by rintro ⟨hf, _⟩; cases hf)]

/-- Witness for C6: a concrete response round (pair of Kings natural, one
wildcard) keeps the pass and drops the King-plus-wild pair whose effective
rank does not clear the raised threshold. -/
theorem c6_witness :
    (filterDominatedMoves [] ⟨1, 5, true, 0, 0⟩ = [])
    ∧ passMove 0 ∈ filterDominatedMoves
        (GameState.mk 2 [[13, 13, 15], [4, 4]] 0 ⟨2, 10, false, 1, 0⟩ [] [] false
          (-1) [] [false, false] []).getLegalMoves ⟨2, 10, false, 1, 0⟩
    ∧ ¬ (Move.mk 0 [13, 15] false) ∈ filterDominatedMoves
        (GameState.mk 2 [[13, 13, 15], [4, 4]] 0 ⟨2, 10, false, 1, 0⟩ [] [] false
          (-1) [] [false, false] []).getLegalMoves ⟨2, 10, false, 1, 0⟩
    ∧ selectExpandMoves false (some []) (newGameWithHands [[3], [4]] [] 0)
        = (newGameWithHands [[3], [4]] [] 0).getLegalMoves := by
  refine ⟨(c6_dominance_filter (GameState.mk 2 [[13, 13, 15], [4, 4]] 0
      ⟨2, 10, false, 1, 0⟩ [] [] false (-1) [] [false, false] []) (by decide)
      (by decide)).1 [] ⟨1, 5, true, 0, 0⟩ rfl, ?_, ?_, ?_⟩
  · exact (c6_dominance_filter _ (by decide) (by decide)).2.1 (passMove 0)
      (by decide) (Or.inl rfl)
  · intro hmem
    have hiff := (c6_dominance_filter (GameState.mk 2 [[13, 13, 15], [4, 4]] 0
      ⟨2, 10, false, 1, 0⟩ [] [] false (-1) [] [false, false] []) (by decide)
      (by decide)).2.2.1 (Move.mk 0 [13, 15] false) (by decide) (by decide)
      (by decide) (Or.inl (by decide))
    have hlt := hiff.mp hmem
    revert hlt
    decide
  · exact (c6_dominance_filter (GameState.mk 2 [[13, 13, 15], [4, 4]] 0
      ⟨2, 10, false, 1, 0⟩ [] [] false (-1) [] [false, false] []) (by decide)
      (by decide)).2.2.2 (some []) (newGameWithHands [[3], [4]] [] 0)

/-- `bestNonPassFromDetails` is the first projection of the `bnpStep` scan. -/
theorem bestNonPassFromDetails_eq (details : List MoveDetail) :
    bestNonPassFromDetails details = (details.foldl bnpStep (none, -1)).1 := rfl

/-- `movesEqual` is reflexive. -/
theorem movesEqual_rfl (m : Move) : movesEqual m m = true := by
  unfold movesEqual
  split_ifs with h1 h2 h3
  · rfl
  · exact absurd rfl h2
  · exact absurd rfl h3
  · simp

/-- Invariant of the `bnpStep` scan: the running best only grows, the result
is either the start or a visited non-pass detail of the list, and it bounds
every visited non-pass win rate. -/
theorem bnpFold_spec (l : List MoveDetail) (o : Option Move) (q : ℚ) :
    q ≤ (l.foldl bnpStep (o, q)).2
    ∧ (l.foldl bnpStep (o, q) = (o, q)
        ∨ ∃ d ∈ l, d.move.isPass = false ∧ 0 < d.visits
            ∧ l.foldl bnpStep (o, q) = (some d.move, d.winRate))
    ∧ ∀ d ∈ l, d.move.isPass = false → 0 < d.visits →
        d.winRate ≤ (l.foldl bnpStep (o, q)).2 := by
  induction l generalizing o q with
  | nil => exact ⟨le_refl q, Or.inl rfl, by intro d hd; cases hd⟩
  | cons d l ih =>
    by_cases hguard : ¬ d.move.isPass ∧ 0 < d.visits ∧ q < d.winRate
    · have hstep : bnpStep (o, q) d = (some d.move, d.winRate) := by
        rw [bnpStep, if_pos hguard]
      have hfold : (d :: l).foldl bnpStep (o, q)
          = l.foldl bnpStep (some d.move, d.winRate) := by
        rw [List.foldl_cons, hstep]
      obtain ⟨h1, h2, h3⟩ := ih (some d.move) d.winRate
      refine ⟨?_, ?_, ?_⟩
      · rw [hfold]; exact le_trans (le_of_lt hguard.2.2) h1
      · rcases h2 with heq | ⟨d0, hd0, hp0, hv0, heq⟩
        · exact Or.inr ⟨d, List.mem_cons_self d l,
            Bool.eq_false_iff.mpr hguard.1, hguard.2.1, by rw [hfold, heq]⟩
        · exact Or.inr ⟨d0, List.mem_cons_of_mem d hd0, hp0, hv0,
            by rw [hfold, heq]⟩
      · intro d0 hd0 hp0 hv0
        rcases List.mem_cons.mp hd0 with rfl | hmem
        · rw [hfold]; exact h1
        · rw [hfold]; exact h3 d0 hmem hp0 hv0
    · have hstep : bnpStep (o, q) d = (o, q) := by
        rw [bnpStep, if_neg hguard]
      have hfold : (d :: l).foldl bnpStep (o, q) = l.foldl bnpStep (o, q) := by
        rw [List.foldl_cons, hstep]
      obtain ⟨h1, h2, h3⟩ := ih o q
      refine ⟨?_, ?_, ?_⟩
      · rw [hfold]; exact h1
      · rcases h2 with heq | ⟨d0, hd0, hp0, hv0, heq⟩
        · exact Or.inl (by rw [hfold, heq])
        · exact Or.inr ⟨d0, List.mem_cons_of_mem d hd0, hp0, hv0,
            by rw [hfold, heq]⟩
      · intro d0 hd0 hp0 hv0
        rcases List.mem_cons.mp hd0 with rfl | hmem
        · have hnlt : ¬ q < d0.winRate := fun hlt =>
            hguard ⟨by rw [hp0]; exact Bool.false_ne_true, hv0, hlt⟩
          rw [hfold]; exact le_trans (le_of_not_lt hnlt) h1
        · rw [hfold]; exact h3 d0 hmem hp0 hv0

/-- When some visited non-pass detail scores above the `-1` start,
`bestNonPassFromDetails` returns a visited non-pass detail of maximal
win rate among the visited non-pass details. -/
theorem bestNonPass_spec {details : List MoveDetail}
    (hex : ∃ d ∈ details,
      d.move.isPass = false ∧ 0 < d.visits ∧ (-1 : ℚ) < d.winRate) :
    ∃ d ∈ details, d.move.isPass = false ∧ 0 < d.visits
      ∧ bestNonPassFromDetails details = some d.move
      ∧ ∀ d' ∈ details, d'.move.isPass = false → 0 < d'.visits →
          d'.winRate ≤ d.winRate := by
  obtain ⟨d0, hd0, hp0, hv0, hw0⟩ := hex
  obtain ⟨h1, h2, h3⟩ := bnpFold_spec details none (-1)
  have hgt : (-1 : ℚ) < (details.foldl bnpStep (none, -1)).2 :=
    lt_of_lt_of_le hw0 (h3 d0 hd0 hp0 hv0)
  rcases h2 with heq | ⟨d, hd, hp, hv, heq⟩
  · rw [heq] at hgt; exact absurd hgt (lt_irrefl _)
  · refine ⟨d, hd, hp, hv, ?_, ?_⟩
    · rw [bestNonPassFromDetails_eq, heq]
    · intro d' hd' hp' hv'
      have hle := h3 d' hd' hp' hv'
      rw [heq] at hle
      exact hle

/-- C5: whenever the pass-override condition holds and the root statistics
contain at least one visited non-pass move (whose win rate exceeds the -1
scan start), the selected move is not a pass; and if the raw pick was a
pass, the substituted move is a visited detail move of maximal win rate
among the visited non-pass details. -/
theorem c5_pass_override (gs : GameState) (children : List ChildStat)
    (om : Bool)
    (hcond : passOverrideCond gs (gs.hands.getD gs.currentTurn []).length
      (minOppHandCount gs gs.currentTurn))
    (hex : ∃ d ∈ (pickBest children gs.currentTurn om).2.details,
      d.move.isPass = false ∧ 0 < d.visits ∧ (-1 : ℚ) < d.winRate) :
    (bestMoveSingleSelect gs children om).1.isPass = false
    ∧ ((pickBest children gs.currentTurn om).1.isPass = true →
        ∃ d ∈ (pickBest children gs.currentTurn om).2.details,
          (bestMoveSingleSelect gs children om).1 = d.move ∧ 0 < d.visits
          ∧ ∀ d' ∈ (pickBest children gs.currentTurn om).2.details,
              d'.move.isPass = false → 0 < d'.visits →
                d'.winRate ≤ d.winRate) := by
  obtain ⟨d, hd, hp, hv, heqb, hmax⟩ := bestNonPass_spec hex
  rcases hpassb : (pickBest children gs.currentTurn om).1.isPass with _ | _
  · have hres : bestMoveSingleSelect gs children om
        = pickBest children gs.currentTurn om := by
      unfold bestMoveSingleSelect
      simp only []
      split_ifs with hcnd
      · exact absurd hcnd.1 (by rw [hpassb]; exact Bool.false_ne_true)
      · rfl
    refine ⟨by rw [hres]; exact hpassb, fun hcontra => ?_⟩
    exact absurd (hpassb ▸ hcontra) Bool.false_ne_true
  · have hres : (bestMoveSingleSelect gs children om).1 = d.move := by
      unfold bestMoveSingleSelect
      simp only []
      split_ifs with hcnd
      case neg => exact absurd ⟨hpassb, hcond⟩ hcnd
      split
      · next m heqm =>
        rw [heqb] at heqm
        injection heqm with hm
        subst hm
        split
        · next dd heqf => rfl
        · next heqf =>
          exact absurd (movesEqual_rfl d.move)
            (List.find?_eq_none.mp heqf d hd)
      · next heqm =>
        rw [heqb] at heqm
        cases heqm
    exact ⟨by rw [hres]; exact hp, fun _ => ⟨d, hd, hres, hv, hmax⟩⟩

/-- Witness for C5: a five-against-one position triggers the override and
the substituted move is the non-pass single Three, not the pass the visit
count preferred. -/
theorem c5_witness :
    (bestMoveSingleSelect
      (GameState.mk 2 [[3, 3, 3, 3, 3], [4]] 0 ⟨1, 0, true, 0, 0⟩ [] [] false
        (-1) [] [false, false] [])
      [ChildStat.mk (passMove 0) 10 5, ChildStat.mk (Move.mk 0 [3] false) 2 1]
      false).1.isPass = false := by
  have hd : (pickBest
      [ChildStat.mk (passMove 0) 10 5, ChildStat.mk (Move.mk 0 [3] false) 2 1]
      (GameState.mk 2 [[3, 3, 3, 3, 3], [4]] 0 ⟨1, 0, true, 0, 0⟩ [] [] false
        (-1) [] [false, false] []).currentTurn false).2.details
      = [MoveDetail.mk (passMove 0)
          (childWinRate (ChildStat.mk (passMove 0) 10 5)) 10,
         MoveDetail.mk (Move.mk 0 [3] false)
          (childWinRate (ChildStat.mk (Move.mk 0 [3] false) 2 1)) 2] := rfl
  exact (c5_pass_override
    (GameState.mk 2 [[3, 3, 3, 3, 3], [4]] 0 ⟨1, 0, true, 0, 0⟩ [] [] false
      (-1) [] [false, false] [])
    [ChildStat.mk (passMove 0) 10 5, ChildStat.mk (Move.mk 0 [3] false) 2 1]
    false (by decide)
    ⟨MoveDetail.mk (Move.mk 0 [3] false)
        (childWinRate (ChildStat.mk (Move.mk 0 [3] false) 2 1)) 2,
      by rw [hd]; exact List.mem_cons_of_mem _ (List.mem_cons_self _ _),
      rfl, by decide, by norm_num [childWinRate]⟩).1

/-- Counterexample for C5 as claimed: when every determinization failed the
root has no children and no details, so `bestMoveSingle` returns the pass
even though the override condition (six cards against one) holds. -/
theorem c5_counterexample :
    passOverrideCond
      (GameState.mk 2 [[3, 3, 3, 3, 3, 3], [4]] 0 ⟨1, 0, true, 0, 0⟩ [] []
        false (-1) [] [false, false] [])
      ((GameState.mk 2 [[3, 3, 3, 3, 3, 3], [4]] 0 ⟨1, 0, true, 0, 0⟩ [] []
        false (-1) [] [false, false] []).hands.getD 0 []).length
      (minOppHandCount
        (GameState.mk 2 [[3, 3, 3, 3, 3, 3], [4]] 0 ⟨1, 0, true, 0, 0⟩ [] []
          false (-1) [] [false, false] []) 0)
    ∧ (bestMoveSingleSelect
        (GameState.mk 2 [[3, 3, 3, 3, 3, 3], [4]] 0 ⟨1, 0, true, 0, 0⟩ [] []
          false (-1) [] [false, false] [])
        [] false).1.isPass = true := by
  constructor
  · decide
  · decide

/-- If every positively suspected rank is 15 and some unused card has rank
15, tier 1 of the partition is non-empty and headed by a rank-15 card. -/
theorem tiersOf_fst_head (susp : ℕ → ℕ) (excl : ℕ → Bool)
    (unused : List (ℕ × ℕ)) (hs : ∀ r, 0 < susp r → r = 15)
    (hex : ∃ c ∈ unused, 0 < susp c.2) :
    ∃ c tl, (tiersOf susp excl unused).1 = c :: tl ∧ c.2 = 15 := by
  induction unused generalizing susp with
  | nil => obtain ⟨c, hc, _⟩ := hex; cases hc
  | cons c rest ih =>
    by_cases hc : 0 < susp c.2
    · refine ⟨c, (tiersOf (fun r => if r = c.2 then susp r - 1 else susp r)
        excl rest).1, ?_, hs _ hc⟩
      simp only [tiersOf]
      rw [if_pos hc]
    · obtain ⟨c0, hc0, h0⟩ := hex
      rcases List.mem_cons.mp hc0 with rfl | hmem
      · exact absurd h0 hc
      · have hrec := ih susp hs ⟨c0, hmem, h0⟩
        simp only [tiersOf]
        rw [if_neg hc]
        by_cases he : excl c.2 = true
        · rw [if_pos he]; exact hrec
        · rw [if_neg he]; exact hrec

/-- C10: the fresh knowledge tracker seeds the suspicion list `[15]` (one
wildcard Two) for every opponent of the observer; and whenever a player's
suspicion list is still `[15]`, the unused pool holds a Two, the player
needs at least one card, and the tier-based assignment succeeds, the
assigned hand contains a Two. -/
theorem c10_two_suspicion :
    (∀ (numPlayers myID : ℕ) (myHand deadCards : List ℕ) (p : ℕ),
        p < numPlayers → p ≠ myID →
        (newKnowledgeTracker numPlayers myID myHand deadCards).suspicions p
          = [15])
    ∧ (∀ (kt : KnowledgeTracker) (p : ℕ) (unused : List (ℕ × ℕ))
          (hand : List ℕ) (rest : List (ℕ × ℕ)),
        kt.suspicions p = [15] →
        (∃ c ∈ unused, c.2 = 15) →
        1 ≤ (max (kt.handCounts.getD p 0) 0).toNat →
        assignOne kt p unused = some (hand, rest) →
        15 ∈ hand) := by
  constructor
  · intro numPlayers myID myHand deadCards p hp hne
    show (if p < numPlayers ∧ p ≠ myID then [15] else []) = [15]
    rw [if_pos ⟨hp, hne⟩]
  · intro kt p unused hand rest hsusp hex hneed hA
    have hs : ∀ r, 0 < (kt.suspicions p).count r → r = 15 := by
      intro r hr
      by_contra hne
      rw [hsusp, List.count_eq_zero_of_not_mem (by simp [hne])] at hr
      exact absurd hr (lt_irrefl 0)
    obtain ⟨c0, hc0, h015⟩ := hex
    obtain ⟨c, tl, ht1, hc15⟩ := tiersOf_fst_head
      (fun r => (kt.suspicions p).count r) (fun r => kt.excludedRanks p r)
      unused hs ⟨c0, hc0, by rw [h015, hsusp]; simp⟩
    unfold assignOne at hA
    simp only [] at hA
    rw [if_pos (show (0 : ℕ) < (max (kt.handCounts.getD p 0) 0).toNat
      from hneed), ht1] at hA
    split at hA
    · exact Option.noConfusion hA
    · rw [Option.some.injEq, Prod.mk.injEq] at hA
      rw [← hA.1]
      obtain ⟨n, hn⟩ : ∃ n, (max (kt.handCounts.getD p 0) 0).toNat = n + 1 :=
        ⟨(max (kt.handCounts.getD p 0) 0).toNat - 1, by omega⟩
      rw [hn, List.cons_append, List.cons_append, List.take_succ_cons,
        List.map_cons]
      exact List.mem_cons.mpr (Or.inl hc15.symm)

/-- Witness for C10: a fresh two-player tracker suspects opponent 1 of one
Two, and with one card needed from the pool `[(0,15),(1,3)]` the assignment
hands over the Two. -/
theorem c10_witness :
    (newKnowledgeTracker 2 0 [] []).suspicions 1 = [15] ∧ (15 : ℕ) ∈ [15] :=
  ⟨c10_two_suspicion.1 2 0 [] [] 1 (by decide) (by decide),
    c10_two_suspicion.2
      { newKnowledgeTracker 2 0 [] [] with handCounts := [1, 1] } 1
      [(0, 15), (1, 3)] [15] [(1, 3)] (by decide)
      ⟨(0, 15), by decide, rfl⟩ (by decide) (by decide)⟩

/-- Counterexample for C10 as claimed: the observer holds all four Twos of
the two-player deck, so with no Two observed and opponent 1 still suspected
of a Two, determinization succeeds while assigning opponent 1 no Two. -/
theorem c10_counterexample :
    ((newKnowledgeTracker 2 0 [15, 15, 15, 15, 3, 3, 3, 3, 4, 4, 4, 4, 5, 5, 5, 5, 6, 6] []).suspicions 1 = [15])
    ∧ (determinize false (GameState.mk 2 [[], []] 0 ⟨1, 0, true, 0, 0⟩ [] [] false (-1) [] [false, false] []) (newKnowledgeTracker 2 0 [15, 15, 15, 15, 3, 3, 3, 3, 4, 4, 4, 4, 5, 5, 5, 5, 6, 6] [])
        (newKnowledgeTracker 2 0 [15, 15, 15, 15, 3, 3, 3, 3, 4, 4, 4, 4, 5, 5, 5, 5, 6, 6] []).possibleOpponentCards).isSome = true
    ∧ (((determinize false (GameState.mk 2 [[], []] 0 ⟨1, 0, true, 0, 0⟩ [] [] false (-1) [] [false, false] []) (newKnowledgeTracker 2 0 [15, 15, 15, 15, 3, 3, 3, 3, 4, 4, 4, 4, 5, 5, 5, 5, 6, 6] [])
          (newKnowledgeTracker 2 0 [15, 15, 15, 15, 3, 3, 3, 3, 4, 4, 4, 4, 5, 5, 5, 5, 6, 6] []).possibleOpponentCards).getD
        (GameState.mk 2 [[], []] 0 ⟨1, 0, true, 0, 0⟩ [] [] false (-1) [] [false, false] [])).hands.getD 1 []).count 15 = 0 := by
  refine ⟨by decide, by decide, by decide⟩

/-- If every position `f` reports as winning is a forced win, then a `true`
result of the "our move" scan exhibits a listed move whose successor is a
forced win. -/
theorem fwsAny_sound {myID : ℕ} (f : GameState → ℕ → Bool × ℕ)
    (hf : ∀ (gs' : GameState) (n : ℕ), (f gs' n).1 = true → ForcedWin myID gs')
    (gs : GameState) :
    ∀ (lst : List Move) (nodes : ℕ),
      (fwsAny f gs lst nodes).1 = true →
      ∃ m ∈ lst, ForcedWin myID (gs.applyMove m) := by
  intro lst
  induction lst with
  | nil => intro nodes h; exact Bool.noConfusion h
  | cons m rest ih =>
    intro nodes h
    simp only [fwsAny] at h
    split_ifs at h with hr
    · exact ⟨m, List.mem_cons_self m rest, hf _ _ hr⟩
    · obtain ⟨m0, hm0, hw⟩ := ih _ h
      exact ⟨m0, List.mem_cons_of_mem m hm0, hw⟩

/-- If every position `f` reports as winning is a forced win, then a `true`
result of the opponent scan makes every listed reply's successor a forced
win. -/
theorem fwsAll_sound {myID : ℕ} (f : GameState → ℕ → Bool × ℕ)
    (hf : ∀ (gs' : GameState) (n : ℕ), (f gs' n).1 = true → ForcedWin myID gs')
    (gs : GameState) :
    ∀ (lst : List Move) (nodes : ℕ),
      (fwsAll f gs lst nodes).1 = true →
      ∀ m ∈ lst, ForcedWin myID (gs.applyMove m) := by
  intro lst
  induction lst with
  | nil => intro nodes _ m hm; cases hm
  | cons m rest ih =>
    intro nodes h m0 hm0
    simp only [fwsAll] at h
    split_ifs at h with hr
    · rcases List.mem_cons.mp hm0 with rfl | hmem
      · exact hf _ _ hr
      · exact ih _ h m0 hmem

/-- Soundness of the bounded minimax: a `true` verdict of `forcedWinSearch`
is a genuine forced win, at any depth bound, node budget and counter
state; exhaustion of either bound can only produce `false`. -/
theorem fws_sound (myID maxNodes : ℕ) :
    ∀ (depth : ℕ) (gs : GameState) (nodes : ℕ),
      (forcedWinSearch myID maxNodes depth gs nodes).1 = true →
      ForcedWin myID gs := by
  intro depth
  induction depth with
  | zero =>
    intro gs nodes h
    rw [forcedWinSearch] at h
    by_cases h1 : maxNodes < nodes + 1
    · rw [if_pos h1] at h; exact Bool.noConfusion h
    · rw [if_neg h1] at h
      by_cases h2 : gs.gameOver = true
      · rw [if_pos h2] at h
        exact ForcedWin.terminal gs h2 (of_decide_eq_true h)
      · rw [if_neg h2] at h
        exact Bool.noConfusion h
  | succ d ih =>
    intro gs nodes h
    rw [forcedWinSearch] at h
    simp only [] at h
    by_cases h1 : maxNodes < nodes + 1
    · rw [if_pos h1] at h; exact Bool.noConfusion h
    · rw [if_neg h1] at h
      by_cases h2 : gs.gameOver = true
      · rw [if_pos h2] at h
        exact ForcedWin.terminal gs h2 (of_decide_eq_true h)
      · rw [if_neg h2] at h
        have hover : gs.gameOver = false := Bool.eq_false_iff.mpr h2
        by_cases hturn : gs.currentTurn = myID
        · rw [if_pos hturn] at h
          split_ifs at h with hr1 hopen
          all_goals first
            | exact Bool.noConfusion h
            | (obtain ⟨m, hm, hw⟩ :=
                fwsAny_sound (forcedWinSearch myID maxNodes d)
                  (fun gs' n => ih gs' n) gs _ _ hr1
               exact ForcedWin.myTurn gs m hover hturn
                 (List.mem_of_mem_filter hm) hw)
            | (obtain ⟨m, hm, hw⟩ :=
                fwsAny_sound (forcedWinSearch myID maxNodes d)
                  (fun gs' n => ih gs' n) gs _ _ h
               exact ForcedWin.myTurn gs m hover hturn
                 (List.mem_of_mem_filter hm) hw)
        · rw [if_neg hturn] at h
          exact ForcedWin.oppTurn gs hover hturn
            (fwsAll_sound (forcedWinSearch myID maxNodes d)
              (fun gs' n => ih gs' n) gs _ _ h)

/-- Soundness of the candidate scan of `findImmediateWin`: a returned move
either wins outright or opens a forced win. -/
theorem findForcedAux_sound (gs : GameState) (pid maxDepth maxNodes : ℕ) :
    ∀ (lst : List Move) (nodes : ℕ) (m : Move),
      findForcedAux gs pid maxDepth maxNodes lst nodes = some m →
      ForcedWin pid (gs.applyMove m) := by
  intro lst
  induction lst with
  | nil => intro nodes m h; exact Option.noConfusion h
  | cons m0 rest ih =>
    intro nodes m h
    simp only [findForcedAux] at h
    split_ifs at h with h1 h2
    · exact (Option.some.inj h) ▸ ForcedWin.terminal _ h1.1 h1.2
    · exact (Option.some.inj h) ▸
        fws_sound pid maxNodes (maxDepth - 1) (gs.applyMove m0) nodes h2
    · exact ih _ _ h

/-- C3: `forcedWinSearch` never claims a win falsely (bound exhaustion
included); the deep search is attempted only when at most 10 cards remain,
so above that any returned move is a hand-emptying quick win; and a
returned move that does not empty the mover's hand opens a forced win. -/
theorem c3_forced_win_soundness :
    (∀ (myID maxNodes depth : ℕ) (gs : GameState) (nodes : ℕ),
        (forcedWinSearch myID maxNodes depth gs nodes).1 = true →
        ForcedWin myID gs)
    ∧ (∀ (gs : GameState) (m : Move),
        10 < (gs.hands.map List.length).sum →
        findImmediateWin gs = some m →
        m.cards.length = (gs.hands.getD gs.currentTurn []).length)
    ∧ (∀ (gs : GameState) (m : Move),
        findImmediateWin gs = some m →
        m.cards.length ≠ (gs.hands.getD gs.currentTurn []).length →
        ForcedWin gs.currentTurn (gs.applyMove m)) := by
  refine ⟨fun myID maxNodes => fws_sound myID maxNodes, ?_, ?_⟩
  · intro gs m htotal hfind
    unfold findImmediateWin at hfind
    simp only [] at hfind
    split at hfind
    · next m0 heq =>
      have hpred := List.find?_some heq
      rw [Bool.and_eq_true, decide_eq_true_eq] at hpred
      exact (Option.some.inj hfind) ▸ hpred.2
    · next heq =>
      rw [if_pos htotal] at hfind
      exact Option.noConfusion hfind
  · intro gs m hfind hne
    unfold findImmediateWin at hfind
    simp only [] at hfind
    split at hfind
    · next m0 heq =>
      have hpred := List.find?_some heq
      rw [Bool.and_eq_true, decide_eq_true_eq] at hpred
      exact absurd ((Option.some.inj hfind) ▸ hpred.2) hne
    · next heq =>
      split_ifs at hfind with h10
      exact findForcedAux_sound gs gs.currentTurn
        ((gs.hands.map List.length).sum * 4) 500000 _ _ _ hfind

/-- Witness for C3: with hands `[[14,3],[4]]` the search returns the single
Ace, which does not empty the two-card hand yet forces the win. -/
theorem c3_witness :
    findImmediateWin (newGameWithHands [[14, 3], [4]] [] 0)
      = some (Move.mk 0 [14] false)
    ∧ ForcedWin 0
        ((newGameWithHands [[14, 3], [4]] [] 0).applyMove
          (Move.mk 0 [14] false)) :=
  ⟨by decide,
    c3_forced_win_soundness.2.2 (newGameWithHands [[14, 3], [4]] [] 0)
      (Move.mk 0 [14] false) (by decide) (by decide)⟩

/-- `getD` after `set` at the written index. -/
theorem getD_set_self {α : Type} (l : List α) (p : ℕ) (v d : α)
    (hp : p < l.length) : (l.set p v).getD p d = v := by
  rw [List.getD_eq_getElem?_getD, List.getElem?_set_self hp]
  rfl

/-- `getD` after `set` at another index. -/
theorem getD_set_ne {α : Type} (l : List α) {p q : ℕ} (h : p ≠ q) (v d : α) :
    (l.set p v).getD q d = l.getD q d := by
  rw [List.getD_eq_getElem?_getD, List.getElem?_set_ne h,
    ← List.getD_eq_getElem?_getD]

/-- Replacing one entry of a sum of naturals. -/
theorem sum_set_nat (L : List ℕ) (n a : ℕ) (hn : n < L.length) :
    (L.set n a).sum + L.getD n 0 = L.sum + a := by
  rw [List.sum_set, if_pos hn, List.getD_eq_getElem L 0 hn]
  have h1 : (L.take n).sum + (L.drop n).sum = L.sum :=
    List.sum_take_add_sum_drop L n
  rw [List.drop_eq_getElem_cons hn, List.sum_cons] at h1
  omega

/-- One unfinished seat bounds the active-player filter below. -/
theorem one_unfinished (l : List Bool) (p : ℕ) (hp : p < l.length)
    (hfp : l[p] = false) : 1 ≤ (l.filter (fun f => !f)).length := by
  have hmem : false ∈ l := hfp ▸ List.getElem_mem hp
  have : false ∈ l.filter (fun f => !f) := List.mem_filter.mpr ⟨hmem, rfl⟩
  exact List.length_pos.mpr (List.ne_nil_of_mem this)

/-- Two distinct unfinished seats force at least two active players. -/
theorem two_unfinished (l : List Bool) (p q : ℕ) (hne : p ≠ q)
    (hp : p < l.length) (hq : q < l.length)
    (hfp : l[p] = false) (hfq : l[q] = false) :
    2 ≤ (l.filter (fun f => !f)).length := by
  induction l generalizing p q with
  | nil => cases hp
  | cons b t ih =>
    rcases p with _ | p0 <;> rcases q with _ | q0
    · exact absurd rfl hne
    · have hb : b = false := hfp
      have hq0 : q0 < t.length := by simpa using hq
      have h1 : 1 ≤ (t.filter (fun f => !f)).length :=
        one_unfinished t q0 hq0 hfq
      have hlen : ((b :: t).filter (fun f => !f)).length
          = (t.filter (fun f => !f)).length + 1 := by
        rw [hb]; simp
      omega
    · have hb : b = false := hfq
      have hp0 : p0 < t.length := by simpa using hp
      have h1 : 1 ≤ (t.filter (fun f => !f)).length :=
        one_unfinished t p0 hp0 hfp
      have hlen : ((b :: t).filter (fun f => !f)).length
          = (t.filter (fun f => !f)).length + 1 := by
        rw [hb]; simp
      omega
    · have hp0 : p0 < t.length := by simpa using hp
      have hq0 : q0 < t.length := by simpa using hq
      have h2 := ih p0 q0 (fun hc => hne (by rw [hc])) hp0 hq0 hfp hfq
      have : (t.filter (fun f => !f)).length
          ≤ ((b :: t).filter (fun f => !f)).length := by
        rcases b with _ | _ <;> simp [List.filter_cons]
      omega

/-- `finishPlayer` never touches hands, piles, or the player count. -/
theorem finishPlayer_fields (gs : GameState) (pid : ℕ) :
    (gs.finishPlayer pid).1.hands = gs.hands
    ∧ (gs.finishPlayer pid).1.played = gs.played
    ∧ (gs.finishPlayer pid).1.deadCards = gs.deadCards
    ∧ (gs.finishPlayer pid).1.numPlayers = gs.numPlayers := by
  unfold GameState.finishPlayer
  simp only []
  split_ifs <;> first
    | (split <;> exact ⟨rfl, rfl, rfl, rfl⟩)
    | exact ⟨rfl, rfl, rfl, rfl⟩

/-- A pass leaves every card pile, the finish flags, the ranking and the
game-over flag unchanged. -/
theorem applyMove_pass_fields (gs : GameState) (m : Move)
    (hpass : m.isPass = true) :
    (gs.applyMove m).hands = gs.hands
    ∧ (gs.applyMove m).played = gs.played
    ∧ (gs.applyMove m).deadCards = gs.deadCards
    ∧ (gs.applyMove m).finished = gs.finished
    ∧ (gs.applyMove m).gameOver = gs.gameOver
    ∧ (gs.applyMove m).ranking = gs.ranking
    ∧ (gs.applyMove m).numPlayers = gs.numPlayers := by
  unfold GameState.applyMove
  simp only []
  rw [if_pos hpass]
  split_ifs <;> exact ⟨rfl, rfl, rfl, rfl, rfl, rfl, rfl⟩

/-- A non-pass move removes the played cards from the mover's hand, appends
them to the played pile, and leaves the dead pile and player count alone —
in every branch of `applyMove`. -/
theorem applyMove_play_fields (gs : GameState) (m : Move)
    (hpass : m.isPass = false) :
    (gs.applyMove m).hands
      = gs.hands.set m.playerID
          ((handRemove (gs.hands.getD m.playerID []) m.cards).getD
            (gs.hands.getD m.playerID []))
    ∧ (gs.applyMove m).played = gs.played ++ m.cards
    ∧ (gs.applyMove m).deadCards = gs.deadCards
    ∧ (gs.applyMove m).numPlayers = gs.numPlayers := by
  unfold GameState.applyMove
  simp only []
  rw [if_neg (by rw [hpass]; exact Bool.false_ne_true)]
  split_ifs with h1 h2 h3
  · refine ⟨(finishPlayer_fields _ _).1, (finishPlayer_fields _ _).2.1,
      (finishPlayer_fields _ _).2.2.1, (finishPlayer_fields _ _).2.2.2⟩
  · exact ⟨(finishPlayer_fields _ _).1, (finishPlayer_fields _ _).2.1,
      (finishPlayer_fields _ _).2.2.1, (finishPlayer_fields _ _).2.2.2⟩
  · exact ⟨(finishPlayer_fields _ _).1, (finishPlayer_fields _ _).2.1,
      (finishPlayer_fields _ _).2.2.1, (finishPlayer_fields _ _).2.2.2⟩
  · exact ⟨rfl, rfl, rfl, rfl⟩
  · exact ⟨rfl, rfl, rfl, rfl⟩
  · exact ⟨rfl, rfl, rfl, rfl⟩

/-- Full characterisation of `finishPlayer`: the returned flag is the
"at most one active player left" test, and the finish flags, ranking and
game-over flag of the returned state in each case. -/
theorem finishPlayer_spec (gs : GameState) (pid : ℕ) :
    (gs.finishPlayer pid).2
      = decide (((gs.finished.set pid true).filter (fun f => !f)).length ≤ 1)
    ∧ (¬ ((gs.finished.set pid true).filter (fun f => !f)).length ≤ 1 →
        (gs.finishPlayer pid).1.finished = gs.finished.set pid true
        ∧ (gs.finishPlayer pid).1.ranking = gs.ranking ++ [pid]
        ∧ (gs.finishPlayer pid).1.gameOver = gs.gameOver)
    ∧ (((gs.finished.set pid true).filter (fun f => !f)).length ≤ 1 →
        (gs.finishPlayer pid).1.gameOver = true
        ∧ ((gs.finished.set pid true).findIdx? (fun f => f = false) = none →
            (gs.finishPlayer pid).1.finished = gs.finished.set pid true
            ∧ (gs.finishPlayer pid).1.ranking = gs.ranking ++ [pid])
        ∧ ∀ i : ℕ,
            (gs.finished.set pid true).findIdx? (fun f => f = false) = some i →
            (gs.finishPlayer pid).1.finished
              = (gs.finished.set pid true).set i true
            ∧ (gs.finishPlayer pid).1.ranking
              = gs.ranking ++ [pid] ++ [i]) := by
  unfold GameState.finishPlayer
  simp only [GameState.activePlayerCount]
  by_cases hact : ((gs.finished.set pid true).filter (fun f => !f)).length ≤ 1
  · rw [if_pos hact]
    refine ⟨(decide_eq_true hact).symm, fun hn => absurd hact hn, fun _ => ?_⟩
    refine ⟨rfl, ?_, ?_⟩
    · intro hfi
      rw [hfi]
      exact ⟨rfl, rfl⟩
    · intro i hfi
      rw [hfi]
      exact ⟨rfl, rfl⟩
  · rw [if_neg hact]
    exact ⟨(decide_eq_false hact).symm, fun _ => ⟨rfl, rfl, rfl⟩,
      fun hc => absurd hc hact⟩

/-- Status of `applyMove` after a non-pass move: finish flags, ranking and
game-over flag in the three regimes (hand not emptied; emptied with other
players still active; emptied ending the game). -/
theorem applyMove_play_status (gs : GameState) (m : Move) (nh : List ℕ)
    (hpass : m.isPass = false) (hplt : m.playerID < gs.hands.length)
    (hnh : (handRemove (gs.hands.getD m.playerID []) m.cards).getD
      (gs.hands.getD m.playerID []) = nh) :
    (nh.isEmpty = false →
      (gs.applyMove m).finished = gs.finished
      ∧ (gs.applyMove m).ranking = gs.ranking
      ∧ (gs.applyMove m).gameOver = gs.gameOver)
    ∧ (nh.isEmpty = true →
        ¬ ((gs.finished.set m.playerID true).filter (fun f => !f)).length ≤ 1 →
        (gs.applyMove m).finished = gs.finished.set m.playerID true
        ∧ (gs.applyMove m).ranking = gs.ranking ++ [m.playerID]
        ∧ (gs.applyMove m).gameOver = gs.gameOver)
    ∧ (nh.isEmpty = true →
        ((gs.finished.set m.playerID true).filter (fun f => !f)).length ≤ 1 →
        (gs.applyMove m).gameOver = true
        ∧ ((gs.finished.set m.playerID true).findIdx? (fun f => f = false)
              = none →
            (gs.applyMove m).finished = gs.finished.set m.playerID true
            ∧ (gs.applyMove m).ranking = gs.ranking ++ [m.playerID])
        ∧ ∀ i : ℕ,
            (gs.finished.set m.playerID true).findIdx? (fun f => f = false)
              = some i →
            (gs.applyMove m).finished
              = (gs.finished.set m.playerID true).set i true
            ∧ (gs.applyMove m).ranking
              = gs.ranking ++ [m.playerID] ++ [i]) := by
  have hsp := finishPlayer_spec
    { gs with
        history := gs.history ++ [m],
        hands := gs.hands.set m.playerID nh,
        played := gs.played ++ m.cards } m.playerID
  simp only [] at hsp
  refine ⟨?_, ?_, ?_⟩
  · intro hemp
    unfold GameState.applyMove
    simp only []
    rw [if_neg (by rw [hpass]; exact Bool.false_ne_true)]
    rw [getD_set_self gs.hands m.playerID _ [] hplt, hnh]
    rw [if_neg (by rw [hemp]; exact Bool.false_ne_true)]
    split_ifs <;> exact ⟨rfl, rfl, rfl⟩
  · intro hemp hnact
    unfold GameState.applyMove
    simp only []
    rw [if_neg (by rw [hpass]; exact Bool.false_ne_true)]
    rw [getD_set_self gs.hands m.playerID _ [] hplt, hnh]
    rw [if_pos hemp]
    rw [hsp.1, decide_eq_false hnact]
    rw [if_neg Bool.false_ne_true]
    split_ifs <;>
      exact ⟨(hsp.2.1 hnact).1, (hsp.2.1 hnact).2.1, (hsp.2.1 hnact).2.2⟩
  · intro hemp hact
    unfold GameState.applyMove
    simp only []
    rw [if_neg (by rw [hpass]; exact Bool.false_ne_true)]
    rw [getD_set_self gs.hands m.playerID _ [] hplt, hnh]
    rw [if_pos hemp]
    rw [hsp.1, decide_eq_true hact]
    rw [if_pos rfl]
    refine ⟨(hsp.2.2 hact).1, fun hfi => ?_, fun i hfi => ?_⟩
    · exact ⟨((hsp.2.2 hact).2.1 hfi).1, ((hsp.2.2 hact).2.1 hfi).2⟩
    · exact ⟨((hsp.2.2 hact).2.2 i hfi).1, ((hsp.2.2 hact).2.2 i hfi).2⟩

/-- Conservation: a validated move keeps the total of hands, played pile
and dead pile constant. -/
theorem applyMove_conservation (gs : GameState) (m : Move)
    (hinv : Inv gs) (hval : gs.validateMove m = true) :
    totalCards (gs.applyMove m) = totalCards gs := by
  obtain ⟨hc1, hc2, hc3, _⟩ := hinv
  by_cases hpass : m.isPass = true
  · obtain ⟨h1, h2, h3, _⟩ := applyMove_pass_fields gs m hpass
    rw [totalCards, totalCards, h1, h2, h3]
  · have hpass2 : m.isPass = false := Bool.eq_false_iff.mpr hpass
    obtain ⟨hov, hpid, hne, hsome, _⟩ := validateMove_true_elim hval hpass2
    obtain ⟨hh, hp2, hd, _⟩ := applyMove_play_fields gs m hpass2
    obtain ⟨nh, hnh⟩ := Option.isSome_iff_exists.mp hsome
    have hlen := (handRemove_some_spec hnh).2
    have hplt : m.playerID < gs.hands.length := by
      rw [hpid, hc1]; exact hc3
    rw [totalCards, totalCards, hh, hp2, hd, hnh]
    simp only [Option.getD_some]
    rw [List.map_set]
    have hmaplen : m.playerID < (gs.hands.map List.length).length := by
      rw [List.length_map]; exact hplt
    have hs := sum_set_nat (gs.hands.map List.length) m.playerID nh.length
      hmaplen
    have hgd : (gs.hands.map List.length).getD m.playerID 0
        = (gs.hands.getD m.playerID []).length := by
      rw [List.getD_eq_getElem?_getD, List.getD_eq_getElem?_getD,
        List.getElem?_map]
      cases gs.hands[m.playerID]? <;> rfl
    rw [hgd] at hs
    rw [List.length_append]
    omega

/-- Finish flags versus hands: while the game is not over, every finished
player has an empty hand after a validated move (on an invariant state). -/
theorem applyMove_finished_empty (gs : GameState) (m : Move)
    (hinv : Inv gs) (hval : gs.validateMove m = true)
    (hov2 : (gs.applyMove m).gameOver = false) :
    ∀ p < (gs.applyMove m).numPlayers,
      (gs.applyMove m).finished.getD p false = true →
      (gs.applyMove m).hands.getD p [] = [] := by
  obtain ⟨hc1, hc2, hc3, hc4, hc5, hc6, hc7, hc8, hc9, hc10, hc11, _⟩ := hinv
  obtain ⟨hover, hpid⟩ := validateMove_true_basics hval
  by_cases hpass : m.isPass = true
  · obtain ⟨h1, _, _, h4, _, _, h7⟩ := applyMove_pass_fields gs m hpass
    intro p hp hfin
    rw [h7] at hp
    rw [h4] at hfin
    rw [h1]
    exact hc11 hover p hp hfin
  · have hpass2 : m.isPass = false := Bool.eq_false_iff.mpr hpass
    have hplt : m.playerID < gs.hands.length := by rw [hpid, hc1]; exact hc3
    obtain ⟨hh, _, _, hn⟩ := applyMove_play_fields gs m hpass2
    obtain ⟨hst1, hst2, hst3⟩ := applyMove_play_status gs m
      ((handRemove (gs.hands.getD m.playerID []) m.cards).getD
        (gs.hands.getD m.playerID [])) hpass2 hplt rfl
    intro p hp hfin
    rw [hn] at hp
    rw [hh]
    by_cases hemp : (((handRemove (gs.hands.getD m.playerID []) m.cards).getD
        (gs.hands.getD m.playerID []))).isEmpty = true
    · by_cases hact : ((gs.finished.set m.playerID true).filter
          (fun f => !f)).length ≤ 1
      · exact absurd ((hst3 hemp hact).1)
          (by rw [hov2]; exact Bool.false_ne_true)
      · obtain ⟨hfin2, _, _⟩ := hst2 hemp hact
        rw [hfin2] at hfin
        by_cases hpp : p = m.playerID
        · subst hpp
          rw [getD_set_self gs.hands m.playerID _ [] hplt]
          exact List.isEmpty_iff.mp hemp
        · rw [getD_set_ne gs.finished (fun hc => hpp hc.symm) true false]
            at hfin
          rw [getD_set_ne gs.hands (fun hc => hpp hc.symm) _ []]
          exact hc11 hover p hp hfin
    · obtain ⟨hfin2, _, _⟩ := hst1 (Bool.eq_false_iff.mpr hemp)
      rw [hfin2] at hfin
      by_cases hpp : p = m.playerID
      · subst hpp
        rw [hpid, hc10 hover] at hfin
        exact Bool.noConfusion hfin
      · rw [getD_set_ne gs.hands (fun hc => hpp hc.symm) _ []]
        exact hc11 hover p hp hfin

/-- Terminal ranking: if a validated move ends the game (on an invariant
state), the finishing order lists every player exactly once. -/
theorem applyMove_terminal_ranking (gs : GameState) (m : Move)
    (hinv : Inv gs) (hval : gs.validateMove m = true)
    (hov2 : (gs.applyMove m).gameOver = true) :
    (gs.applyMove m).ranking.Nodup
    ∧ ∀ p : ℕ, p ∈ (gs.applyMove m).ranking
        ↔ p < (gs.applyMove m).numPlayers := by
  obtain ⟨hc1, hc2, hc3, hc4, hc5, hc6, hc7, hc8, hc9, hc10, hc11, _⟩ := hinv
  obtain ⟨hover, hpid⟩ := validateMove_true_basics hval
  by_cases hpass : m.isPass = true
  · obtain ⟨_, _, _, _, h5, _, _⟩ := applyMove_pass_fields gs m hpass
    rw [h5, hover] at hov2
    exact Bool.noConfusion hov2
  · have hpass2 : m.isPass = false := Bool.eq_false_iff.mpr hpass
    have hplt : m.playerID < gs.hands.length := by rw [hpid, hc1]; exact hc3
    have hpn : m.playerID < gs.numPlayers := by rw [hpid]; exact hc3
    have hpfin : gs.finished.getD m.playerID false = false := by
      rw [hpid]; exact hc10 hover
    have hpflen : m.playerID < gs.finished.length := by rw [hc2]; exact hpn
    have hpnr : m.playerID ∉ gs.ranking := by
      intro hmem
      have hx := (hc7 m.playerID hpn).mpr hmem
      rw [hpfin] at hx
      exact Bool.noConfusion hx
    obtain ⟨_, _, _, hn⟩ := applyMove_play_fields gs m hpass2
    obtain ⟨hst1, hst2, hst3⟩ := applyMove_play_status gs m
      ((handRemove (gs.hands.getD m.playerID []) m.cards).getD
        (gs.hands.getD m.playerID [])) hpass2 hplt rfl
    by_cases hemp : (((handRemove (gs.hands.getD m.playerID []) m.cards).getD
        (gs.hands.getD m.playerID []))).isEmpty = true
    · by_cases hact : ((gs.finished.set m.playerID true).filter
          (fun f => !f)).length ≤ 1
      · cases hfi : (gs.finished.set m.playerID true).findIdx?
            (fun f => f = false) with
        | none =>
          obtain ⟨hfin2, hrank2⟩ := (hst3 hemp hact).2.1 hfi
          have hall : ∀ q, q < gs.finished.length → q ≠ m.playerID →
              gs.finished.getD q false = true := by
            intro q hq hqp
            have hq2 : q < (gs.finished.set m.playerID true).length := by
              rw [List.length_set]; exact hq
            have hnone := List.findIdx?_eq_none_iff.mp hfi _
              (List.getElem_mem hq2)
            have hne : (gs.finished.set m.playerID true)[q] ≠ false :=
              of_decide_eq_false hnone
            have htrue : (gs.finished.set m.playerID true).getD q false
                = true := by
              rw [List.getD_eq_getElem _ false hq2]
              rcases hb : (gs.finished.set m.playerID true)[q] with _ | _
              · exact absurd hb hne
              · rfl
            rw [getD_set_ne gs.finished (fun hc => hqp hc.symm) true false]
              at htrue
            exact htrue
          rw [hrank2]
          constructor
          · rw [List.nodup_append]
            exact ⟨hc5, List.nodup_singleton _,
              fun a ha hb => hpnr ((List.mem_singleton.mp hb) ▸ ha)⟩
          · intro p
            rw [hn]
            constructor
            · intro hmem
              rcases List.mem_append.mp hmem with h | h
              · exact hc6 p h
              · rw [List.mem_singleton] at h
                subst h
                exact hpn
            · intro hp
              by_cases hqp : p = m.playerID
              · subst hqp
                exact List.mem_append.mpr
                  (Or.inr (List.mem_singleton.mpr rfl))
              · have hft : gs.finished.getD p false = true :=
                  hall p (by rw [hc2]; exact hp) hqp
                exact List.mem_append.mpr (Or.inl ((hc7 p hp).mp hft))
        | some i =>
          obtain ⟨hfin2, hrank2⟩ := (hst3 hemp hact).2.2 i hfi
          obtain ⟨hilen, hpi, _⟩ := List.findIdx?_eq_some_iff_getElem.mp hfi
          have hifalse : (gs.finished.set m.playerID true)[i] = false :=
            of_decide_eq_true hpi
          have hilen2 : i < gs.finished.length := by
            rw [← List.length_set gs.finished m.playerID true]
            exact hilen
          have hgetD : (gs.finished.set m.playerID true).getD i false
              = false := by
            rw [List.getD_eq_getElem _ false hilen]
            exact hifalse
          have hip : i ≠ m.playerID := by
            intro hc
            subst hc
            rw [getD_set_self gs.finished m.playerID true false hpflen]
              at hgetD
            exact Bool.noConfusion hgetD
          have hifin : gs.finished.getD i false = false := by
            rw [getD_set_ne gs.finished (fun hc => hip hc.symm) true false]
              at hgetD
            exact hgetD
          have hinp : i < gs.numPlayers := by rw [← hc2]; exact hilen2
          have hinr : i ∉ gs.ranking := by
            intro hmem
            have hx := (hc7 i hinp).mpr hmem
            rw [hifin] at hx
            exact Bool.noConfusion hx
          rw [hrank2]
          constructor
          · rw [List.nodup_append]
            refine ⟨?_, List.nodup_singleton _, ?_⟩
            · rw [List.nodup_append]
              exact ⟨hc5, List.nodup_singleton _,
                fun a ha hb => hpnr ((List.mem_singleton.mp hb) ▸ ha)⟩
            · intro a ha hb
              rw [List.mem_singleton] at hb
              subst hb
              rcases List.mem_append.mp ha with h | h
              · exact hinr h
              · rw [List.mem_singleton] at h
                exact hip h
          · intro p
            rw [hn]
            constructor
            · intro hmem
              rcases List.mem_append.mp hmem with h | h
              · rcases List.mem_append.mp h with h2 | h2
                · exact hc6 p h2
                · rw [List.mem_singleton] at h2
                  subst h2
                  exact hpn
              · rw [List.mem_singleton] at h
                subst h
                exact hinp
            · intro hp
              by_cases hqp : p = m.playerID
              · subst hqp
                exact List.mem_append.mpr (Or.inl
                  (List.mem_append.mpr
                    (Or.inr (List.mem_singleton.mpr rfl))))
              · by_cases hqi : p = i
                · subst hqi
                  exact List.mem_append.mpr
                    (Or.inr (List.mem_singleton.mpr rfl))
                · by_cases hpr : p ∈ gs.ranking
                  · exact List.mem_append.mpr (Or.inl
                      (List.mem_append.mpr (Or.inl hpr)))
                  · exfalso
                    have hpfalse : gs.finished.getD p false = false := by
                      rcases hb : gs.finished.getD p false with _ | _
                      · rfl
                      · exact absurd ((hc7 p hp).mp hb) hpr
                    have hplen2 : p < (gs.finished.set m.playerID true).length
                        := by
                      rw [List.length_set, hc2]
                      exact hp
                    have hpelem : (gs.finished.set m.playerID true)[p]
                        = false := by
                      have hx : (gs.finished.set m.playerID true).getD p false
                          = false := by
                        rw [getD_set_ne gs.finished (fun hc => hqp hc.symm)
                          true false]
                        exact hpfalse
                      rw [List.getD_eq_getElem _ false hplen2] at hx
                      exact hx
                    have h2le := two_unfinished
                      (gs.finished.set m.playerID true) p i hqi hplen2 hilen
                      hpelem hifalse
                    omega
      · obtain ⟨_, _, hov3⟩ := hst2 hemp hact
        rw [hov3, hover] at hov2
        exact Bool.noConfusion hov2
    · obtain ⟨_, _, hov3⟩ := hst1 (Bool.eq_false_iff.mpr hemp)
      rw [hov3, hover] at hov2
      exact Bool.noConfusion hov2

/-- C2: on an invariant (reachable) position, a move accepted by
`validateMove` conserves the total card count across hands, played pile and
dead pile; while the game is not yet over every player marked finished has
an empty hand; and when the move ends the game the finishing-order list
contains every player exactly once.  (At game end itself the auto-finished
last player keeps their cards, so the finished-means-empty clause holds
only before the terminal position — see the counterexample.) -/
theorem c2_conservation_invariant (gs : GameState) (m : Move)
    (hinv : Inv gs) (hval : gs.validateMove m = true) :
    totalCards (gs.applyMove m) = totalCards gs
    ∧ ((gs.applyMove m).gameOver = false →
        ∀ p < (gs.applyMove m).numPlayers,
          (gs.applyMove m).finished.getD p false = true →
          (gs.applyMove m).hands.getD p [] = [])
    ∧ ((gs.applyMove m).gameOver = true →
        (gs.applyMove m).ranking.Nodup
        ∧ ∀ p : ℕ, p ∈ (gs.applyMove m).ranking
            ↔ p < (gs.applyMove m).numPlayers) :=
  ⟨applyMove_conservation gs m hinv hval,
    fun h => applyMove_finished_empty gs m hinv hval h,
    fun h => applyMove_terminal_ranking gs m hinv hval h⟩

/-- Witness for C2: a concrete four-card two-player game; playing one Three
conserves the 4-card total. -/
theorem c2_witness :
    Inv (newGameWithHands [[3, 4], [5, 6]] [] 0)
    ∧ (newGameWithHands [[3, 4], [5, 6]] [] 0).validateMove
        (Move.mk 0 [3] false) = true
    ∧ totalCards ((newGameWithHands [[3, 4], [5, 6]] [] 0).applyMove
        (Move.mk 0 [3] false))
      = totalCards (newGameWithHands [[3, 4], [5, 6]] [] 0) :=
  ⟨by decide, by decide,
    (c2_conservation_invariant (newGameWithHands [[3, 4], [5, 6]] [] 0)
      (Move.mk 0 [3] false) (by decide) (by decide)).1⟩

/-- Counterexample for C2 as claimed: playing the last card ends the game by
auto-finishing the only remaining opponent, who is then marked finished with
a non-empty hand. -/
theorem c2_counterexample :
    Inv (newGameWithHands [[3], [4, 4]] [] 0)
    ∧ (newGameWithHands [[3], [4, 4]] [] 0).validateMove
        (Move.mk 0 [3] false) = true
    ∧ ((newGameWithHands [[3], [4, 4]] [] 0).applyMove
        (Move.mk 0 [3] false)).gameOver = true
    ∧ ((newGameWithHands [[3], [4, 4]] [] 0).applyMove
        (Move.mk 0 [3] false)).finished.getD 1 false = true
    ∧ ((newGameWithHands [[3], [4, 4]] [] 0).applyMove
        (Move.mk 0 [3] false)).hands.getD 1 [] = [4, 4] := by
  refine ⟨by decide, by decide, by decide, by decide, by decide⟩

/-- The three tiers partition the unused pool (as a permutation). -/
theorem tiersOf_perm (ex : ℕ → Bool) :
    ∀ (unused : List (ℕ × ℕ)) (susp : ℕ → ℕ),
      ((tiersOf susp ex unused).1 ++ (tiersOf susp ex unused).2.1
        ++ (tiersOf susp ex unused).2.2).Perm unused := by
  intro unused
  induction unused with
  | nil => intro susp; simp [tiersOf]
  | cons c rest ih =>
    intro susp
    by_cases hs : 0 < susp c.2
    · simp only [tiersOf]
      rw [if_pos hs]
      exact (ih _).cons c
    · by_cases he : ex c.2 = true
      · simp only [tiersOf]
        rw [if_neg hs, if_pos he]
        exact List.Perm.trans List.perm_middle ((ih susp).cons c)
      · simp only [tiersOf]
        rw [if_neg hs, if_neg he]
        exact List.Perm.trans (List.perm_middle.append_right _)
          ((ih susp).cons c)

/-- Core of the determinizer's one-opponent step: taking a prefix of any
reordering of the pool and erasing it from the pool by (distinct) indices
conserves the pool's card multiset. -/
theorem take_filter_spec (unused ordered : List (ℕ × ℕ)) (need : ℕ)
    (hnd : (unused.map Prod.fst).Nodup)
    (hperm : ordered.Perm unused)
    (hge : need ≤ ordered.length) :
    ((ordered.take need).map Prod.snd).length = need
    ∧ ((↑((ordered.take need).map Prod.snd)
        + ↑((unused.filter
            (fun x => ¬ x.1 ∈ (ordered.take need).map Prod.fst)).map
          Prod.snd)) : Multiset ℕ)
      = ↑(unused.map Prod.snd)
    ∧ ((unused.filter
        (fun x => ¬ x.1 ∈ (ordered.take need).map Prod.fst)).map
      Prod.fst).Nodup := by
  have hnodupu : unused.Nodup := List.Nodup.of_map _ hnd
  have hordnodup : ordered.Nodup := (hperm.nodup_iff).mpr hnodupu
  have htknodup : (ordered.take need).Nodup :=
    List.Nodup.sublist (List.take_sublist need ordered) hordnodup
  have htkmem : ∀ x ∈ ordered.take need, x ∈ unused := fun x hx =>
    hperm.mem_iff.mp ((List.take_sublist need ordered).subset hx)
  have hfnodup : (unused.filter
      (fun x => decide (x.1 ∈ (ordered.take need).map Prod.fst))).Nodup :=
    List.Nodup.sublist (List.filter_sublist unused) hnodupu
  have hfin_perm : (unused.filter
      (fun x => decide (x.1 ∈ (ordered.take need).map Prod.fst))).Perm
        (ordered.take need) := by
    rw [List.perm_ext_iff_of_nodup hfnodup htknodup]
    intro x
    rw [List.mem_filter, decide_eq_true_eq]
    constructor
    · rintro ⟨hxu, hxi⟩
      obtain ⟨y, hy, hyx⟩ := List.mem_map.mp hxi
      have hyu : y ∈ unused := htkmem y hy
      have : y = x := List.inj_on_of_nodup_map hnd hyu hxu hyx
      exact this ▸ hy
    · intro hx
      exact ⟨htkmem x hx, List.mem_map.mpr ⟨x, hx, rfl⟩⟩
  have hrcongr : unused.filter
        (fun x => ¬ x.1 ∈ (ordered.take need).map Prod.fst)
      = unused.filter
        (fun x => !(decide (x.1 ∈ (ordered.take need).map Prod.fst))) :=
    List.filter_congr (fun x _ => decide_not)
  refine ⟨?_, ?_, ?_⟩
  · rw [List.length_map, List.length_take]
    exact min_eq_left hge
  · have hpair : ((↑(ordered.take need)
        + ↑(unused.filter
          (fun x => ¬ x.1 ∈ (ordered.take need).map Prod.fst)))
          : Multiset (ℕ × ℕ))
        = ↑unused := by
      rw [Multiset.coe_add, Multiset.coe_eq_coe, hrcongr]
      exact List.Perm.trans
        (hfin_perm.symm.append_right _) (List.filter_append_perm _ unused)
    have hmapped := congrArg (Multiset.map Prod.snd) hpair
    rw [Multiset.map_add, Multiset.map_coe, Multiset.map_coe,
      Multiset.map_coe] at hmapped
    exact hmapped
  · rw [hrcongr]
    exact List.Nodup.sublist
      ((List.filter_sublist unused).map Prod.fst) hnd

/-- Specification of one opponent's assignment: on success the hand has
exactly the clamped recorded size, hand plus remaining pool carry the same
cards as the incoming pool, and the remaining pool keeps distinct indices. -/
theorem assignOne_spec (kt : KnowledgeTracker) (p : ℕ)
    (unused : List (ℕ × ℕ)) (hand : List ℕ) (rest : List (ℕ × ℕ))
    (hnd : (unused.map Prod.fst).Nodup)
    (hA : assignOne kt p unused = some (hand, rest)) :
    hand.length = (max (kt.handCounts.getD p 0) 0).toNat
    ∧ ((↑hand + ↑(rest.map Prod.snd)) : Multiset ℕ)
        = ↑(unused.map Prod.snd)
    ∧ (rest.map Prod.fst).Nodup := by
  unfold assignOne at hA
  simp only [] at hA
  by_cases hneed : 0 < (max (kt.handCounts.getD p 0) 0).toNat
  · rw [if_pos hneed] at hA
    split_ifs at hA with hlt
    rw [Option.some.injEq, Prod.mk.injEq] at hA
    have hinner : ((tiersOf (fun r => (kt.suspicions p).count r)
          (fun r => kt.excludedRanks p r) unused).2.1.filter
            (fun x => x.2 = 14 ∨ x.2 = 15)
        ++ (tiersOf (fun r => (kt.suspicions p).count r)
          (fun r => kt.excludedRanks p r) unused).2.1.filter
            (fun x => ¬ (x.2 = 14 ∨ x.2 = 15))).Perm
        (tiersOf (fun r => (kt.suspicions p).count r)
          (fun r => kt.excludedRanks p r) unused).2.1 := by
      rw [List.filter_congr (fun x _ => decide_not)]
      exact List.filter_append_perm _ _
    have hperm : ((tiersOf (fun r => (kt.suspicions p).count r)
          (fun r => kt.excludedRanks p r) unused).1
        ++ ((tiersOf (fun r => (kt.suspicions p).count r)
          (fun r => kt.excludedRanks p r) unused).2.1.filter
            (fun x => x.2 = 14 ∨ x.2 = 15)
        ++ (tiersOf (fun r => (kt.suspicions p).count r)
          (fun r => kt.excludedRanks p r) unused).2.1.filter
            (fun x => ¬ (x.2 = 14 ∨ x.2 = 15)))
        ++ (tiersOf (fun r => (kt.suspicions p).count r)
          (fun r => kt.excludedRanks p r) unused).2.2).Perm unused :=
      List.Perm.trans
        (((List.Perm.refl _).append hinner).append (List.Perm.refl _))
        (tiersOf_perm (fun r => kt.excludedRanks p r) unused
          (fun r => (kt.suspicions p).count r))
    obtain ⟨hl, hm, hn⟩ := take_filter_spec unused _
      ((max (kt.handCounts.getD p 0) 0).toNat) hnd hperm (le_of_not_lt hlt)
    rw [← hA.1, ← hA.2]
    exact ⟨hl, hm, hn⟩
  · rw [if_neg hneed] at hA
    split_ifs at hA with hlt
    rw [Option.some.injEq, Prod.mk.injEq] at hA
    have hperm := tiersOf_perm (fun r => kt.excludedRanks p r) unused
      (fun r => (kt.suspicions p).count r)
    obtain ⟨hl, hm, hn⟩ := take_filter_spec unused _
      ((max (kt.handCounts.getD p 0) 0).toNat) hnd hperm (le_of_not_lt hlt)
    rw [← hA.1, ← hA.2]
    exact ⟨hl, hm, hn⟩

/-- Specification of the determinizer's player loop: on success each listed
opponent's hand gets exactly its clamped recorded size, the assigned hands
plus a leftover pool carry exactly the incoming pool's cards, other seats
are untouched, and the hand-list length is preserved. -/
theorem detLoop_spec (kt : KnowledgeTracker) :
    ∀ (ps : List ℕ) (unused : List (ℕ × ℕ)) (hands hands2 : List (List ℕ)),
      (unused.map Prod.fst).Nodup →
      ps.Nodup →
      (∀ p ∈ ps, p < hands.length) →
      detLoop kt ps unused hands = some hands2 →
      ∃ rest : List (ℕ × ℕ),
        ((ps.filter (fun p => p ≠ kt.myPlayerID)).foldr
            (fun p acc => ((hands2.getD p [] : Multiset ℕ) + acc)) 0)
          + ↑(rest.map Prod.snd) = (↑(unused.map Prod.snd) : Multiset ℕ)
        ∧ (∀ p ∈ ps, p ≠ kt.myPlayerID →
            (hands2.getD p []).length
              = (max (kt.handCounts.getD p 0) 0).toNat)
        ∧ (∀ q, q ∉ ps → hands2.getD q [] = hands.getD q [])
        ∧ hands2.length = hands.length := by
  intro ps
  induction ps with
  | nil =>
    intro unused hands hands2 _ _ _ hL
    simp only [detLoop] at hL
    rw [Option.some.injEq] at hL
    subst hL
    exact ⟨unused, by simp, fun p hp => absurd hp (List.not_mem_nil p),
      fun q _ => rfl, rfl⟩
  | cons p ps ih =>
    intro unused hands hands2 hnd hps hbound hL
    simp only [detLoop] at hL
    by_cases hmy : p = kt.myPlayerID
    · rw [if_pos hmy] at hL
      obtain ⟨rest, hsum, hlens, hunch, hhlen⟩ := ih unused hands hands2 hnd
        (List.Nodup.of_cons hps) (fun q hq => hbound q (List.mem_cons_of_mem p hq)) hL
      refine ⟨rest, ?_, ?_, ?_, hhlen⟩
      · rw [List.filter_cons, if_neg (by simp [hmy])]
        exact hsum
      · intro q hq hqmy
        rcases List.mem_cons.mp hq with rfl | hmem
        · exact absurd hmy hqmy
        · exact hlens q hmem hqmy
      · intro q hq
        exact hunch q (fun hc => hq (List.mem_cons_of_mem p hc))
    · rw [if_neg hmy] at hL
      split at hL
      · exact Option.noConfusion hL
      · rename_i hu heqA
        obtain ⟨hlen1, hmeq, hndr⟩ := assignOne_spec kt p unused hu.1 hu.2
          hnd heqA
        have hplt : p < hands.length := hbound p (List.mem_cons_self p ps)
        have hpns : p ∉ ps := (List.nodup_cons.mp hps).1
        obtain ⟨rest2, hsum2, hlens2, hunch2, hhlen2⟩ := ih hu.2
          (hands.set p hu.1) hands2 hndr (List.Nodup.of_cons hps)
          (fun q hq => by
            rw [List.length_set]
            exact hbound q (List.mem_cons_of_mem p hq)) hL
        have hgp : hands2.getD p [] = hu.1 := by
          rw [hunch2 p hpns, getD_set_self hands p hu.1 [] hplt]
        refine ⟨rest2, ?_, ?_, ?_, by rw [hhlen2, List.length_set]⟩
        · rw [List.filter_cons, if_pos (by simpa using hmy)]
          simp only [List.foldr_cons]
          rw [hgp, add_assoc, hsum2, hmeq]
        · intro q hq hqmy
          rcases List.mem_cons.mp hq with rfl | hmem
          · rw [hgp]
            exact hlen1
          · exact hlens2 q hmem hqmy
        · intro q hq
          have hqp : q ≠ p := fun hc => hq (hc ▸ List.mem_cons_self p ps)
          rw [hunch2 q (fun hc => hq (List.mem_cons_of_mem p hc)),
            getD_set_ne hands (fun hc => hqp hc.symm) hu.1 []]

/-- The card count of the accumulated opponent hands. -/
theorem foldr_card (hands : List (List ℕ)) :
    ∀ ps : List ℕ,
      Multiset.card (ps.foldr
          (fun p acc => ((hands.getD p [] : Multiset ℕ) + acc)) 0)
        = (ps.map (fun p => (hands.getD p []).length)).sum := by
  intro ps
  induction ps with
  | nil => simp
  | cons p t ih =>
    simp only [List.foldr_cons, Multiset.card_add, Multiset.coe_card,
      List.map_cons, List.sum_cons, ih]

/-- C4: when `determinize` (omniscient mode off) returns a position, every
opponent of the observer holds exactly their clamped recorded hand count,
the union of the dealt hands is drawn without replacement from the
`possibleOpponentCards` pool, and the pool was large enough for the total
need — so a pool shortfall always yields `none`. -/
theorem c4_determinize_postcondition (gs : GameState) (kt : KnowledgeTracker)
    (shuffled : List ℕ) (det : GameState)
    (hlen : gs.hands.length = gs.numPlayers)
    (hperm : shuffled.Perm kt.possibleOpponentCards)
    (hdet : determinize false gs kt shuffled = some det) :
    (∀ p < gs.numPlayers, p ≠ kt.myPlayerID →
        (det.hands.getD p []).length
          = (max (kt.handCounts.getD p 0) 0).toNat)
    ∧ opponentsCards det.hands gs.numPlayers kt.myPlayerID
        ≤ (↑kt.possibleOpponentCards : Multiset ℕ)
    ∧ neededCards kt gs.numPlayers ≤ shuffled.length := by
  unfold determinize at hdet
  rw [if_neg Bool.false_ne_true] at hdet
  split at hdet
  · exact Option.noConfusion hdet
  · rename_i hands1 heqL
    rw [Option.some.injEq] at hdet
    subst hdet
    have hnd : ((shuffled.enum).map Prod.fst).Nodup := by
      rw [List.enum_map_fst]
      exact List.nodup_range _
    obtain ⟨rest, hsum, hlens, _, _⟩ := detLoop_spec kt
      (List.range gs.numPlayers) shuffled.enum gs.hands hands1 hnd
      (List.nodup_range _)
      (fun q hq => by rw [hlen]; exact List.mem_range.mp hq) heqL
    refine ⟨?_, ?_, ?_⟩
    · intro p hp hpmy
      exact hlens p (List.mem_range.mpr hp) hpmy
    · rw [Multiset.le_iff_exists_add]
      refine ⟨↑(rest.map Prod.snd), ?_⟩
      have hopp : opponentsCards
            ({ gs with hands := hands1 } : GameState).hands gs.numPlayers
            kt.myPlayerID
          = ((List.range gs.numPlayers).filter
              (fun p => p ≠ kt.myPlayerID)).foldr
              (fun p acc => ((hands1.getD p [] : Multiset ℕ) + acc)) 0 := rfl
      rw [hopp, hsum, List.enum_map_snd]
      exact (Multiset.coe_eq_coe.mpr hperm).symm
    · have hcard := congrArg Multiset.card hsum
      rw [Multiset.card_add, Multiset.coe_card, Multiset.coe_card,
        foldr_card hands1] at hcard
      have hmapeq : ((List.range gs.numPlayers).filter
            (fun p => p ≠ kt.myPlayerID)).map
            (fun p => (hands1.getD p []).length)
          = ((List.range gs.numPlayers).filter
            (fun p => p ≠ kt.myPlayerID)).map
            (fun p => (max (kt.handCounts.getD p 0) 0).toNat) :=
        List.map_congr_left (fun q hq =>
          hlens q (List.mem_filter.mp hq).1
            (of_decide_eq_true (List.mem_filter.mp hq).2))
      rw [hmapeq, List.enum_map_snd] at hcard
      rw [neededCards]
      omega

/-- Witness for C4: with recorded counts `[0, 2]` the (identity-shuffled)
determinization deals opponent 1 exactly two cards. -/
theorem c4_witness :
    (((determinize false (GameState.mk 2 [[], []] 0 ⟨1, 0, true, 0, 0⟩ [] [] false (-1) [] [false, false] [])
        { newKnowledgeTracker 2 0 [] [] with handCounts := [0, 2] }
        (KnowledgeTracker.possibleOpponentCards
          { newKnowledgeTracker 2 0 [] [] with handCounts := [0, 2] })).getD
        (GameState.mk 2 [[], []] 0 ⟨1, 0, true, 0, 0⟩ [] [] false (-1) [] [false, false] [])).hands.getD 1 []).length
      = (max (({ newKnowledgeTracker 2 0 [] [] with handCounts := [0, 2] } : KnowledgeTracker).handCounts.getD 1 0) 0).toNat :=
  (c4_determinize_postcondition (GameState.mk 2 [[], []] 0 ⟨1, 0, true, 0, 0⟩ [] [] false (-1) [] [false, false] [])
    { newKnowledgeTracker 2 0 [] [] with handCounts := [0, 2] }
    (KnowledgeTracker.possibleOpponentCards { newKnowledgeTracker 2 0 [] [] with handCounts := [0, 2] })
    ((determinize false (GameState.mk 2 [[], []] 0 ⟨1, 0, true, 0, 0⟩ [] [] false (-1) [] [false, false] []) { newKnowledgeTracker 2 0 [] [] with handCounts := [0, 2] }
      (KnowledgeTracker.possibleOpponentCards { newKnowledgeTracker 2 0 [] [] with handCounts := [0, 2] })).getD
      (GameState.mk 2 [[], []] 0 ⟨1, 0, true, 0, 0⟩ [] [] false (-1) [] [false, false] []))
    (by decide) (List.Perm.refl _) (by rfl)).1 1 (by decide) (by decide)

end Azen
